import Mathlib

/-!
# ContiguousLineFilter

A shallow embedding of `contiguous_line_filter.cpp` / `contiguous_line_filter.h`
and the properties proved about it.

Conventions of the embedding

* `T = uint8_t`, `T2 = uint16_t`, `T4 = uint32_t` values are natural numbers; every
  assignment to a variable of such a type reduces modulo `2^8`, `2^16`, `2^32`.
* C `int` values that may be negative (loop offsets `k`, `l`, `j`, pixel coordinates)
  are integers.
* `cv::Mat` (single channel, 8 bit) is its two dimensions and its pixel function.
* A C `for (x = lo; x < hi; ++x)` loop is `forLoop lo hi body`, a left fold of the
  loop body over `lo, lo+1, ..., hi-1`.  A `break` guarded by a condition at the top of
  the body is rendered by skipping the body once the condition holds (the condition is
  stable, the state no longer changes).
* A failed `assert`, and a write past the end of a `std::vector`, make the
  constructor return `none`.
-/

namespace CLF

/-! ## Machine integers and loops -/

/-- Conversion of a C `int` to `uint32_t` (`T4`). -/
def toU32 (x : Int) : Nat := (x % 4294967296).toNat

/-- Conversion of a C `int` to `uint8_t` (`T`), as in `static_cast<T>(tmp)`. -/
def toU8 (x : Int) : Nat := (x % 256).toNat

/-- The loop `for (x = lo; x < hi; ++x) body`, threading the state. -/
def forLoop {σ : Type} (lo hi : Int) (body : Int → σ → σ) (s : σ) : σ :=
  (List.range (hi - lo).toNat).foldl (fun st (n : Nat) => body (lo + (n : Int)) st) s

/-! ## Images -/

/-- A single-channel 8-bit `cv::Mat`: `rows`, `cols` and the pixel at `(row, col)`. -/
structure Mat where
  rows : Int
  cols : Int
  px : Int → Int → Nat

/-- Read access `m.at<T>(row, col)`. -/
def Mat.get (m : Mat) (row col : Int) : Nat := m.px row col

/-- Write access `m.at<T>(row, col) = v`. -/
def Mat.set (m : Mat) (row col : Int) (v : Nat) : Mat :=
  { m with px := fun r c => if r = row ∧ c = col then v else m.px r c }

/-- An image given by its rows (used for concrete inputs). -/
def Mat.ofRows (l : List (List Nat)) : Mat :=
  { rows := l.length
    cols := (l.headD []).length
    px := fun r c => if 0 ≤ r ∧ 0 ≤ c then (l.getD r.toNat []).getD c.toNat 0 else 0 }

/-- The call `cv::threshold(src, dst, thresh, maxval, 0)`; type `0` is `THRESH_BINARY`:
`dst(r,c) = maxval` if `src(r,c) > thresh` and `0` otherwise. -/
def threshold (src : Mat) (thresh maxval : Nat) : Mat :=
  { rows := src.rows
    cols := src.cols
    px := fun r c => if src.px r c > thresh then maxval else 0 }

/-- The call `copyMakeBorder(src, dst, top, bottom, left, right, cv::BORDER_CONSTANT, value)`. -/
def copyMakeBorder (src : Mat) (top bottom left right : Int) (value : Nat) : Mat :=
  { rows := src.rows + top + bottom
    cols := src.cols + left + right
    px := fun r c =>
      if top ≤ r ∧ r < top + src.rows ∧ left ≤ c ∧ c < left + src.cols
      then src.px (r - top) (c - left) else value }

/-! ## The filter object and its constructor -/

/-- The data members of `class ContiguousLineFilter`. -/
structure ContiguousLineFilter where
  mKernelSize : Nat
  mKernelRuns : Nat
  mKernelSpan : Nat
  mKernelVecSize : Nat
  mChecksum : Nat
  mLUTsize : Nat
  h_mKernel : List Nat
  h_mKernelVec : List Nat
  h_mAcceptableVec : List Nat

/-- The array `powersOfTwo` of the constructor: `powersOfTwo[mhKernelSize - i] = std::pow(2, i)`,
stored as `T`. -/
def powersOfTwo (mhKernelSize : Nat) : List Nat :=
  forLoop 0 (mhKernelSize + 1)
    (fun i p => p.set ((mhKernelSize : Int) - i).toNat (2 ^ i.toNat % 256))
    (List.replicate (mhKernelSize + 1) 0)

/-- The vector `h_mKernel` after the concentric population loops of the constructor. -/
def buildKernel (mKernelSize : Nat) : List Nat :=
  let mhKernelSize := mKernelSize / 2
  forLoop 0 (mhKernelSize + 1)
    (fun i ker =>
      forLoop i (mKernelSize - i)
        (fun x ker =>
          forLoop i (mKernelSize - i)
            (fun y ker =>
              ker.set (y * mKernelSize + x).toNat ((powersOfTwo mhKernelSize).getD i.toNat 0))
            ker)
        ker)
    (List.replicate (mKernelSize * mKernelSize) 0)

/-- The member `mChecksum` after the checksum loop of the constructor (a `T` accumulator). -/
def buildChecksum (mKernelSize : Nat) (h_mKernel : List Nat) : Nat :=
  let mhKernelSize := mKernelSize / 2
  forLoop 0 mKernelSize
    (fun i cs => (cs + h_mKernel.getD ((mhKernelSize : Int) * mKernelSize + i).toNat 0) % 256)
    0

/-- The vector `h_mKernelVec` after reading `mKernelVecSize` integers from the weights file;
`file` lists the integers of the file in order.  This is the behaviour of the code for a file
that holds at least `mKernelVecSize` integers, each in the range of `int`: slot `i` gets
`static_cast<T>` of the `i`-th integer.  For a shorter file, or after an integer outside
`int`, `fin >> tmp` fails and the code stores whatever the uninitialised `tmp` holds (for an
integer above the range, `255`); here such a slot gets `0`, respectively the integer modulo
`256`.  Every value a slot can take is an 8-bit value in either case. -/
def readKernelVec (file : List Int) (mKernelVecSize : Nat) : List Nat :=
  forLoop 0 mKernelVecSize
    (fun i v => v.set i.toNat (toU8 (file.getD i.toNat 0)))
    (List.replicate mKernelVecSize 0)

/-- One execution of the body of the inner loop over `j` of the acceptable-product builder,
on the state `(acceptable_vec, counter)`; `none` is a write past the end of `acceptable_vec`. -/
def acceptableBody (h_mKernelVec : List Nat) (mKernelVecSize : Nat) (i opposite_end j : Int)
    (st : Option (List Nat × Nat)) : Option (List Nat × Nat) :=
  st.bind fun s =>
    let prod := h_mKernelVec.getD i.toNat 0 *
      h_mKernelVec.getD (toU32 (opposite_end + j) % mKernelVecSize) 0
    if prod ∈ s.1 then some s
    else if s.2 < s.1.length then some (s.1.set s.2 (prod % 65536), s.2 + 1)
    else none

/-- The vector `acceptable_vec` and `counter` after the generation loops of the constructor. -/
def buildAcceptable (h_mKernelVec : List Nat) (mKernelSize mKernelSpan mKernelVecSize mLUTsize : Nat) :
    Option (List Nat × Nat) :=
  let offset : Int := (mKernelSize : Int) * 2 - 2
  let hKernelSpan : Int := ((mKernelSpan / 2 : Nat) : Int)
  forLoop 0 mKernelVecSize
    (fun i st =>
      let opposite_end := i + offset
      forLoop (-hKernelSpan) (hKernelSpan + 1)
        (fun j st => acceptableBody h_mKernelVec mKernelVecSize i opposite_end j st)
        st)
    (some (List.replicate mLUTsize 0, 0))

/-- The final copy `h_mAcceptableVec[i] = acceptable_vec[i]` for `i < mLUTsize`. -/
def copyAcceptable (acceptable_vec : List Nat) (mLUTsize : Nat) : List Nat :=
  forLoop 0 mLUTsize
    (fun i v => v.set i.toNat (acceptable_vec.getD i.toNat 0))
    (List.replicate mLUTsize 0)

/-- The constructor `ContiguousLineFilter::ContiguousLineFilter`.  `weightsFile` is the
sequence of integers in the file `weightsFilePrefix + kernelSize + ".dat"`, or `none` when
the file cannot be opened. -/
def ContiguousLineFilter.create (weightsFile : Option (List Int))
    (kernelSize kernelRuns kernelSpan : Int) : Option ContiguousLineFilter :=
  let mKernelSize := toU32 kernelSize
  let mKernelRuns := toU32 kernelRuns
  let mKernelSpan := toU32 kernelSpan
  if ¬ mKernelSize ≤ 13 then none
  else if ¬ mKernelSize % 2 = 1 then none
  else
    let h_mKernel := buildKernel mKernelSize
    let mChecksum := buildChecksum mKernelSize h_mKernel
    if ¬ mKernelSpan % 2 = 1 then none
    else
      let mKernelVecSize := (mKernelSize - 1) * 4
      match weightsFile with
      | none => none
      | some file =>
        let h_mKernelVec := readKernelVec file mKernelVecSize
        let mLUTsize := mKernelVecSize * mKernelSpan % 4294967296 / 2
        match buildAcceptable h_mKernelVec mKernelSize mKernelSpan mKernelVecSize mLUTsize with
        | none => none
        | some st =>
          let acceptable_vec := st.1.insertionSort (fun a b => a ≤ b)
          some
            { mKernelSize := mKernelSize
              mKernelRuns := mKernelRuns
              mKernelSpan := mKernelSpan
              mKernelVecSize := mKernelVecSize
              mChecksum := mChecksum
              mLUTsize := mLUTsize
              h_mKernel := h_mKernel
              h_mKernelVec := h_mKernelVec
              h_mAcceptableVec := copyAcceptable acceptable_vec mLUTsize }

/-! ## `run` -/

/-- The local `mhKernelSize = mKernelSize / 2` of `run`. -/
def ContiguousLineFilter.mhKernelSize (f : ContiguousLineFilter) : Int :=
  ((f.mKernelSize / 2 : Nat) : Int)

/-- One iteration of a perimeter scan loop on the state `(num_pos, tmp)`: `break` when
`num_pos >= 2`, else multiply `tmp` (a `T2`) by the weight if the perimeter pixel is positive. -/
def scanBody (pixel weight : Nat) (s : Nat × Nat) : Nat × Nat :=
  if s.1 ≥ 2 then s
  else if pixel > 0 then (s.1 + 1, s.2 * weight % 65536)
  else s

/-- The four perimeter scans of the straight-line pass at the padded position `(j, i)`,
starting from `num_pos = 0`, `tmp = 1`; the result is `(num_pos, tmp)`. -/
def perimeterScan (f : ContiguousLineFilter) (h_pImage : Mat) (j i : Int) : Nat × Nat :=
  let mhKernelSize := f.mhKernelSize
  let mKernelSize : Int := f.mKernelSize
  -- Top row (excluding right-most pixel)
  let s := forLoop (-mhKernelSize) mhKernelSize
    (fun k s => scanBody (h_pImage.get (j - mhKernelSize) (i + k))
      (f.h_mKernelVec.getD (k + mhKernelSize).toNat 0) s) (0, 1)
  -- Right column (excluding bottom-most pixel)
  let s := forLoop (-mhKernelSize) mhKernelSize
    (fun k s => scanBody (h_pImage.get (j + k) (i + mhKernelSize))
      (f.h_mKernelVec.getD (k + mhKernelSize + (mKernelSize - 1)).toNat 0) s) s
  -- Bottom row (excluding left-most pixel)
  let s := forLoop (-mhKernelSize) mhKernelSize
    (fun k s => scanBody (h_pImage.get (j + mhKernelSize) (i - k))
      (f.h_mKernelVec.getD (k + mhKernelSize + 2 * (mKernelSize - 1)).toNat 0) s) s
  -- Left column (excluding top-most pixel)
  forLoop (-mhKernelSize) mhKernelSize
    (fun k s => scanBody (h_pImage.get (j - k) (i - mhKernelSize))
      (f.h_mKernelVec.getD (k + mhKernelSize + 3 * (mKernelSize - 1)).toNat 0) s) s

/-- The linear search `is_acceptable` of `tmp` over the `mLUTsize` slots of `h_mAcceptableVec`. -/
def isAcceptable (f : ContiguousLineFilter) (tmp : Nat) : Bool :=
  forLoop 0 f.mLUTsize
    (fun elem is_acceptable =>
      if is_acceptable then true
      else if tmp = f.h_mAcceptableVec.getD elem.toNat 0 then true
      else false)
    false

/-- The body of the pixel loops of the straight-line pass at the padded position `(j, i)`. -/
def straightLineBody (f : ContiguousLineFilter) (h_pImage : Mat) (j i : Int) (clamped : Mat) :
    Mat :=
  if h_pImage.get j i > 0 then
    let s := perimeterScan f h_pImage j i
    if s.1 = 2 then
      if ¬ isAcceptable f s.2 then
        clamped.set (j - f.mhKernelSize) (i - f.mhKernelSize) 0
      else clamped
    else clamped
  else clamped

/-- The straight-line pass of `run` (pad, then the pixel loops writing into `clamped`). -/
def straightLinePass (f : ContiguousLineFilter) (clamped : Mat) : Mat :=
  let mhKernelSize := f.mhKernelSize
  let h_pImage := copyMakeBorder clamped mhKernelSize mhKernelSize mhKernelSize mhKernelSize 0
  forLoop mhKernelSize (h_pImage.cols - mhKernelSize)
    (fun i clamped =>
      forLoop mhKernelSize (h_pImage.rows - mhKernelSize)
        (fun j clamped => straightLineBody f h_pImage j i clamped)
        clamped)
    clamped

/-- The correlation accumulator `tmp` (a `T`) of the contiguous-line pass at the padded
position `(j, i)`, before the comparison with the checksum. -/
def correlate (f : ContiguousLineFilter) (h_pImage2 : Mat) (j i : Int) : Nat :=
  let mhKernelSize := f.mhKernelSize
  let mKernelSize : Int := f.mKernelSize
  forLoop (-mhKernelSize) (mhKernelSize + 1)
    (fun k tmp =>
      forLoop (-mhKernelSize) (mhKernelSize + 1)
        (fun l tmp =>
          let coefPos := (k + mhKernelSize) * mKernelSize + (l + mhKernelSize)
          (tmp + h_pImage2.get (j + k) (i + l) * f.h_mKernel.getD coefPos.toNat 0) % 256)
        tmp)
    0

/-- The body of the pixel loops of the contiguous-line pass at the padded position `(j, i)`. -/
def contiguousLineBody (f : ContiguousLineFilter) (h_pImage2 : Mat) (j i : Int) (clamped : Mat) :
    Mat :=
  let tmp := correlate f h_pImage2 j i
  let tmp := if tmp = f.mChecksum then 255 else 0
  clamped.set (j - f.mhKernelSize) (i - f.mhKernelSize) tmp

/-- One repetition of the contiguous-line pass of `run`. -/
def contiguousLinePass (f : ContiguousLineFilter) (clamped : Mat) : Mat :=
  let mhKernelSize := f.mhKernelSize
  let h_pImage2 := copyMakeBorder clamped mhKernelSize mhKernelSize mhKernelSize mhKernelSize 0
  forLoop mhKernelSize (h_pImage2.cols - mhKernelSize)
    (fun i clamped =>
      forLoop mhKernelSize (h_pImage2.rows - mhKernelSize)
        (fun j clamped => contiguousLineBody f h_pImage2 j i clamped)
        clamped)
    clamped

/-- The image `clamped` at the start of `run`: `cv::threshold(h_iImage, clamped, 1, 1, 0)`. -/
def clampInput (h_iImage : Mat) : Mat := threshold h_iImage 1 1

/-- The method `ContiguousLineFilter::run`. -/
def ContiguousLineFilter.run (f : ContiguousLineFilter) (h_iImage : Mat) : Mat :=
  let clamped := clampInput h_iImage
  let clamped := straightLinePass f clamped
  forLoop 0 f.mKernelRuns (fun _ clamped => contiguousLinePass f clamped) clamped

/-! ## Auxiliary definitions for the statements -/

/-- The effect of a pixel-loop body: write `v` at `(row, col)`, or leave the image. -/
def writeOpt (m : Mat) (row col : Int) (v : Option Nat) : Mat :=
  match v with
  | some v => m.set row col v
  | none => m

/-- The image obtained from `m` by the writes `G` of a whole pixel loop nest over the
padded columns `ci ≤ i < ce` and rows `ri ≤ j < re`, the write of `(j, i)` going to
`(j - a, i - a)`. -/
def written (a : Int) (G : Int → Int → Option Nat) (ci ce ri re : Int) (m : Mat) : Mat :=
  { m with px := fun r c =>
      if ci ≤ c + a ∧ c + a < ce ∧ ri ≤ r + a ∧ r + a < re
      then (G (r + a) (c + a)).getD (m.px r c) else m.px r c }

/-- The padded snapshot (`h_pImage`, `h_pImage2`) that a pass of `run` reads. -/
def ContiguousLineFilter.padded (f : ContiguousLineFilter) (clamped : Mat) : Mat :=
  copyMakeBorder clamped f.mhKernelSize f.mhKernelSize f.mhKernelSize f.mhKernelSize 0

/-- The condition under which the straight-line pass executes its write
`clamped.at<T>(j - mhKernelSize, i - mhKernelSize) = 0` at the padded position `(j, i)`. -/
def clearedAt (f : ContiguousLineFilter) (h_pImage : Mat) (j i : Int) : Prop :=
  h_pImage.get j i > 0 ∧ (perimeterScan f h_pImage j i).1 = 2 ∧
    isAcceptable f (perimeterScan f h_pImage j i).2 = false

instance (f : ContiguousLineFilter) (h_pImage : Mat) (j i : Int) :
    Decidable (clearedAt f h_pImage j i) := by
  unfold clearedAt
  infer_instance

/-- The value the contiguous-line pass writes at the padded position `(j, i)`. -/
def confirmValue (f : ContiguousLineFilter) (h_pImage2 : Mat) (j i : Int) : Nat :=
  if correlate f h_pImage2 j i = f.mChecksum then 255 else 0

/-- The image `clamped` of `run` after the straight-line pass and `n` repetitions of the
contiguous-line pass. -/
def ContiguousLineFilter.afterRuns (f : ContiguousLineFilter) (h_iImage : Mat) (n : Nat) : Mat :=
  (contiguousLinePass f)^[n] (straightLinePass f (clampInput h_iImage))

/-- The number of pixels of value `255` of an image. -/
def count255 (m : Mat) : Nat :=
  ((List.range m.rows.toNat).map
    (fun (r : Nat) =>
      (List.range m.cols.toNat).countP (fun (c : Nat) => decide (m.get (r : Int) (c : Int) = 255)))).sum

/-! ## Concrete inputs -/

/-- The weights file of the concrete `3 × 3` configurations: eight weights `1`. -/
def weightsOnes : List Int := [1, 1, 1, 1, 1, 1, 1, 1]

/-- The filter constructed from `weightsOnes` with `kernelSize = 3`, `kernelRuns = 1`,
`kernelSpan = 1`. -/
def filter3 : ContiguousLineFilter :=
  { mKernelSize := 3, mKernelRuns := 1, mKernelSpan := 1, mKernelVecSize := 8, mChecksum := 5,
    mLUTsize := 4, h_mKernel := [2, 2, 2, 2, 1, 2, 2, 2, 2],
    h_mKernelVec := [1, 1, 1, 1, 1, 1, 1, 1], h_mAcceptableVec := [0, 0, 0, 1] }

/-- The filter constructed from `weightsOnes` with `kernelSize = 3`, `kernelRuns = 2`,
`kernelSpan = 1`. -/
def filter3twice : ContiguousLineFilter :=
  { filter3 with mKernelRuns := 2 }

/-- A `1 × 5` image holding one horizontal line of five pixels of value `255`. -/
def lineImage : Mat := Mat.ofRows [[255, 255, 255, 255, 255]]

/-- A `1 × 4` image holding the pixel values `0, 1, 2, 255`. -/
def grayImage : Mat := Mat.ofRows [[0, 1, 2, 255]]

/-- A `2 × 3` image of zeros. -/
def zeroImage : Mat := { rows := 2, cols := 3, px := fun _ _ => 0 }

/-- The weights file of the concrete `9 × 9` configuration: thirty-two weights `1`. -/
def weightsOnes9 : List Int := List.replicate 32 1

/-- The filter constructed from `weightsOnes9` with `kernelSize = 9`, `kernelRuns = 1`,
`kernelSpan = 1`. -/
def filter9 : ContiguousLineFilter :=
  { mKernelSize := 9, mKernelRuns := 1, mKernelSpan := 1, mKernelVecSize := 32, mChecksum := 61,
    mLUTsize := 16,
    h_mKernel :=
      [16, 16, 16, 16, 16, 16, 16, 16, 16,
       16,  8,  8,  8,  8,  8,  8,  8, 16,
       16,  8,  4,  4,  4,  4,  4,  8, 16,
       16,  8,  4,  2,  2,  2,  4,  8, 16,
       16,  8,  4,  2,  1,  2,  4,  8, 16,
       16,  8,  4,  2,  2,  2,  4,  8, 16,
       16,  8,  4,  4,  4,  4,  4,  8, 16,
       16,  8,  8,  8,  8,  8,  8,  8, 16,
       16, 16, 16, 16, 16, 16, 16, 16, 16],
    h_mKernelVec := List.replicate 32 1,
    h_mAcceptableVec := [0, 0, 0, 0, 0, 0, 0, 0, 0, 0, 0, 0, 0, 0, 0, 1] }

/-- A `9 × 9` image whose window around the centre pixel `(4, 4)` holds nineteen pixels of
the outermost ring (weight `16`), one of the next ring (weight `8`), one of the third ring
(weight `4`) and the centre (weight `1`): the weighted sum is `19·16 + 8 + 4 + 1 = 317`. -/
def wrapImage : Mat := Mat.ofRows
  [[255, 255, 255, 255, 255, 255, 255, 255, 255],
   [255, 255,   0,   0,   0,   0,   0,   0,   0],
   [  0,   0, 255,   0,   0,   0,   0,   0,   0],
   [  0,   0,   0,   0,   0,   0,   0,   0,   0],
   [  0,   0,   0,   0, 255,   0,   0,   0,   0],
   [  0,   0,   0,   0,   0,   0,   0,   0,   0],
   [  0,   0,   0,   0,   0,   0,   0,   0,   0],
   [  0,   0,   0,   0,   0,   0,   0,   0,   0],
   [255, 255, 255, 255, 255, 255, 255, 255, 255]]

/-! ## Definitions that follow the words of the specification -/

/-- Specification, Pass 2: "sum over the entire `kernelSize × kernelSize` window of
`pixelValue × kernelWeight`", as an exact (unbounded) sum, for the window centred at the
pixel `(r, c)` of the zero-padded image `m`. -/
def exactCorrelation (f : ContiguousLineFilter) (m : Mat) (r c : Int) : Nat :=
  ((List.range f.mKernelSize).map (fun (a : Nat) =>
    ((List.range f.mKernelSize).map (fun (b : Nat) =>
      (f.padded m).get (r + a) (c + b) * f.h_mKernel.getD (a * f.mKernelSize + b) 0)).sum)).sum

/-- Specification, `clampBinary`: "maps every pixel to 0 or 1 (any positive input becomes 1)". -/
def clampBinary (m : Mat) : Mat :=
  { rows := m.rows, cols := m.cols, px := fun r c => if 0 < m.px r c then 1 else 0 }

/-- Specification, state machine: "`clamp → Pass1 → [clamp → Pass2] × kernelRuns`", with the
passes of the code. -/
def specRun (f : ContiguousLineFilter) (h_iImage : Mat) : Mat :=
  (fun m => contiguousLinePass f (clampBinary m))^[f.mKernelRuns]
    (straightLinePass f (clampBinary h_iImage))

/-- Specification, Pass 1: the perimeter cells of the window in scan order, "top row
(excluding the right corner), right column (excluding the bottom corner), bottom row
(excluding the left corner), left column (excluding the top corner)", each as
(position in the perimeter vector, row offset, column offset from the window centre);
`mh` is `kernelSize / 2`. -/
def perimeterCells (mh : Nat) : List (Nat × Int × Int) :=
  (List.range (2 * mh)).map (fun (t : Nat) => (t, -(mh : Int), (t : Int) - mh)) ++
  (List.range (2 * mh)).map (fun (t : Nat) => (2 * mh + t, (t : Int) - mh, (mh : Int))) ++
  (List.range (2 * mh)).map (fun (t : Nat) => (4 * mh + t, (mh : Int), (mh : Int) - t)) ++
  (List.range (2 * mh)).map (fun (t : Nat) => (6 * mh + t, (mh : Int) - t, -(mh : Int)))

/-- Specification, Pass 1: the positions in the perimeter vector of the positive perimeter
cells of pixel `(r, c)`, in scan order, read from the zero-padded `clamped`. -/
def positiveCells (f : ContiguousLineFilter) (clamped : Mat) (r c : Int) : List Nat :=
  ((perimeterCells (f.mKernelSize / 2)).filter
    (fun cell => decide (0 < (f.padded clamped).get
      (r + f.mhKernelSize + cell.2.1) (c + f.mhKernelSize + cell.2.2)))).map (fun cell => cell.1)

/-- Specification, Pass 1: the pixel `(r, c)` is cleared: its value is positive, at least two
perimeter cells are positive and the product of the perimeter weights of the first two is not
an entry of the acceptable-product table. -/
def specCleared (f : ContiguousLineFilter) (clamped : Mat) (r c : Int) : Prop :=
  0 < clamped.get r c ∧
  match positiveCells f clamped r c with
  | a :: b :: _ => f.h_mKernelVec.getD a 0 * f.h_mKernelVec.getD b 0 ∉ f.h_mAcceptableVec
  | _ => False

instance (f : ContiguousLineFilter) (clamped : Mat) (r c : Int) :
    Decidable (specCleared f clamped r c) := by
  unfold specCleared
  split <;> infer_instance

/-- A `3 × 3` image whose only nonzero pixel is the centre. -/
def dotImage : Mat := { rows := 3, cols := 3, px := fun r c => if r = 1 ∧ c = 1 then 255 else 0 }

/-- A weights file for `kernelSize = 3` with distinct weights. -/
def weightsPowers : List Int := [1, 2, 4, 8, 16, 32, 64, 1]

/-- The filter constructed from `weightsPowers` with `kernelSize = 3`, `kernelRuns = 1`,
`kernelSpan = 1`. -/
def filter3w : ContiguousLineFilter :=
  { mKernelSize := 3, mKernelRuns := 1, mKernelSpan := 1, mKernelVecSize := 8, mChecksum := 5,
    mLUTsize := 4, h_mKernel := [2, 2, 2, 2, 1, 2, 2, 2, 2],
    h_mKernelVec := [1, 2, 4, 8, 16, 32, 64, 1], h_mAcceptableVec := [8, 16, 64, 256] }

/-- A `3 × 3` image: the centre pixel and, on its perimeter, the top-left corner and the
top-middle pixel (perimeter positions `0` and `1`). -/
def cornerImage : Mat := Mat.ofRows [[255, 255, 0], [0, 255, 0], [0, 0, 0]]

/-! ## The acceptable-product builder -/

/-- The effect of one product on the builder state `(acceptable_vec, counter)`: the
`std::find` test and the insertion (the body of `acceptableBody` for a given product). -/
def insertProduct (st : Option (List Nat × Nat)) (prod : Nat) : Option (List Nat × Nat) :=
  st.bind fun s =>
    if prod ∈ s.1 then some s
    else if s.2 < s.1.length then some (s.1.set s.2 (prod % 65536), s.2 + 1)
    else none

/-- The product the generation loops compute at `(i, j)`. -/
def productAt (h_mKernelVec : List Nat) (mKernelVecSize : Nat) (offset i j : Int) : Nat :=
  h_mKernelVec.getD i.toNat 0 * h_mKernelVec.getD (toU32 (i + offset + j) % mKernelVecSize) 0

/-- The products of the generation loops: `i` in `[0, mKernelVecSize)`, `j` in
`[-hKernelSpan, hKernelSpan]`. -/
def IsGenerated (h_mKernelVec : List Nat) (mKernelVecSize : Nat) (offset hKernelSpan : Int)
    (p : Nat) : Prop :=
  ∃ i j : Int, 0 ≤ i ∧ i < mKernelVecSize ∧ -hKernelSpan ≤ j ∧ j ≤ hKernelSpan ∧
    p = productAt h_mKernelVec mKernelVecSize offset i j

/-- The state of the builder after the products in `S` have been processed, for a table of
capacity `n`: no write went past the end, the first `counter` slots hold the nonzero
products of `S` without repetition, the other slots are still `0`. -/
def BuilderInv (n : Nat) (S : Nat → Prop) (st : Option (List Nat × Nat)) : Prop :=
  ∃ ins : List Nat, st = some (ins ++ List.replicate (n - ins.length) 0, ins.length) ∧
    ins.length ≤ n ∧ ins.Nodup ∧ ∀ x, x ∈ ins ↔ (S x ∧ x ≠ 0)

/-! ## Canonical windows -/

/-- A filter object that carries only the kernel members of a filter of size `ks`; the
correlation of the contiguous-line pass reads no other member. -/
def kernelOnly (ks : Nat) : ContiguousLineFilter :=
  { mKernelSize := ks, mKernelRuns := 0, mKernelSpan := 0, mKernelVecSize := 0,
    mChecksum := buildChecksum ks (buildKernel ks), mLUTsize := 0,
    h_mKernel := buildKernel ks, h_mKernelVec := [], h_mAcceptableVec := [] }

/-- An `11 × 11` window whose middle row is `1` and whose other rows are `0`. -/
def lineWindow : Mat := { rows := 11, cols := 11, px := fun a _ => if a = 5 then 1 else 0 }

/-- A weights file for `kernelSize = 11`: forty weights `1, 2, 4, 8, ...` repeating. -/
def weights40 : List Int :=
  [1, 2, 4, 8, 16, 32, 64, 1, 2, 4, 8, 16, 32, 64, 1, 2, 4, 8, 16, 32,
   64, 1, 2, 4, 8, 16, 32, 64, 1, 2, 4, 8, 16, 32, 64, 1, 2, 4, 8, 16]

/-- An `11 × 21` image: one horizontal run of eleven pixels of value `255` in row `5`,
columns `5 .. 15`, and a margin of five zero pixels on every side. -/
def line11Image : Mat :=
  { rows := 11, cols := 21, px := fun i j => if i = 5 ∧ 5 ≤ j ∧ j ≤ 5 + 10 then 255 else 0 }

/-- Specification, checksum: "the sum of the weights along the central row" of a
`k × k` kernel `K`, as an exact sum. -/
def centreRowSum (k : Nat) (K : List Nat) : Nat :=
  ((List.range k).map (fun (x : Nat) => K.getD (k / 2 * k + x) 0)).sum

/-- Specification, checksum: the sum of the weights along the central column of a
`k × k` kernel `K`, as an exact sum. -/
def centreColSum (k : Nat) (K : List Nat) : Nat :=
  ((List.range k).map (fun (y : Nat) => K.getD (y * k + k / 2) 0)).sum

/-- The shape of every state the builder can reach without writing past the end, for a table
of capacity `n`: the first `counter` slots hold nonzero products without repetition, the
other slots are still `0`. -/
def BuilderShape (n : Nat) (st : Option (List Nat × Nat)) : Prop :=
  ∀ s, st = some s → ∃ ins : List Nat,
    s = (ins ++ List.replicate (n - ins.length) 0, ins.length) ∧
    ins.length ≤ n ∧ ins.Nodup ∧ 0 ∉ ins

/-- The filter constructed from `weightsPowers` with `kernelSize = 3`, `kernelRuns = 1`,
`kernelSpan = 3`. -/
def filter3span3 : ContiguousLineFilter :=
  { mKernelSize := 3, mKernelRuns := 1, mKernelSpan := 3, mKernelVecSize := 8, mChecksum := 5,
    mLUTsize := 12, h_mKernel := [2, 2, 2, 2, 1, 2, 2, 2, 2],
    h_mKernelVec := [1, 2, 4, 8, 16, 32, 64, 1],
    h_mAcceptableVec := [0, 0, 0, 0, 4, 8, 16, 32, 64, 128, 256, 512] }

/-- The product of the acceptable-table claims: `w[i] * w[(i + L/2 + j) mod L]`, with the
mathematical (non-negative) remainder. -/
def specProduct (w : List Nat) (L : Nat) (i : Nat) (j : Int) : Nat :=
  w.getD i 0 * w.getD (((i : Int) + ((L / 2 : Nat) : Int) + j) % (L : Int)).toNat 0

/-- A weights file for `kernelSize = 3`: the eight powers of two `1 .. 128`. -/
def weightsPow8 : List Int := [1, 2, 4, 8, 16, 32, 64, 128]

/-- A weights file for `kernelSize = 5`: the sixteen weights `1 .. 16`. -/
def weights16 : List Int := [1, 2, 3, 4, 5, 6, 7, 8, 9, 10, 11, 12, 13, 14, 15, 16]

/-- The three configuration assertions of the constructor hold:
`assert(mKernelSize <= 13)`, `assert(mKernelSize % 2 == 1)`, `assert(mKernelSpan % 2 == 1)`,
on the members of type `T4` (`uint32_t`). -/
def configAssertsHold (kernelSize kernelSpan : Int) : Prop :=
  toU32 kernelSize ≤ 13 ∧ toU32 kernelSize % 2 = 1 ∧ toU32 kernelSpan % 2 = 1

instance (kernelSize kernelSpan : Int) : Decidable (configAssertsHold kernelSize kernelSpan) := by
  unfold configAssertsHold
  infer_instance

/-- The filter constructed with `kernelSize = 1`, `kernelRuns = 1`, `kernelSpan = 1` from an
empty weights file. -/
def filter1 : ContiguousLineFilter :=
  { mKernelSize := 1, mKernelRuns := 1, mKernelSpan := 1, mKernelVecSize := 0, mChecksum := 1,
    mLUTsize := 0, h_mKernel := [1], h_mKernelVec := [], h_mAcceptableVec := [] }

/-! ## The memory accesses of `run` -/

/-- A memory access of `run`: a read of a padded snapshot, a write to `clamped`, or an index
into `h_mKernelVec`, `h_mKernel` or `h_mAcceptableVec`. -/
inductive Access where
  | pixelRead (row col : Int)
  | pixelWrite (row col : Int)
  | vecIndex (idx : Int)
  | kernelIndex (idx : Int)
  | tableIndex (idx : Int)

/-- The accesses the body of the pixel loops of the straight-line pass can make at the padded
position `(j, i)`: those of every iteration of the four scan loops and of the table search
(a `break` or a false condition only omits some of them), and the write. -/
def straightLineBodyAccesses (f : ContiguousLineFilter) (j i : Int) : List Access :=
  let mhKernelSize := f.mhKernelSize
  let mKernelSize : Int := f.mKernelSize
  [Access.pixelRead j i] ++
  forLoop (-mhKernelSize) mhKernelSize
    (fun k log => log ++ [Access.pixelRead (j - mhKernelSize) (i + k),
      Access.vecIndex (k + mhKernelSize)]) [] ++
  forLoop (-mhKernelSize) mhKernelSize
    (fun k log => log ++ [Access.pixelRead (j + k) (i + mhKernelSize),
      Access.vecIndex (k + mhKernelSize + (mKernelSize - 1))]) [] ++
  forLoop (-mhKernelSize) mhKernelSize
    (fun k log => log ++ [Access.pixelRead (j + mhKernelSize) (i - k),
      Access.vecIndex (k + mhKernelSize + 2 * (mKernelSize - 1))]) [] ++
  forLoop (-mhKernelSize) mhKernelSize
    (fun k log => log ++ [Access.pixelRead (j - k) (i - mhKernelSize),
      Access.vecIndex (k + mhKernelSize + 3 * (mKernelSize - 1))]) [] ++
  forLoop 0 f.mLUTsize (fun elem log => log ++ [Access.tableIndex elem]) [] ++
  [Access.pixelWrite (j - mhKernelSize) (i - mhKernelSize)]

/-- The accesses the straight-line pass can make on an image `clamped`. -/
def straightLinePassAccesses (f : ContiguousLineFilter) (clamped : Mat) : List Access :=
  let mhKernelSize := f.mhKernelSize
  let h_pImage := copyMakeBorder clamped mhKernelSize mhKernelSize mhKernelSize mhKernelSize 0
  forLoop mhKernelSize (h_pImage.cols - mhKernelSize)
    (fun i log =>
      forLoop mhKernelSize (h_pImage.rows - mhKernelSize)
        (fun j log => log ++ straightLineBodyAccesses f j i)
        log)
    []

/-- The accesses of the body of the pixel loops of the contiguous-line pass at the padded
position `(j, i)`. -/
def contiguousLineBodyAccesses (f : ContiguousLineFilter) (j i : Int) : List Access :=
  let mhKernelSize := f.mhKernelSize
  let mKernelSize : Int := f.mKernelSize
  forLoop (-mhKernelSize) (mhKernelSize + 1)
    (fun k log =>
      forLoop (-mhKernelSize) (mhKernelSize + 1)
        (fun l log => log ++ [Access.kernelIndex ((k + mhKernelSize) * mKernelSize + (l + mhKernelSize)),
          Access.pixelRead (j + k) (i + l)])
        log)
    [] ++
  [Access.pixelWrite (j - mhKernelSize) (i - mhKernelSize)]

/-- The accesses one repetition of the contiguous-line pass makes on an image `clamped`. -/
def contiguousLinePassAccesses (f : ContiguousLineFilter) (clamped : Mat) : List Access :=
  let mhKernelSize := f.mhKernelSize
  let h_pImage2 := copyMakeBorder clamped mhKernelSize mhKernelSize mhKernelSize mhKernelSize 0
  forLoop mhKernelSize (h_pImage2.cols - mhKernelSize)
    (fun i log =>
      forLoop mhKernelSize (h_pImage2.rows - mhKernelSize)
        (fun j log => log ++ contiguousLineBodyAccesses f j i)
        log)
    []

/-- An access lies inside its object: a read inside the padded snapshot of `clamped`, a write
inside `clamped`, an index inside its vector. -/
def Access.inBounds (f : ContiguousLineFilter) (clamped : Mat) : Access → Prop
  | Access.pixelRead row col =>
      0 ≤ row ∧ row < (f.padded clamped).rows ∧ 0 ≤ col ∧ col < (f.padded clamped).cols
  | Access.pixelWrite row col => 0 ≤ row ∧ row < clamped.rows ∧ 0 ≤ col ∧ col < clamped.cols
  | Access.vecIndex idx => 0 ≤ idx ∧ idx < f.h_mKernelVec.length
  | Access.kernelIndex idx => 0 ≤ idx ∧ idx < f.h_mKernel.length
  | Access.tableIndex idx => 0 ≤ idx ∧ idx < f.h_mAcceptableVec.length

/-! ## The order of the perimeter scans -/

/-- The perimeter cells the four scan loops of the straight-line pass visit, in the order of
the loops, each as (index used into `h_mKernelVec`, row offset, column offset), the offsets
being those of the pixel read from the centre `(j, i)` of the window; every iteration is
listed (a `break` only ends a scan earlier). -/
def perimeterVisits (mKernelSize : Nat) : List (Int × Int × Int) :=
  let mhKernelSize : Int := ((mKernelSize / 2 : Nat) : Int)
  let mKernelSize : Int := mKernelSize
  -- Top row (excluding right-most pixel)
  let log := forLoop (-mhKernelSize) mhKernelSize
    (fun k log => log ++ [(k + mhKernelSize, -mhKernelSize, k)]) []
  -- Right column (excluding bottom-most pixel)
  let log := forLoop (-mhKernelSize) mhKernelSize
    (fun k log => log ++ [(k + mhKernelSize + (mKernelSize - 1), k, mhKernelSize)]) log
  -- Bottom row (excluding left-most pixel)
  let log := forLoop (-mhKernelSize) mhKernelSize
    (fun k log => log ++ [(k + mhKernelSize + 2 * (mKernelSize - 1), mhKernelSize, -k)]) log
  -- Left column (excluding top-most pixel)
  forLoop (-mhKernelSize) mhKernelSize
    (fun k log => log ++ [(k + mhKernelSize + 3 * (mKernelSize - 1), -k, -mhKernelSize)]) log

/-- Specification: the cell that follows `cell` (row offset, column offset; rows grow
downwards) when walking clockwise around the ring at distance `h` from the centre. -/
def clockwiseNext (h : Int) (cell : Int × Int) : Int × Int :=
  if cell.1 = -h ∧ cell.2 < h then (cell.1, cell.2 + 1)
  else if cell.2 = h ∧ cell.1 < h then (cell.1 + 1, cell.2)
  else if cell.1 = h ∧ -h < cell.2 then (cell.1, cell.2 - 1)
  else (cell.1 - 1, cell.2)

/-! # Theorems -/

/-! ## Loops -/

theorem forLoop_of_le {σ : Type} (lo hi : Int) (body : Int → σ → σ) (s : σ) (h : hi ≤ lo) :
    forLoop lo hi body s = s := by
  have : (hi - lo).toNat = 0 := by omega
  simp [forLoop, this]

theorem forLoop_succ {σ : Type} (lo hi : Int) (body : Int → σ → σ) (s : σ) (h : lo ≤ hi) :
    forLoop lo (hi + 1) body s = body hi (forLoop lo hi body s) := by
  have e : (hi + 1 - lo).toNat = (hi - lo).toNat + 1 := by omega
  have e2 : lo + ((hi - lo).toNat : Int) = hi := by omega
  simp only [forLoop, e, List.range_succ, List.foldl_append, List.foldl_cons, List.foldl_nil]
  rw [e2]

/-- Invariant rule for `forLoop`. -/
theorem forLoop_inv {σ : Type} (P : Int → σ → Prop) (lo hi : Int) (body : Int → σ → σ) (s : σ)
    (hle : lo ≤ hi) (h0 : P lo s)
    (hstep : ∀ x st, lo ≤ x → x < hi → P x st → P (x + 1) (body x st)) :
    P hi (forLoop lo hi body s) := by
  obtain ⟨n, rfl⟩ : ∃ n : Nat, hi = lo + n := ⟨(hi - lo).toNat, by omega⟩
  induction n with
  | zero => simpa [forLoop_of_le] using h0
  | succ n ih =>
    have e : lo + ((n + 1 : Nat) : Int) = (lo + n) + 1 := by push_cast; ring
    rw [e, forLoop_succ _ _ _ _ (by omega)]
    apply hstep _ _ (by omega) (by omega)
    apply ih (by omega)
    intro x st h1 h2 h3
    exact hstep x st h1 (by omega) h3

/-! ## Pixel loops -/

theorem Mat.ext_px (m m2 : Mat) (hr : m.rows = m2.rows) (hc : m.cols = m2.cols)
    (hp : ∀ r c, m.px r c = m2.px r c) : m = m2 := by
  cases m; cases m2
  simp only [Mat.mk.injEq] at *
  exact ⟨hr, hc, by funext r c; exact hp r c⟩

theorem rowLoop_eq (a : Int) (G : Int → Int → Option Nat) (body : Int → Int → Mat → Mat)
    (hb : ∀ j i m, body j i m = writeOpt m (j - a) (i - a) (G j i))
    (i ri re : Int) (m : Mat) :
    forLoop ri re (fun j m => body j i m) m = written a G i (i + 1) ri re m := by
  by_cases hle : re ≤ ri
  · rw [forLoop_of_le _ _ _ _ hle]
    apply Mat.ext_px <;> simp only [written]
    intro r c
    rw [if_neg (by omega)]
  · apply forLoop_inv (fun x st => st = written a G i (i + 1) ri x m) ri re _ m (by omega)
    · apply Mat.ext_px <;> simp only [written]
      intro r c
      rw [if_neg (by omega)]
    · intro x st h1 h2 h3
      subst h3
      rw [hb]
      apply Mat.ext_px
      · cases G x i <;> simp [writeOpt, written, Mat.set]
      · cases G x i <;> simp [writeOpt, written, Mat.set]
      · intro r c
        by_cases hrc : r = x - a ∧ c = i - a
        · obtain ⟨rfl, rfl⟩ := hrc
          have e1 : x - a + a = x := by ring
          have e2 : i - a + a = i := by ring
          cases hG : G x i
          · simp only [writeOpt, written, e1, e2, hG, Option.getD_none, ite_self]
          · simp only [writeOpt, written, e1, e2, hG, Mat.set, and_self, if_true, Option.getD_some]
            rw [if_pos (by omega)]
        · have hne : ¬ (r + a = x ∧ c + a = i) := by omega
          have lhs : (writeOpt (written a G i (i + 1) ri x m) (x - a) (i - a) (G x i)).px r c
              = (written a G i (i + 1) ri x m).px r c := by
            cases G x i
            · rfl
            · simp only [writeOpt, Mat.set, if_neg hrc]
          rw [lhs]
          simp only [written]
          by_cases h4 : i ≤ c + a ∧ c + a < i + 1 ∧ ri ≤ r + a ∧ r + a < x
          · rw [if_pos h4, if_pos (by omega)]
          · rw [if_neg h4, if_neg (by omega)]

theorem pixelLoops_eq (a : Int) (G : Int → Int → Option Nat) (body : Int → Int → Mat → Mat)
    (hb : ∀ j i m, body j i m = writeOpt m (j - a) (i - a) (G j i))
    (ci ce ri re : Int) (m : Mat) :
    forLoop ci ce (fun i m => forLoop ri re (fun j m => body j i m) m) m
      = written a G ci ce ri re m := by
  by_cases hle : ce ≤ ci
  · rw [forLoop_of_le _ _ _ _ hle]
    apply Mat.ext_px <;> simp only [written]
    intro r c
    rw [if_neg (by omega)]
  · apply forLoop_inv (fun x st => st = written a G ci x ri re m) ci ce _ m (by omega)
    · apply Mat.ext_px <;> simp only [written]
      intro r c
      rw [if_neg (by omega)]
    · intro x st h1 h2 h3
      subst h3
      rw [rowLoop_eq a G body hb]
      apply Mat.ext_px <;> simp only [written]
      intro r c
      by_cases h4 : x ≤ c + a ∧ c + a < x + 1 ∧ ri ≤ r + a ∧ r + a < re
      · rw [if_pos h4, if_neg (by omega), if_pos (by omega)]
      · rw [if_neg h4]
        by_cases h5 : ci ≤ c + a ∧ c + a < x ∧ ri ≤ r + a ∧ r + a < re
        · rw [if_pos h5, if_pos (by omega)]
        · rw [if_neg h5, if_neg (by omega)]

/-! ## The two passes, pixel by pixel -/

theorem straightLinePass_eq (f : ContiguousLineFilter) (m : Mat) :
    straightLinePass f m
      = written f.mhKernelSize (fun j i => if clearedAt f (f.padded m) j i then some 0 else none)
          f.mhKernelSize (m.cols + f.mhKernelSize) f.mhKernelSize (m.rows + f.mhKernelSize) m := by
  have hc : (f.padded m).cols - f.mhKernelSize = m.cols + f.mhKernelSize := by
    simp only [ContiguousLineFilter.padded, copyMakeBorder]; ring
  have hr : (f.padded m).rows - f.mhKernelSize = m.rows + f.mhKernelSize := by
    simp only [ContiguousLineFilter.padded, copyMakeBorder]; ring
  rw [← hc, ← hr]
  apply pixelLoops_eq f.mhKernelSize _ (fun j i cl => straightLineBody f (f.padded m) j i cl)
  intro j i cl
  by_cases h : clearedAt f (f.padded m) j i
  · rw [if_pos h]
    obtain ⟨h1, h2, h3⟩ := h
    simp [straightLineBody, h1, h2, h3, writeOpt]
  · rw [if_neg h]
    unfold clearedAt at h
    unfold straightLineBody
    simp only [writeOpt]
    split_ifs <;> first | rfl | (exfalso; apply h; simp_all)

theorem contiguousLinePass_eq (f : ContiguousLineFilter) (m : Mat) :
    contiguousLinePass f m
      = written f.mhKernelSize (fun j i => some (confirmValue f (f.padded m) j i))
          f.mhKernelSize (m.cols + f.mhKernelSize) f.mhKernelSize (m.rows + f.mhKernelSize) m := by
  have hc : (f.padded m).cols - f.mhKernelSize = m.cols + f.mhKernelSize := by
    simp only [ContiguousLineFilter.padded, copyMakeBorder]; ring
  have hr : (f.padded m).rows - f.mhKernelSize = m.rows + f.mhKernelSize := by
    simp only [ContiguousLineFilter.padded, copyMakeBorder]; ring
  rw [← hc, ← hr]
  apply pixelLoops_eq f.mhKernelSize _ (fun j i cl => contiguousLineBody f (f.padded m) j i cl)
  intro j i cl
  rfl

/-- Pixel `(r, c)` lies inside the image. -/
theorem straightLinePass_get (f : ContiguousLineFilter) (m : Mat) (r c : Int) :
    (straightLinePass f m).get r c
      = if 0 ≤ r ∧ r < m.rows ∧ 0 ≤ c ∧ c < m.cols ∧
            clearedAt f (f.padded m) (r + f.mhKernelSize) (c + f.mhKernelSize)
        then 0 else m.get r c := by
  rw [straightLinePass_eq]
  simp only [written, Mat.get]
  by_cases hin : 0 ≤ r ∧ r < m.rows ∧ 0 ≤ c ∧ c < m.cols
  · rw [if_pos (by omega)]
    by_cases hcl : clearedAt f (f.padded m) (r + f.mhKernelSize) (c + f.mhKernelSize)
    · rw [if_pos hcl, if_pos ⟨hin.1, hin.2.1, hin.2.2.1, hin.2.2.2, hcl⟩]; rfl
    · rw [if_neg hcl, if_neg (fun h => hcl h.2.2.2.2)]; rfl
  · rw [if_neg (by omega), if_neg (fun h => hin ⟨h.1, h.2.1, h.2.2.1, h.2.2.2.1⟩)]

theorem straightLinePass_rows (f : ContiguousLineFilter) (m : Mat) :
    (straightLinePass f m).rows = m.rows := by
  rw [straightLinePass_eq]; rfl

theorem straightLinePass_cols (f : ContiguousLineFilter) (m : Mat) :
    (straightLinePass f m).cols = m.cols := by
  rw [straightLinePass_eq]; rfl

theorem contiguousLinePass_get (f : ContiguousLineFilter) (m : Mat) (r c : Int) :
    (contiguousLinePass f m).get r c
      = if 0 ≤ r ∧ r < m.rows ∧ 0 ≤ c ∧ c < m.cols
        then confirmValue f (f.padded m) (r + f.mhKernelSize) (c + f.mhKernelSize)
        else m.get r c := by
  rw [contiguousLinePass_eq]
  simp only [written, Mat.get]
  by_cases hin : 0 ≤ r ∧ r < m.rows ∧ 0 ≤ c ∧ c < m.cols
  · rw [if_pos (by omega), if_pos hin]; rfl
  · rw [if_neg (by omega), if_neg hin]

theorem contiguousLinePass_rows (f : ContiguousLineFilter) (m : Mat) :
    (contiguousLinePass f m).rows = m.rows := by
  rw [contiguousLinePass_eq]; rfl

theorem contiguousLinePass_cols (f : ContiguousLineFilter) (m : Mat) :
    (contiguousLinePass f m).cols = m.cols := by
  rw [contiguousLinePass_eq]; rfl

/-! ## The constructor -/

/-- What a successful construction fixes about the members. -/
theorem create_some (weightsFile : Option (List Int)) (kernelSize kernelRuns kernelSpan : Int)
    (f : ContiguousLineFilter)
    (hf : ContiguousLineFilter.create weightsFile kernelSize kernelRuns kernelSpan = some f) :
    f.mKernelSize = toU32 kernelSize ∧ f.mKernelRuns = toU32 kernelRuns ∧
    f.mKernelSpan = toU32 kernelSpan ∧
    f.mKernelSize ≤ 13 ∧ f.mKernelSize % 2 = 1 ∧ f.mKernelSpan % 2 = 1 ∧
    f.mKernelVecSize = (f.mKernelSize - 1) * 4 ∧
    f.h_mKernel = buildKernel f.mKernelSize ∧
    f.mChecksum = buildChecksum f.mKernelSize f.h_mKernel ∧
    f.mLUTsize = f.mKernelVecSize * f.mKernelSpan % 4294967296 / 2 ∧
    ∃ file st, weightsFile = some file ∧
      f.h_mKernelVec = readKernelVec file f.mKernelVecSize ∧
      buildAcceptable f.h_mKernelVec f.mKernelSize f.mKernelSpan f.mKernelVecSize f.mLUTsize
        = some st ∧
      f.h_mAcceptableVec
        = copyAcceptable (st.1.insertionSort (fun a b => a ≤ b)) f.mLUTsize := by
  unfold ContiguousLineFilter.create at hf
  simp only [] at hf
  split_ifs at hf with h1 h2 h3
  · push_neg at h1 h2 h3
    cases weightsFile with
    | none => simp at hf
    | some file =>
      simp only [] at hf
      split at hf
      · simp at hf
      · rename_i st hst
        simp only [Option.some.injEq] at hf
        subst hf
        refine ⟨rfl, rfl, rfl, ?_, ?_, ?_, rfl, rfl, rfl, rfl, file, st, rfl, rfl, hst, rfl⟩
        · show toU32 kernelSize ≤ 13
          omega
        · show toU32 kernelSize % 2 = 1
          omega
        · show toU32 kernelSpan % 2 = 1
          omega

/-! ## The kernel and the checksum -/

set_option maxRecDepth 1000000 in
/-- Every kernel weight is even except the centre weight, which is `1`; the checksum is odd,
and at least `5` from size `3` on. -/
theorem kernel_parity (ks : Nat) (h13 : ks ≤ 13) (hodd : ks % 2 = 1) :
    (buildKernel ks).getD (ks / 2 * ks + ks / 2) 0 = 1 ∧
    (∀ a < ks, ∀ b < ks, ¬ (a = ks / 2 ∧ b = ks / 2) →
      (buildKernel ks).getD (a * ks + b) 0 % 2 = 0) ∧
    buildChecksum ks (buildKernel ks) % 2 = 1 ∧
    (3 ≤ ks → 5 ≤ buildChecksum ks (buildKernel ks)) := by
  interval_cases ks <;> first | omega | decide

/-- Index computation `coefPos` of the contiguous-line pass, as a natural number. -/
theorem coefPos_toNat (ks : Nat) (k l : Int) (a b : Nat)
    (ha : k + ((ks / 2 : Nat) : Int) = a) (hb : l + ((ks / 2 : Nat) : Int) = b) :
    ((k + ((ks / 2 : Nat) : Int)) * (ks : Int) + (l + ((ks / 2 : Nat) : Int))).toNat
      = a * ks + b := by
  rw [ha, hb]
  have : ((a : Int) * (ks : Int) + (b : Int)) = ((a * ks + b : Nat) : Int) := by push_cast; ring
  rw [this, Int.toNat_natCast]

/-- The correlation accumulator has the parity of the centre pixel of the window. -/
theorem correlate_parity (f : ContiguousLineFilter) (h13 : f.mKernelSize ≤ 13)
    (hodd : f.mKernelSize % 2 = 1) (hK : f.h_mKernel = buildKernel f.mKernelSize)
    (hp : Mat) (j i : Int) :
    correlate f hp j i % 2 = hp.get j i % 2 := by
  obtain ⟨hc, he, -, -⟩ := kernel_parity f.mKernelSize h13 hodd
  have hmh : (0 : Int) ≤ f.mhKernelSize := by unfold ContiguousLineFilter.mhKernelSize; omega
  have hks : (f.mKernelSize : Int) = 2 * f.mhKernelSize + 1 := by
    unfold ContiguousLineFilter.mhKernelSize; omega
  unfold correlate
  simp only []
  have := forLoop_inv
    (fun x tmp => tmp % 2 = if 0 < x then hp.get j i % 2 else 0)
    (-f.mhKernelSize) (f.mhKernelSize + 1)
    (fun k tmp =>
      forLoop (-f.mhKernelSize) (f.mhKernelSize + 1)
        (fun l tmp =>
          (tmp + hp.get (j + k) (i + l) *
            f.h_mKernel.getD ((k + f.mhKernelSize) * (f.mKernelSize : Int)
              + (l + f.mhKernelSize)).toNat 0) % 256)
        tmp) 0 (by omega) (by show (0 : Nat) % 2 = ite _ _ _; rw [if_neg (by omega)]) ?_
  · simp only [] at this
    rw [this, if_pos (by omega)]
  · intro x tmp hx1 hx2 hP
    have := forLoop_inv
      (fun y tmp => tmp % 2 = if (0 < x ∨ (x = 0 ∧ 0 < y)) then hp.get j i % 2 else 0)
      (-f.mhKernelSize) (f.mhKernelSize + 1)
      (fun l tmp =>
          (tmp + hp.get (j + x) (i + l) *
            f.h_mKernel.getD ((x + f.mhKernelSize) * (f.mKernelSize : Int)
              + (l + f.mhKernelSize)).toNat 0) % 256)
      tmp (by omega) ?_ ?_
    · simp only [] at this ⊢
      rw [this]
      by_cases h0 : 0 < x + 1
      · rw [if_pos h0, if_pos (by omega)]
      · rw [if_neg h0, if_neg (by omega)]
    · simp only []
      rw [hP]
      by_cases h0 : 0 < x
      · rw [if_pos h0, if_pos (by omega)]
      · rw [if_neg h0, if_neg (by omega)]
    · intro y t hy1 hy2 hQ
      simp only [] at hQ ⊢
      obtain ⟨a, ha⟩ : ∃ a : Nat, x + f.mhKernelSize = a := ⟨(x + f.mhKernelSize).toNat, by omega⟩
      obtain ⟨b, hb⟩ : ∃ b : Nat, y + f.mhKernelSize = b := ⟨(y + f.mhKernelSize).toNat, by omega⟩
      have hidx := coefPos_toNat f.mKernelSize x y a b ha hb
      have ha2 : a < f.mKernelSize := by omega
      have hb2 : b < f.mKernelSize := by omega
      unfold ContiguousLineFilter.mhKernelSize
      rw [hidx, hK]
      have hmod : ∀ n : Nat, n % 256 % 2 = n % 2 := by intro n; omega
      rw [hmod]
      by_cases hcen : x = 0 ∧ y = 0
      · obtain ⟨rfl, rfl⟩ := hcen
        have ea : a = f.mKernelSize / 2 := by unfold ContiguousLineFilter.mhKernelSize at ha; omega
        have eb : b = f.mKernelSize / 2 := by unfold ContiguousLineFilter.mhKernelSize at hb; omega
        rw [ea, eb, hc]
        rw [if_neg (by omega)] at hQ
        rw [if_pos (by omega)]
        simp only [add_zero, mul_one]
        omega
      · have hne : ¬ (a = f.mKernelSize / 2 ∧ b = f.mKernelSize / 2) := by
          unfold ContiguousLineFilter.mhKernelSize at ha hb; omega
        have hev := he a ha2 b hb2 hne
        have : (t + hp.get (j + x) (i + y) * (buildKernel f.mKernelSize).getD (a * f.mKernelSize + b) 0) % 2
            = t % 2 := by
          rw [Nat.add_mod, Nat.mul_mod, hev]; simp
        rw [this, hQ]
        by_cases h0 : 0 < x ∨ (x = 0 ∧ 0 < y)
        · rw [if_pos h0, if_pos (by omega)]
        · rw [if_neg h0, if_neg (by omega)]

/-! ## The structure of `run` -/

theorem forLoop_iterate {σ : Type} (g : σ → σ) (n : Nat) (s : σ) :
    forLoop 0 (n : Int) (fun _ st => g st) s = g^[n] s := by
  induction n with
  | zero => simp [forLoop_of_le]
  | succ n ih =>
    have e : ((n + 1 : Nat) : Int) = (n : Int) + 1 := by push_cast; ring
    rw [e, forLoop_succ _ _ _ _ (by omega), ih, Function.iterate_succ_apply']

theorem run_eq_afterRuns (f : ContiguousLineFilter) (img : Mat) :
    f.run img = f.afterRuns img f.mKernelRuns := by
  unfold ContiguousLineFilter.run ContiguousLineFilter.afterRuns
  exact forLoop_iterate _ _ _

theorem afterRuns_succ (f : ContiguousLineFilter) (img : Mat) (n : Nat) :
    f.afterRuns img (n + 1) = contiguousLinePass f (f.afterRuns img n) := by
  unfold ContiguousLineFilter.afterRuns
  rw [Function.iterate_succ_apply']

theorem afterRuns_dims (f : ContiguousLineFilter) (img : Mat) (n : Nat) :
    (f.afterRuns img n).rows = img.rows ∧ (f.afterRuns img n).cols = img.cols := by
  induction n with
  | zero =>
    exact ⟨by rw [ContiguousLineFilter.afterRuns, Function.iterate_zero, id, straightLinePass_rows]; rfl,
           by rw [ContiguousLineFilter.afterRuns, Function.iterate_zero, id, straightLinePass_cols]; rfl⟩
  | succ n ih =>
    rw [afterRuns_succ, contiguousLinePass_rows, contiguousLinePass_cols]
    exact ih

theorem padded_get (f : ContiguousLineFilter) (m : Mat) (j i : Int) :
    (f.padded m).get j i
      = if f.mhKernelSize ≤ j ∧ j < f.mhKernelSize + m.rows ∧
            f.mhKernelSize ≤ i ∧ i < f.mhKernelSize + m.cols
        then m.get (j - f.mhKernelSize) (i - f.mhKernelSize) else 0 := rfl

theorem padded_get_inside (f : ContiguousLineFilter) (m : Mat) (r c : Int)
    (hr0 : 0 ≤ r) (hr : r < m.rows) (hc0 : 0 ≤ c) (hc : c < m.cols) :
    (f.padded m).get (r + f.mhKernelSize) (c + f.mhKernelSize) = m.get r c := by
  rw [padded_get, if_pos (by omega)]
  congr 1 <;> ring

theorem confirmValue_cases (f : ContiguousLineFilter) (hp : Mat) (j i : Int) :
    confirmValue f hp j i = 0 ∨ confirmValue f hp j i = 255 := by
  unfold confirmValue
  split_ifs
  · right; rfl
  · left; rfl

/-- A pixel the contiguous-line pass sets to a nonzero value was odd before the pass. -/
theorem contiguousLinePass_pos (f : ContiguousLineFilter) (h13 : f.mKernelSize ≤ 13)
    (hodd : f.mKernelSize % 2 = 1) (hK : f.h_mKernel = buildKernel f.mKernelSize)
    (hC : f.mChecksum = buildChecksum f.mKernelSize f.h_mKernel)
    (m : Mat) (r c : Int) (hr0 : 0 ≤ r) (hr : r < m.rows) (hc0 : 0 ≤ c) (hc : c < m.cols)
    (h : (contiguousLinePass f m).get r c ≠ 0) : m.get r c % 2 = 1 := by
  rw [contiguousLinePass_get, if_pos ⟨hr0, hr, hc0, hc⟩] at h
  unfold confirmValue at h
  split_ifs at h with heq
  · have hpar := correlate_parity f h13 hodd hK (f.padded m) (r + f.mhKernelSize) (c + f.mhKernelSize)
    rw [padded_get_inside f m r c hr0 hr hc0 hc, heq, hC, hK] at hpar
    rw [← hpar]
    exact (kernel_parity f.mKernelSize h13 hodd).2.2.1
  · exact absurd rfl h

/-- The straight-line pass only clears pixels. -/
theorem straightLinePass_pos (f : ContiguousLineFilter) (m : Mat) (r c : Int)
    (h : (straightLinePass f m).get r c ≠ 0) : (straightLinePass f m).get r c = m.get r c := by
  rw [straightLinePass_get] at h ⊢
  split_ifs at h ⊢ with hcl
  · exact absurd rfl h
  · rfl

theorem clampInput_get (img : Mat) (r c : Int) :
    (clampInput img).get r c = if img.get r c > 1 then 1 else 0 := rfl

/-- A nonzero pixel at any stage of `run` comes from an input pixel above the threshold. -/
theorem afterRuns_pos (f : ContiguousLineFilter) (h13 : f.mKernelSize ≤ 13)
    (hodd : f.mKernelSize % 2 = 1) (hK : f.h_mKernel = buildKernel f.mKernelSize)
    (hC : f.mChecksum = buildChecksum f.mKernelSize f.h_mKernel)
    (img : Mat) (r c : Int) (hr0 : 0 ≤ r) (hr : r < img.rows) (hc0 : 0 ≤ c) (hc : c < img.cols)
    (n : Nat) (h : (f.afterRuns img n).get r c ≠ 0) : 1 < img.get r c := by
  induction n with
  | zero =>
    have h2 := straightLinePass_pos f (clampInput img) r c h
    have h3 : (clampInput img).get r c ≠ 0 := by rw [← h2]; exact h
    rw [clampInput_get] at h3
    split_ifs at h3 with h4
    · exact h4
    · exact absurd rfl h3
  | succ n ih =>
    apply ih
    rw [afterRuns_succ] at h
    have hd := afterRuns_dims f img n
    have := contiguousLinePass_pos f h13 hodd hK hC (f.afterRuns img n) r c hr0
      (by rw [hd.1]; exact hr) hc0 (by rw [hd.2]; exact hc) h
    omega

/-- After at least one repetition every pixel inside the image is `0` or `255`. -/
theorem afterRuns_succ_binary (f : ContiguousLineFilter) (img : Mat) (n : Nat) (r c : Int)
    (hr0 : 0 ≤ r) (hr : r < img.rows) (hc0 : 0 ≤ c) (hc : c < img.cols) :
    (f.afterRuns img (n + 1)).get r c = 0 ∨ (f.afterRuns img (n + 1)).get r c = 255 := by
  have hd := afterRuns_dims f img n
  rw [afterRuns_succ, contiguousLinePass_get,
    if_pos ⟨hr0, by rw [hd.1]; exact hr, hc0, by rw [hd.2]; exact hc⟩]
  exact confirmValue_cases _ _ _ _

/-- Before the first repetition every pixel is `0` or `1`. -/
theorem afterRuns_zero_le_one (f : ContiguousLineFilter) (img : Mat) (r c : Int) :
    (f.afterRuns img 0).get r c ≤ 1 := by
  show (straightLinePass f (clampInput img)).get r c ≤ 1
  rw [straightLinePass_get, clampInput_get]
  split_ifs <;> omega

/-! ## Claims -/

theorem create_filter3 :
    ContiguousLineFilter.create (some weightsOnes) 3 1 1 = some filter3 := by
  rfl

theorem create_filter3twice :
    ContiguousLineFilter.create (some weightsOnes) 3 2 1 = some filter3twice := by
  rfl

/-- C1: for a filter constructed with `kernelRuns ≥ 1`, `run` returns an image of the
dimensions of its input in which every pixel is `0` or `255`. -/
theorem C1_run_same_size_binary (weightsFile : Option (List Int))
    (kernelSize kernelRuns kernelSpan : Int) (f : ContiguousLineFilter) (img : Mat)
    (hruns : 1 ≤ kernelRuns) (hint : kernelRuns < 2147483648)
    (hf : ContiguousLineFilter.create weightsFile kernelSize kernelRuns kernelSpan = some f) :
    (f.run img).rows = img.rows ∧ (f.run img).cols = img.cols ∧
    ∀ r c : Int, 0 ≤ r → r < img.rows → 0 ≤ c → c < img.cols →
      (f.run img).get r c = 0 ∨ (f.run img).get r c = 255 := by
  obtain ⟨-, hr, -⟩ := create_some _ _ _ _ _ hf
  have hpos : 1 ≤ f.mKernelRuns := by rw [hr]; unfold toU32; omega
  obtain ⟨n, hn⟩ : ∃ n, f.mKernelRuns = n + 1 := ⟨f.mKernelRuns - 1, by omega⟩
  rw [run_eq_afterRuns, hn]
  refine ⟨(afterRuns_dims f img _).1, (afterRuns_dims f img _).2, ?_⟩
  intro r c hr0 hr1 hc0 hc1
  exact afterRuns_succ_binary f img n r c hr0 hr1 hc0 hc1

theorem C1_run_same_size_binary_witness :
    (1 : Int) ≤ 1 ∧ (1 : Int) < 2147483648 ∧
    ContiguousLineFilter.create (some weightsOnes) 3 1 1 = some filter3 ∧
    (filter3.run lineImage).rows = lineImage.rows ∧
    (filter3.run lineImage).cols = lineImage.cols ∧
    ((filter3.run lineImage).get 0 2 = 0 ∨ (filter3.run lineImage).get 0 2 = 255) :=
  have h := C1_run_same_size_binary (some weightsOnes) 3 1 1 filter3 lineImage
    (by decide) (by decide) rfl
  ⟨by decide, by decide, rfl, h.1, h.2.1,
    h.2.2 0 2 (by decide) (by decide) (by decide) (by decide)⟩

/-- C2: `run` only removes foreground: a pixel that is `255` in the output was positive in the
input, and an all-zero input gives an all-zero output. -/
theorem C2_run_only_removes (weightsFile : Option (List Int))
    (kernelSize kernelRuns kernelSpan : Int) (f : ContiguousLineFilter) (img : Mat)
    (hf : ContiguousLineFilter.create weightsFile kernelSize kernelRuns kernelSpan = some f) :
    (∀ r c : Int, 0 ≤ r → r < img.rows → 0 ≤ c → c < img.cols →
      (f.run img).get r c = 255 → 0 < img.get r c) ∧
    ((∀ r c : Int, 0 ≤ r → r < img.rows → 0 ≤ c → c < img.cols → img.get r c = 0) →
      ∀ r c : Int, 0 ≤ r → r < img.rows → 0 ≤ c → c < img.cols → (f.run img).get r c = 0) := by
  obtain ⟨-, -, -, h13, hodd, -, -, hK, hC, -⟩ := create_some _ _ _ _ _ hf
  rw [run_eq_afterRuns]
  constructor
  · intro r c hr0 hr1 hc0 hc1 h
    have := afterRuns_pos f h13 hodd hK hC img r c hr0 hr1 hc0 hc1 f.mKernelRuns (by omega)
    omega
  · intro hz r c hr0 hr1 hc0 hc1
    by_contra hne
    have := afterRuns_pos f h13 hodd hK hC img r c hr0 hr1 hc0 hc1 f.mKernelRuns hne
    have := hz r c hr0 hr1 hc0 hc1
    omega

theorem C2_run_only_removes_witness :
    ContiguousLineFilter.create (some weightsOnes) 3 1 1 = some filter3 ∧
    ((filter3.run lineImage).get 0 2 = 255 → 0 < lineImage.get 0 2) ∧
    (filter3.run zeroImage).get 1 2 = 0 :=
  ⟨rfl,
   (C2_run_only_removes (some weightsOnes) 3 1 1 filter3 lineImage rfl).1 0 2
     (by decide) (by decide) (by decide) (by decide),
   (C2_run_only_removes (some weightsOnes) 3 1 1 filter3 zeroImage rfl).2
     (fun _ _ _ _ _ _ => rfl) 1 2 (by decide) (by decide) (by decide) (by decide)⟩

/-- C3 (defect of the code): the clamp `cv::threshold(h_iImage, clamped, 1, 1, 0)` keeps only
pixels strictly above `1`: the positive input value `1` becomes `0`, not `1`. -/
theorem C3_clamp_clears_value_one :
    (clampInput grayImage).get 0 0 = 0 ∧ (clampInput grayImage).get 0 1 = 0 ∧
    (clampInput grayImage).get 0 2 = 1 ∧ (clampInput grayImage).get 0 3 = 1 := by
  decide

/-! ## Repetitions of the contiguous-line pass -/

/-- The member `mKernelRuns` is the only one that depends on the argument `kernelRuns`. -/
theorem create_runs (weightsFile : Option (List Int)) (kernelSize a b kernelSpan : Int)
    (fa fb : ContiguousLineFilter)
    (ha : ContiguousLineFilter.create weightsFile kernelSize a kernelSpan = some fa)
    (hb : ContiguousLineFilter.create weightsFile kernelSize b kernelSpan = some fb) :
    fb = { fa with mKernelRuns := fb.mKernelRuns } := by
  unfold ContiguousLineFilter.create at ha hb
  simp only [] at ha hb
  split_ifs at ha hb with h1 h2 h3
  cases weightsFile with
  | none => simp at ha
  | some file =>
    simp only [] at ha hb
    split at ha
    · simp at ha
    · rename_i st hst
      rw [hst] at hb
      simp only [Option.some.injEq] at ha hb
      subst ha
      subst hb
      rfl

theorem afterRuns_runs (f : ContiguousLineFilter) (n : Nat) (img : Mat) (k : Nat) :
    ContiguousLineFilter.afterRuns { f with mKernelRuns := n } img k = f.afterRuns img k := rfl

/-- A repetition of the contiguous-line pass leaves a zero pixel at zero. -/
theorem contiguousLinePass_zero (f : ContiguousLineFilter) (h13 : f.mKernelSize ≤ 13)
    (hodd : f.mKernelSize % 2 = 1) (hK : f.h_mKernel = buildKernel f.mKernelSize)
    (hC : f.mChecksum = buildChecksum f.mKernelSize f.h_mKernel)
    (m : Mat) (r c : Int) (h : m.get r c = 0) : (contiguousLinePass f m).get r c = 0 := by
  by_cases hin : 0 ≤ r ∧ r < m.rows ∧ 0 ≤ c ∧ c < m.cols
  · by_contra hne
    have := contiguousLinePass_pos f h13 hodd hK hC m r c hin.1 hin.2.1 hin.2.2.1 hin.2.2.2 hne
    omega
  · rw [contiguousLinePass_get, if_neg hin, h]

theorem count255_mono (m1 m2 : Mat) (hr : m1.rows = m2.rows) (hc : m1.cols = m2.cols)
    (h : ∀ r c : Int, 0 ≤ r → r < m1.rows → 0 ≤ c → c < m1.cols →
      m1.get r c = 255 → m2.get r c = 255) : count255 m1 ≤ count255 m2 := by
  unfold count255
  rw [← hr, ← hc]
  apply List.sum_le_sum
  intro r hr
  apply List.countP_mono_left
  intro c hc
  simp only [decide_eq_true_eq]
  have h1 := List.mem_range.mp hr
  have h2 := List.mem_range.mp hc
  apply h <;> omega

theorem count255_eq_zero (m : Mat) (h : ∀ r c : Int, m.get r c ≠ 255) : count255 m = 0 := by
  unfold count255
  apply List.sum_eq_zero
  intro x hx
  obtain ⟨r, -, rfl⟩ := List.mem_map.mp hx
  apply List.countP_eq_zero.mpr
  intro c _
  simp only [decide_eq_true_eq]
  exact h _ _

/-- The number of `255` pixels after `n` repetitions is at most the number after one. -/
theorem count255_afterRuns_le (f : ContiguousLineFilter) (h13 : f.mKernelSize ≤ 13)
    (hodd : f.mKernelSize % 2 = 1) (hK : f.h_mKernel = buildKernel f.mKernelSize)
    (hC : f.mChecksum = buildChecksum f.mKernelSize f.h_mKernel) (img : Mat) (n : Nat) :
    count255 (f.afterRuns img n) ≤ count255 (f.afterRuns img 1) := by
  induction n with
  | zero =>
    rw [count255_eq_zero]
    · exact Nat.zero_le _
    · intro r c h
      have := afterRuns_zero_le_one f img r c
      omega
  | succ n ih =>
    rcases Nat.eq_zero_or_pos n with h0 | hpos
    · subst h0; exact le_refl _
    · refine le_trans ?_ ih
      have hd := afterRuns_dims f img n
      have hd1 := afterRuns_dims f img (n + 1)
      apply count255_mono
      · rw [hd.1, hd1.1]
      · rw [hd.2, hd1.2]
      · intro r c hr0 hr1 hc0 hc1 h255
        rw [hd1.1] at hr1
        rw [hd1.2] at hc1
        obtain ⟨k, rfl⟩ : ∃ k, n = k + 1 := ⟨n - 1, by omega⟩
        rcases afterRuns_succ_binary f img k r c hr0 hr1 hc0 hc1 with hz | h2
        · have := contiguousLinePass_zero f h13 hodd hK hC _ r c hz
          rw [← afterRuns_succ] at this
          omega
        · exact h2

/-- C6: the output of `run` with `kernelRuns = N` has at most as many `255` pixels as the
output with `kernelRuns = 1`, and no repetition of the contiguous-line pass makes a pixel
nonzero that was `0` before it. -/
theorem C6_runs_do_not_grow (weightsFile : Option (List Int)) (kernelSize N kernelSpan : Int)
    (f1 fN : ContiguousLineFilter) (img : Mat)
    (h1 : ContiguousLineFilter.create weightsFile kernelSize 1 kernelSpan = some f1)
    (hN : ContiguousLineFilter.create weightsFile kernelSize N kernelSpan = some fN) :
    count255 (fN.run img) ≤ count255 (f1.run img) ∧
    ∀ (m : Mat) (r c : Int), m.get r c = 0 → (contiguousLinePass fN m).get r c = 0 := by
  obtain ⟨-, hr1, -, h13, hodd, -, -, hK, hC, -⟩ := create_some _ _ _ _ _ h1
  obtain ⟨-, -, -, h13N, hoddN, -, -, hKN, hCN, -⟩ := create_some _ _ _ _ _ hN
  constructor
  · have e := create_runs _ _ _ _ _ _ _ h1 hN
    have e1 : f1.mKernelRuns = 1 := by rw [hr1]; rfl
    rw [run_eq_afterRuns, run_eq_afterRuns, e1]
    rw [e, afterRuns_runs]
    exact count255_afterRuns_le f1 h13 hodd hK hC img _
  · intro m r c h
    exact contiguousLinePass_zero fN h13N hoddN hKN hCN m r c h

theorem C6_runs_do_not_grow_witness :
    ContiguousLineFilter.create (some weightsOnes) 3 1 1 = some filter3 ∧
    ContiguousLineFilter.create (some weightsOnes) 3 2 1 = some filter3twice ∧
    count255 (filter3twice.run lineImage) ≤ count255 (filter3.run lineImage) ∧
    (lineImage.get 0 7 = 0 → (contiguousLinePass filter3twice lineImage).get 0 7 = 0) :=
  have h := C6_runs_do_not_grow (some weightsOnes) 3 2 1 filter3 filter3twice lineImage rfl rfl
  ⟨rfl, rfl, h.1, h.2 lineImage 0 7⟩

set_option maxRecDepth 1000000 in
/-- C10: for every odd `k` in `3..13` the populated kernel holds `2^(k/2 - i)` at the cell
`(x, y)`, where `i = min(x, y, k-1-x, k-1-y)` is the ring of the cell. -/
theorem C10_kernel_ring_value (k : Nat) (h3 : 3 ≤ k) (h13 : k ≤ 13) (hodd : k % 2 = 1)
    (x y : Nat) (hx : x < k) (hy : y < k) :
    (buildKernel k).getD (y * k + x) 0
      = 2 ^ (k / 2 - min (min x y) (min (k - 1 - x) (k - 1 - y))) := by
  have key : ∀ x < k, ∀ y < k, (buildKernel k).getD (y * k + x) 0
      = 2 ^ (k / 2 - min (min x y) (min (k - 1 - x) (k - 1 - y))) := by
    interval_cases k <;> first | omega | decide
  exact key x hx y hy

theorem C10_kernel_ring_value_witness :
    3 ≤ 5 ∧ 5 ≤ 13 ∧ 5 % 2 = 1 ∧ 1 < 5 ∧ 3 < 5 ∧
    (buildKernel 5).getD (3 * 5 + 1) 0 = 2 ^ (5 / 2 - min (min 1 3) (min (5 - 1 - 1) (5 - 1 - 3))) :=
  ⟨by decide, by decide, by decide, by decide, by decide,
    C10_kernel_ring_value 5 (by decide) (by decide) (by decide) 1 3 (by decide) (by decide)⟩

set_option maxRecDepth 1000000 in
theorem create_filter9 :
    ContiguousLineFilter.create (some weightsOnes9) 9 1 1 = some filter9 := by
  rfl

set_option maxRecDepth 1000000 in
/-- C4 (defect of the code): with `kernelSize = 9` the exact weighted sum of the window
around pixel `(4, 4)` of `wrapImage` is `317`, not the checksum `61`, but the 8-bit
accumulator wraps to `317 - 256 = 61` and `run` writes `255`. -/
theorem C4_accumulator_wraps :
    ContiguousLineFilter.create (some weightsOnes9) 9 1 1 = some filter9 ∧
    filter9.mChecksum = 61 ∧
    exactCorrelation filter9 (straightLinePass filter9 (clampInput wrapImage)) 4 4 = 317 ∧
    (contiguousLinePass filter9 (straightLinePass filter9 (clampInput wrapImage))).get 4 4 = 255 ∧
    (filter9.run wrapImage).get 4 4 = 255 := by
  refine ⟨create_filter9, rfl, ?_, ?_, ?_⟩
  · rw [straightLinePass_eq]; decide
  · rw [contiguousLinePass_eq, straightLinePass_eq]; decide
  · rw [run_eq_afterRuns]
    show (contiguousLinePass filter9 (straightLinePass filter9 (clampInput wrapImage))).get 4 4 = 255
    rw [contiguousLinePass_eq, straightLinePass_eq]; decide

set_option maxRecDepth 1000000 in
/-- C5 (defect of the code): with `kernelRuns = 2` the second repetition reads the `255`
pixels of the first one unclamped; on the five-pixel line `run` clears the centre pixel, the
pipeline of the specification (clamp before every repetition) keeps it. -/
theorem C5_second_run_reads_255 :
    ContiguousLineFilter.create (some weightsOnes) 3 2 1 = some filter3twice ∧
    (filter3twice.afterRuns lineImage 1).get 0 2 = 255 ∧
    (filter3twice.run lineImage).get 0 2 = 0 ∧
    (specRun filter3twice lineImage).get 0 2 = 255 := by
  refine ⟨rfl, ?_, ?_, ?_⟩ <;> decide

/-! ## The perimeter scan -/

theorem forLoop_sym {σ : Type} (m : Nat) (body : Int → σ → σ) (s : σ) :
    forLoop (-(m : Int)) m body s
      = (List.range (2 * m)).foldl (fun st (t : Nat) => body ((t : Int) - m) st) s := by
  unfold forLoop
  have e : ((m : Int) - -(m : Int)).toNat = 2 * m := by omega
  rw [e]
  apply List.foldl_ext
  intro st t _
  congr 1
  ring

theorem scanBody_skip (pixel weight : Nat) (s : Nat × Nat) (h : 2 ≤ s.1) :
    scanBody pixel weight s = s := by
  unfold scanBody
  rw [if_pos h]

/-- Once two positive cells are found the scan no longer changes the state. -/
theorem scan_foldl_done {α : Type} (pix wt : α → Nat) (l : List α) (s : Nat × Nat) (h : 2 ≤ s.1) :
    l.foldl (fun s c => scanBody (pix c) (wt c) s) s = s := by
  induction l with
  | nil => rfl
  | cons x xs ih => rw [List.foldl_cons, scanBody_skip _ _ _ h, ih]

/-- The scan from a state with one positive cell found. -/
theorem scan_foldl_one {α : Type} (pix wt : α → Nat) (l : List α) (t : Nat) :
    l.foldl (fun s c => scanBody (pix c) (wt c) s) (1, t)
      = match (l.filter (fun c => decide (0 < pix c))).map wt with
        | [] => (1, t)
        | b :: _ => (2, t * b % 65536) := by
  induction l with
  | nil => rfl
  | cons x xs ih =>
    rw [List.foldl_cons]
    by_cases hx : 0 < pix x
    · have : scanBody (pix x) (wt x) (1, t) = (2, t * wt x % 65536) := by
        simp [scanBody, hx]
      rw [this, scan_foldl_done _ _ _ _ (by simp)]
      simp [List.filter_cons, hx]
    · have : scanBody (pix x) (wt x) (1, t) = (1, t) := by
        simp [scanBody, hx]
      rw [this, ih]
      simp [List.filter_cons, hx]

/-- The scan from the initial state: the weights of the first two positive cells are
multiplied into `tmp`. -/
theorem scan_foldl_zero {α : Type} (pix wt : α → Nat) (l : List α) (t : Nat) :
    l.foldl (fun s c => scanBody (pix c) (wt c) s) (0, t)
      = match (l.filter (fun c => decide (0 < pix c))).map wt with
        | [] => (0, t)
        | [a] => (1, t * a % 65536)
        | a :: b :: _ => (2, t * a % 65536 * b % 65536) := by
  induction l with
  | nil => rfl
  | cons x xs ih =>
    rw [List.foldl_cons]
    by_cases hx : 0 < pix x
    · have : scanBody (pix x) (wt x) (0, t) = (1, t * wt x % 65536) := by
        simp [scanBody, hx]
      rw [this, scan_foldl_one]
      simp only [List.filter_cons, hx, decide_True, if_true, List.map_cons]
      cases (List.filter (fun c => decide (0 < pix c)) xs).map wt <;> rfl
    · have : scanBody (pix x) (wt x) (0, t) = (0, t) := by
        simp [scanBody, hx]
      rw [this, ih]
      simp [List.filter_cons, hx]

/-- The four scan loops of the code are one scan over `perimeterCells`. -/
theorem perimeterScan_eq_foldl (f : ContiguousLineFilter) (hodd : f.mKernelSize % 2 = 1)
    (hp : Mat) (j i : Int) :
    perimeterScan f hp j i
      = (perimeterCells (f.mKernelSize / 2)).foldl
          (fun s cell => scanBody (hp.get (j + cell.2.1) (i + cell.2.2))
            (f.h_mKernelVec.getD cell.1 0) s) (0, 1) := by
  have hks : (f.mKernelSize : Int) = 2 * ((f.mKernelSize / 2 : Nat) : Int) + 1 := by omega
  unfold perimeterScan perimeterCells ContiguousLineFilter.mhKernelSize
  simp only [List.foldl_append, List.foldl_map, forLoop_sym]
  have e1 : ∀ (s : Nat × Nat), List.foldl (fun st (t : Nat) =>
        scanBody (hp.get (j - ((f.mKernelSize / 2 : Nat) : Int)) (i + ((t : Int) - ((f.mKernelSize / 2 : Nat) : Int))))
          (f.h_mKernelVec.getD ((t : Int) - ((f.mKernelSize / 2 : Nat) : Int) + ((f.mKernelSize / 2 : Nat) : Int)).toNat 0) st)
        s (List.range (2 * (f.mKernelSize / 2)))
      = List.foldl (fun s (t : Nat) =>
        scanBody (hp.get (j + -((f.mKernelSize / 2 : Nat) : Int)) (i + ((t : Int) - ((f.mKernelSize / 2 : Nat) : Int))))
          (f.h_mKernelVec.getD t 0) s)
        s (List.range (2 * (f.mKernelSize / 2))) := by
    intro s
    apply List.foldl_ext
    intro st t _
    have a1 : ((t : Int) - ((f.mKernelSize / 2 : Nat) : Int) + ((f.mKernelSize / 2 : Nat) : Int)).toNat = t := by omega
    rw [a1, sub_eq_add_neg j]
  have e2 : ∀ (s : Nat × Nat), List.foldl (fun st (t : Nat) =>
        scanBody (hp.get (j + ((t : Int) - ((f.mKernelSize / 2 : Nat) : Int))) (i + ((f.mKernelSize / 2 : Nat) : Int)))
          (f.h_mKernelVec.getD ((t : Int) - ((f.mKernelSize / 2 : Nat) : Int) + ((f.mKernelSize / 2 : Nat) : Int)
            + ((f.mKernelSize : Int) - 1)).toNat 0) st)
        s (List.range (2 * (f.mKernelSize / 2)))
      = List.foldl (fun s (t : Nat) =>
        scanBody (hp.get (j + ((t : Int) - ((f.mKernelSize / 2 : Nat) : Int))) (i + ((f.mKernelSize / 2 : Nat) : Int)))
          (f.h_mKernelVec.getD (2 * (f.mKernelSize / 2) + t) 0) s)
        s (List.range (2 * (f.mKernelSize / 2))) := by
    intro s
    apply List.foldl_ext
    intro st t _
    have a1 : ((t : Int) - ((f.mKernelSize / 2 : Nat) : Int) + ((f.mKernelSize / 2 : Nat) : Int)
            + ((f.mKernelSize : Int) - 1)).toNat = 2 * (f.mKernelSize / 2) + t := by omega
    rw [a1]
  have e3 : ∀ (s : Nat × Nat), List.foldl (fun st (t : Nat) =>
        scanBody (hp.get (j + ((f.mKernelSize / 2 : Nat) : Int)) (i - ((t : Int) - ((f.mKernelSize / 2 : Nat) : Int))))
          (f.h_mKernelVec.getD ((t : Int) - ((f.mKernelSize / 2 : Nat) : Int) + ((f.mKernelSize / 2 : Nat) : Int)
            + 2 * ((f.mKernelSize : Int) - 1)).toNat 0) st)
        s (List.range (2 * (f.mKernelSize / 2)))
      = List.foldl (fun s (t : Nat) =>
        scanBody (hp.get (j + ((f.mKernelSize / 2 : Nat) : Int)) (i + (((f.mKernelSize / 2 : Nat) : Int) - (t : Int))))
          (f.h_mKernelVec.getD (4 * (f.mKernelSize / 2) + t) 0) s)
        s (List.range (2 * (f.mKernelSize / 2))) := by
    intro s
    apply List.foldl_ext
    intro st t _
    have a1 : ((t : Int) - ((f.mKernelSize / 2 : Nat) : Int) + ((f.mKernelSize / 2 : Nat) : Int)
            + 2 * ((f.mKernelSize : Int) - 1)).toNat = 4 * (f.mKernelSize / 2) + t := by omega
    have a2 : i - ((t : Int) - ((f.mKernelSize / 2 : Nat) : Int))
        = i + (((f.mKernelSize / 2 : Nat) : Int) - (t : Int)) := by ring
    rw [a1, a2]
  have e4 : ∀ (s : Nat × Nat), List.foldl (fun st (t : Nat) =>
        scanBody (hp.get (j - ((t : Int) - ((f.mKernelSize / 2 : Nat) : Int))) (i - ((f.mKernelSize / 2 : Nat) : Int)))
          (f.h_mKernelVec.getD ((t : Int) - ((f.mKernelSize / 2 : Nat) : Int) + ((f.mKernelSize / 2 : Nat) : Int)
            + 3 * ((f.mKernelSize : Int) - 1)).toNat 0) st)
        s (List.range (2 * (f.mKernelSize / 2)))
      = List.foldl (fun s (t : Nat) =>
        scanBody (hp.get (j + (((f.mKernelSize / 2 : Nat) : Int) - (t : Int))) (i + -((f.mKernelSize / 2 : Nat) : Int)))
          (f.h_mKernelVec.getD (6 * (f.mKernelSize / 2) + t) 0) s)
        s (List.range (2 * (f.mKernelSize / 2))) := by
    intro s
    apply List.foldl_ext
    intro st t _
    have a1 : ((t : Int) - ((f.mKernelSize / 2 : Nat) : Int) + ((f.mKernelSize / 2 : Nat) : Int)
            + 3 * ((f.mKernelSize : Int) - 1)).toNat = 6 * (f.mKernelSize / 2) + t := by omega
    have a2 : j - ((t : Int) - ((f.mKernelSize / 2 : Nat) : Int))
        = j + (((f.mKernelSize / 2 : Nat) : Int) - (t : Int)) := by ring
    rw [a1, a2, sub_eq_add_neg i]
  rw [e1, e2, e3, e4]

/-! ## Vectors filled by a loop -/

/-- A loop that writes `g i` into slot `i` of a zero-initialised vector of size `n`. -/
theorem forLoop_set_eq_map (n : Nat) (g : Nat → Nat) :
    forLoop 0 n (fun i v => v.set i.toNat (g i.toNat)) (List.replicate n 0)
      = (List.range n).map g := by
  have key := forLoop_inv
    (fun (x : Int) (v : List Nat) => v.length = n ∧
      ∀ p : Nat, v[p]? = if (p : Int) < x then some (g p) else if p < n then some 0 else none)
    0 n (fun i v => v.set i.toNat (g i.toNat)) (List.replicate n 0) (by omega) ?_ ?_
  · obtain ⟨hlen, hget⟩ := key
    apply List.ext_getElem?
    intro p
    rw [hget p]
    by_cases hp : p < n
    · rw [if_pos (by omega), List.getElem?_map, List.getElem?_range hp]
      rfl
    · rw [if_neg (by omega), if_neg hp, List.getElem?_eq_none (by simp; omega)]
  · refine ⟨by simp, ?_⟩
    intro p
    rw [if_neg (by omega)]
    by_cases hp : p < n
    · rw [if_pos hp]; simp [List.getElem?_replicate, hp]
    · rw [if_neg hp]; simp [List.getElem?_replicate, hp]
  · intro x v hx0 hxn ⟨hlen, hget⟩
    refine ⟨by simp [hlen], ?_⟩
    intro p
    rw [List.getElem?_set]
    by_cases hpx : x.toNat = p
    · rw [if_pos hpx, if_pos (by omega), if_pos (by omega)]
      rw [hpx]
    · rw [if_neg hpx, hget p]
      by_cases h1 : (p : Int) < x
      · rw [if_pos h1, if_pos (by omega)]
      · rw [if_neg h1, if_neg (by omega : ¬ (p : Int) < x + 1)]

theorem readKernelVec_eq (file : List Int) (n : Nat) :
    readKernelVec file n = (List.range n).map (fun i => toU8 (file.getD i 0)) := by
  unfold readKernelVec
  exact forLoop_set_eq_map n (fun i => toU8 (file.getD i 0))

theorem readKernelVec_getD_lt (file : List Int) (n p : Nat) :
    (readKernelVec file n).getD p 0 < 256 := by
  rw [readKernelVec_eq, List.getD_eq_getElem?_getD, List.getElem?_map]
  cases h : (List.range n)[p]? with
  | none => simp
  | some i =>
    simp only [Option.map_some', Option.getD_some]
    unfold toU8
    omega

theorem copyAcceptable_eq (l : List Nat) (n : Nat) (h : l.length = n) :
    copyAcceptable l n = l := by
  unfold copyAcceptable
  rw [forLoop_set_eq_map n (fun i => l.getD i 0)]
  apply List.ext_getElem?
  intro p
  subst h
  by_cases hp : p < l.length
  · rw [List.getElem?_map, List.getElem?_range hp]
    simp [List.getElem?_eq_getElem hp]
  · rw [List.getElem?_eq_none (by simp; omega), List.getElem?_eq_none (by omega)]

/-! ## The table search -/

theorem isAcceptable_iff (f : ContiguousLineFilter) (tmp : Nat) :
    isAcceptable f tmp = true ↔ ∃ e : Nat, e < f.mLUTsize ∧ tmp = f.h_mAcceptableVec.getD e 0 := by
  unfold isAcceptable
  have key := forLoop_inv
    (fun (x : Int) (acc : Bool) =>
      acc = true ↔ ∃ e : Nat, (e : Int) < x ∧ tmp = f.h_mAcceptableVec.getD e 0)
    0 f.mLUTsize
    (fun elem is_acceptable =>
      if is_acceptable then true
      else if tmp = f.h_mAcceptableVec.getD elem.toNat 0 then true
      else false) false (by omega) ?_ ?_
  · simp only [] at key
    rw [key]
    constructor
    · rintro ⟨e, he, h⟩; exact ⟨e, by omega, h⟩
    · rintro ⟨e, he, h⟩; exact ⟨e, by omega, h⟩
  · simp only []
    constructor
    · intro h; exact absurd h (by simp)
    · rintro ⟨e, he, -⟩; omega
  · intro x acc hx0 hxn hP
    simp only [] at hP ⊢
    by_cases hacc : acc = true
    · rw [if_pos hacc]
      obtain ⟨e, he, h⟩ := hP.mp hacc
      exact ⟨fun _ => ⟨e, by omega, h⟩, fun _ => rfl⟩
    · rw [if_neg hacc]
      by_cases heq : tmp = f.h_mAcceptableVec.getD x.toNat 0
      · rw [if_pos heq]
        exact ⟨fun _ => ⟨x.toNat, by omega, heq⟩, fun _ => rfl⟩
      · rw [if_neg heq]
        constructor
        · intro h; exact absurd h (by simp)
        · rintro ⟨e, he, h⟩
          by_cases hex : (e : Int) < x
          · exact absurd (hP.mpr ⟨e, hex, h⟩) hacc
          · have : x.toNat = e := by omega
            rw [this] at heq
            exact absurd h heq

theorem isAcceptable_iff_mem (f : ContiguousLineFilter)
    (hlen : f.h_mAcceptableVec.length = f.mLUTsize) (tmp : Nat) :
    isAcceptable f tmp = true ↔ tmp ∈ f.h_mAcceptableVec := by
  rw [isAcceptable_iff]
  constructor
  · rintro ⟨e, he, h⟩
    rw [h, List.getD_eq_getElem _ _ (by omega)]
    exact List.getElem_mem _
  · intro h
    obtain ⟨e, he, h2⟩ := List.getElem_of_mem h
    exact ⟨e, by omega, by rw [List.getD_eq_getElem _ _ he, h2]⟩

/-! ## The acceptable-product table of a constructed filter -/

theorem acceptableBody_length (vec : List Nat) (L : Nat) (i oe j : Int) (n : Nat)
    (st : Option (List Nat × Nat)) (h : ∀ s, st = some s → s.1.length = n) :
    ∀ s, acceptableBody vec L i oe j st = some s → s.1.length = n := by
  intro s hs
  unfold acceptableBody at hs
  cases st with
  | none => simp at hs
  | some s0 =>
    have h0 := h s0 rfl
    simp only [Option.some_bind] at hs
    split_ifs at hs with h1 h2
    · simp only [Option.some.injEq] at hs; rw [← hs]; exact h0
    · simp only [Option.some.injEq] at hs; rw [← hs]; simp [h0]

theorem buildAcceptable_length (vec : List Nat) (ks span L n : Nat) :
    ∀ s, buildAcceptable vec ks span L n = some s → s.1.length = n := by
  unfold buildAcceptable
  simp only []
  apply forLoop_inv (fun _ (st : Option (List Nat × Nat)) => ∀ s, st = some s → s.1.length = n)
    0 L _ _ (by omega)
  · intro s hs
    simp only [Option.some.injEq] at hs
    rw [← hs]; simp
  · intro x st _ _ hP
    apply forLoop_inv (fun _ (st : Option (List Nat × Nat)) => ∀ s, st = some s → s.1.length = n)
      _ _ _ _ (by omega) hP
    intro y st2 _ _ hQ
    exact acceptableBody_length vec L x _ y n st2 hQ

/-- The members of a constructed filter that the straight-line pass relies on. -/
theorem create_table (weightsFile : Option (List Int)) (kernelSize kernelRuns kernelSpan : Int)
    (f : ContiguousLineFilter)
    (hf : ContiguousLineFilter.create weightsFile kernelSize kernelRuns kernelSpan = some f) :
    f.h_mAcceptableVec.length = f.mLUTsize ∧ (∀ p, f.h_mKernelVec.getD p 0 < 256) ∧
    ∃ st, buildAcceptable f.h_mKernelVec f.mKernelSize f.mKernelSpan f.mKernelVecSize f.mLUTsize
        = some st ∧
      f.h_mAcceptableVec = st.1.insertionSort (fun a b => a ≤ b) := by
  obtain ⟨-, -, -, -, -, -, -, -, -, -, file, st, -, hvec, hst, htab⟩ := create_some _ _ _ _ _ hf
  have hlen := buildAcceptable_length _ _ _ _ _ st hst
  have hcopy := copyAcceptable_eq (st.1.insertionSort (fun a b => a ≤ b)) f.mLUTsize
    (by rw [List.length_insertionSort]; exact hlen)
  rw [hcopy] at htab
  refine ⟨by rw [htab, List.length_insertionSort]; exact hlen, ?_, st, hst, htab⟩
  intro p
  rw [hvec]
  exact readKernelVec_getD_lt _ _ _

/-! ## The decision of the straight-line pass -/

/-- The write condition of the code is the clearing condition of the specification. -/
theorem clearedAt_iff_specCleared (f : ContiguousLineFilter) (hodd : f.mKernelSize % 2 = 1)
    (hlen : f.h_mAcceptableVec.length = f.mLUTsize) (hw : ∀ p, f.h_mKernelVec.getD p 0 < 256)
    (m : Mat) (r c : Int) (hr0 : 0 ≤ r) (hr : r < m.rows) (hc0 : 0 ≤ c) (hc : c < m.cols) :
    clearedAt f (f.padded m) (r + f.mhKernelSize) (c + f.mhKernelSize) ↔ specCleared f m r c := by
  unfold clearedAt specCleared positiveCells
  rw [padded_get_inside f m r c hr0 hr hc0 hc, perimeterScan_eq_foldl f hodd,
    scan_foldl_zero
      (fun (cell : Nat × Int × Int) => (f.padded m).get (r + f.mhKernelSize + cell.2.1)
        (c + f.mhKernelSize + cell.2.2))
      (fun (cell : Nat × Int × Int) => f.h_mKernelVec.getD cell.1 0)]
  generalize (perimeterCells (f.mKernelSize / 2)).filter
    (fun cell => decide (0 < (f.padded m).get (r + f.mhKernelSize + cell.2.1)
        (c + f.mhKernelSize + cell.2.2))) = pos
  match pos with
  | [] => simp
  | [a] => simp
  | a :: b :: rest =>
    simp only [List.map_cons, true_and, gt_iff_lt]
    have ha := hw a.1
    have hb := hw b.1
    have hprod : f.h_mKernelVec.getD a.1 0 * f.h_mKernelVec.getD b.1 0 < 65536 := by
      calc f.h_mKernelVec.getD a.1 0 * f.h_mKernelVec.getD b.1 0
          ≤ 255 * 255 := Nat.mul_le_mul (by omega) (by omega)
        _ < 65536 := by norm_num
    have e : 1 * f.h_mKernelVec.getD a.1 0 % 65536 * f.h_mKernelVec.getD b.1 0 % 65536
        = f.h_mKernelVec.getD a.1 0 * f.h_mKernelVec.getD b.1 0 := by
      rw [one_mul, Nat.mod_eq_of_lt (show f.h_mKernelVec.getD a.1 0 < 65536 by omega),
        Nat.mod_eq_of_lt hprod]
    rw [e, ← isAcceptable_iff_mem f hlen]
    simp

/-- C9: after the straight-line pass a pixel of the clamped image is `0` exactly when the
specification clears it (positive value, at least two positive perimeter cells, product of
the weights of the first two in scan order not in the table); every other pixel keeps its
clamped value. -/
theorem C9_straight_line_decision (weightsFile : Option (List Int))
    (kernelSize kernelRuns kernelSpan : Int) (f : ContiguousLineFilter) (clamped : Mat)
    (hf : ContiguousLineFilter.create weightsFile kernelSize kernelRuns kernelSpan = some f)
    (r c : Int) (hr0 : 0 ≤ r) (hr : r < clamped.rows) (hc0 : 0 ≤ c) (hc : c < clamped.cols) :
    (straightLinePass f clamped).get r c
      = if specCleared f clamped r c then 0 else clamped.get r c := by
  obtain ⟨-, -, -, -, hodd, -⟩ := create_some _ _ _ _ _ hf
  obtain ⟨hlen, hw, -⟩ := create_table _ _ _ _ _ hf
  have hiff := clearedAt_iff_specCleared f hodd hlen hw clamped r c hr0 hr hc0 hc
  rw [straightLinePass_get]
  by_cases hs : specCleared f clamped r c
  · rw [if_pos hs, if_pos ⟨hr0, hr, hc0, hc, hiff.mpr hs⟩]
  · rw [if_neg hs, if_neg (fun h => hs (hiff.mp h.2.2.2.2))]

/-! ## An isolated pixel -/

/-- If the centre pixel is the only nonzero pixel of the window, the accumulator ends at the
centre pixel. -/
theorem correlate_single (f : ContiguousLineFilter) (h13 : f.mKernelSize ≤ 13)
    (hodd : f.mKernelSize % 2 = 1) (hK : f.h_mKernel = buildKernel f.mKernelSize)
    (hp : Mat) (j i : Int)
    (hz : ∀ k l : Int, -f.mhKernelSize ≤ k → k ≤ f.mhKernelSize → -f.mhKernelSize ≤ l →
      l ≤ f.mhKernelSize → ¬ (k = 0 ∧ l = 0) → hp.get (j + k) (i + l) = 0)
    (hc : hp.get j i < 256) :
    correlate f hp j i = hp.get j i := by
  obtain ⟨hcen, -, -, -⟩ := kernel_parity f.mKernelSize h13 hodd
  have hmh : (0 : Int) ≤ f.mhKernelSize := by unfold ContiguousLineFilter.mhKernelSize; omega
  have hks : (f.mKernelSize : Int) = 2 * f.mhKernelSize + 1 := by
    unfold ContiguousLineFilter.mhKernelSize; omega
  unfold correlate
  simp only []
  have := forLoop_inv
    (fun x tmp => tmp = if 0 < x then hp.get j i else 0)
    (-f.mhKernelSize) (f.mhKernelSize + 1)
    (fun k tmp =>
      forLoop (-f.mhKernelSize) (f.mhKernelSize + 1)
        (fun l tmp =>
          (tmp + hp.get (j + k) (i + l) *
            f.h_mKernel.getD ((k + f.mhKernelSize) * (f.mKernelSize : Int)
              + (l + f.mhKernelSize)).toNat 0) % 256)
        tmp) 0 (by omega) (by show (0 : Nat) = ite _ _ _; rw [if_neg (by omega)]) ?_
  · simp only [] at this
    rw [this, if_pos (by omega)]
  · intro x tmp hx1 hx2 hP
    have := forLoop_inv
      (fun y tmp => tmp = if (0 < x ∨ (x = 0 ∧ 0 < y)) then hp.get j i else 0)
      (-f.mhKernelSize) (f.mhKernelSize + 1)
      (fun l tmp =>
          (tmp + hp.get (j + x) (i + l) *
            f.h_mKernel.getD ((x + f.mhKernelSize) * (f.mKernelSize : Int)
              + (l + f.mhKernelSize)).toNat 0) % 256)
      tmp (by omega) ?_ ?_
    · simp only [] at this ⊢
      rw [this]
      by_cases h0 : 0 < x + 1
      · rw [if_pos h0, if_pos (by omega)]
      · rw [if_neg h0, if_neg (by omega)]
    · simp only []
      rw [hP]
      by_cases h0 : 0 < x
      · rw [if_pos h0, if_pos (by omega)]
      · rw [if_neg h0, if_neg (by omega)]
    · intro y t hy1 hy2 hQ
      simp only [] at hQ ⊢
      by_cases hcen0 : x = 0 ∧ y = 0
      · obtain ⟨rfl, rfl⟩ := hcen0
        have hidx := coefPos_toNat f.mKernelSize 0 0 (f.mKernelSize / 2) (f.mKernelSize / 2)
          (by omega) (by omega)
        unfold ContiguousLineFilter.mhKernelSize
        rw [hidx, hK, hcen]
        rw [if_neg (by omega)] at hQ
        rw [if_pos (by omega), hQ]
        simp only [add_zero, mul_one, zero_add]
        exact Nat.mod_eq_of_lt hc
      · rw [hz x y (by omega) (by omega) (by omega) (by omega) hcen0, zero_mul, add_zero, hQ]
        have e : (if 0 < x ∨ x = 0 ∧ 0 < y then hp.get j i else 0)
            = if 0 < x ∨ x = 0 ∧ 0 < y + 1 then hp.get j i else 0 := by
          by_cases h0 : 0 < x ∨ (x = 0 ∧ 0 < y)
          · rw [if_pos h0, if_pos (by omega)]
          · rw [if_neg h0, if_neg (by omega)]
        rw [← e]
        apply Nat.mod_eq_of_lt
        split_ifs <;> omega

theorem mem_perimeterCells (mh : Nat) (cell : Nat × Int × Int) (h : cell ∈ perimeterCells mh) :
    -(mh : Int) ≤ cell.2.1 ∧ cell.2.1 ≤ mh ∧ -(mh : Int) ≤ cell.2.2 ∧ cell.2.2 ≤ mh ∧
    (cell.2.1 = -(mh : Int) ∨ cell.2.1 = mh ∨ cell.2.2 = -(mh : Int) ∨ cell.2.2 = mh) := by
  unfold perimeterCells at h
  simp only [List.mem_append, List.mem_map, List.mem_range] at h
  rcases h with ((⟨t, ht, rfl⟩ | ⟨t, ht, rfl⟩) | ⟨t, ht, rfl⟩) | ⟨t, ht, rfl⟩ <;>
    refine ⟨?_, ?_, ?_, ?_, ?_⟩ <;> first | (simp only []; omega) | simp

/-- In an image whose only nonzero pixel is `(r0, c0)` the padded snapshot is zero at every
other position of a window centred there. -/
theorem padded_offcentre (f : ContiguousLineFilter) (m : Mat) (r0 c0 : Int)
    (hm : ∀ r c : Int, 0 ≤ r → r < m.rows → 0 ≤ c → c < m.cols → ¬ (r = r0 ∧ c = c0) →
      m.get r c = 0)
    (dr dc : Int) (hne : ¬ (dr = 0 ∧ dc = 0)) :
    (f.padded m).get (r0 + f.mhKernelSize + dr) (c0 + f.mhKernelSize + dc) = 0 := by
  rw [padded_get]
  split_ifs with h
  · apply hm <;> omega
  · rfl

/-- C8: if every pixel of the input other than `(r0, c0)` is `0` (in particular if `(r0, c0)`
is the only foreground pixel), then `(r0, c0)` has fewer than two positive perimeter cells,
the straight-line pass leaves it at its clamped value, and it is `0` in the output of `run`
(kernel size `3..13`, `kernelRuns ≥ 1`). -/
theorem C8_isolated_pixel_removed (weightsFile : Option (List Int))
    (kernelSize kernelRuns kernelSpan : Int) (f : ContiguousLineFilter) (img : Mat) (r0 c0 : Int)
    (hf : ContiguousLineFilter.create weightsFile kernelSize kernelRuns kernelSpan = some f)
    (h3 : 3 ≤ kernelSize) (hk13 : kernelSize ≤ 13)
    (hruns : 1 ≤ kernelRuns) (hint : kernelRuns < 2147483648)
    (hr0 : 0 ≤ r0) (hr : r0 < img.rows) (hc0 : 0 ≤ c0) (hc : c0 < img.cols)
    (hothers : ∀ r c : Int, 0 ≤ r → r < img.rows → 0 ≤ c → c < img.cols →
      ¬ (r = r0 ∧ c = c0) → img.get r c = 0) :
    (positiveCells f (clampInput img) r0 c0).length < 2 ∧
    (straightLinePass f (clampInput img)).get r0 c0 = (clampInput img).get r0 c0 ∧
    (f.run img).get r0 c0 = 0 := by
  obtain ⟨hks, hkr, -, h13, hodd, -, -, hK, hC, -⟩ := create_some _ _ _ _ _ hf
  obtain ⟨hlen, hw, -⟩ := create_table _ _ _ _ _ hf
  have hks3 : 3 ≤ f.mKernelSize := by rw [hks]; unfold toU32; omega
  have hmh : (1 : Int) ≤ f.mhKernelSize := by unfold ContiguousLineFilter.mhKernelSize; omega
  have hmh2 : f.mhKernelSize = ((f.mKernelSize / 2 : Nat) : Int) := rfl
  -- the clamped image
  have hcl : ∀ r c : Int, 0 ≤ r → r < (clampInput img).rows → 0 ≤ c → c < (clampInput img).cols →
      ¬ (r = r0 ∧ c = c0) → (clampInput img).get r c = 0 := by
    intro r c h1 h2 h3 h4 h5
    rw [clampInput_get, hothers r c h1 h2 h3 h4 h5]
    rfl
  have hpc : positiveCells f (clampInput img) r0 c0 = [] := by
    unfold positiveCells
    rw [List.map_eq_nil_iff, List.filter_eq_nil_iff]
    intro cell hcell
    obtain ⟨-, -, -, -, hedge⟩ := mem_perimeterCells _ cell hcell
    rw [padded_offcentre f (clampInput img) r0 c0 hcl cell.2.1 cell.2.2 (by omega)]
    simp
  have hp1 : (straightLinePass f (clampInput img)).get r0 c0 = (clampInput img).get r0 c0 := by
    rw [straightLinePass_get]
    apply if_neg
    intro h
    have := (clearedAt_iff_specCleared f hodd hlen hw (clampInput img) r0 c0 hr0 hr hc0 hc).mp
      h.2.2.2.2
    unfold specCleared at this
    rw [hpc] at this
    exact this.2
  refine ⟨by rw [hpc]; simp, hp1, ?_⟩
  -- the image entering the first repetition
  have hp1others : ∀ r c : Int, 0 ≤ r → r < (straightLinePass f (clampInput img)).rows →
      0 ≤ c → c < (straightLinePass f (clampInput img)).cols → ¬ (r = r0 ∧ c = c0) →
      (straightLinePass f (clampInput img)).get r c = 0 := by
    intro r c h1 h2 h3 h4 h5
    rw [straightLinePass_rows] at h2
    rw [straightLinePass_cols] at h4
    rw [straightLinePass_get]
    split_ifs
    · rfl
    · exact hcl r c h1 h2 h3 h4 h5
  have hle1 : (straightLinePass f (clampInput img)).get r0 c0 ≤ 1 := afterRuns_zero_le_one f img r0 c0
  have hfirst : (f.afterRuns img 1).get r0 c0 = 0 := by
    show (contiguousLinePass f (straightLinePass f (clampInput img))).get r0 c0 = 0
    rw [contiguousLinePass_get, if_pos ⟨hr0, by rw [straightLinePass_rows]; exact hr, hc0,
      by rw [straightLinePass_cols]; exact hc⟩]
    unfold confirmValue
    have hcen := padded_get_inside f (straightLinePass f (clampInput img)) r0 c0 hr0
      (by rw [straightLinePass_rows]; exact hr) hc0 (by rw [straightLinePass_cols]; exact hc)
    have hcor := correlate_single f h13 hodd hK (f.padded (straightLinePass f (clampInput img)))
      (r0 + f.mhKernelSize) (c0 + f.mhKernelSize)
      (fun k l _ _ _ _ hne => padded_offcentre f _ r0 c0 hp1others k l hne)
      (by rw [hcen]; omega)
    rw [hcor, hcen]
    have h5 := (kernel_parity f.mKernelSize h13 hodd).2.2.2 hks3
    rw [← hK, ← hC] at h5
    rw [if_neg (by omega)]
  have hall : ∀ n : Nat, (f.afterRuns img (n + 1)).get r0 c0 = 0 := by
    intro n
    induction n with
    | zero => exact hfirst
    | succ n ih =>
      rw [afterRuns_succ]
      exact contiguousLinePass_zero f h13 hodd hK hC _ r0 c0 ih
  have hrunspos : 1 ≤ f.mKernelRuns := by rw [hkr]; unfold toU32; omega
  obtain ⟨n, hn⟩ : ∃ n, f.mKernelRuns = n + 1 := ⟨f.mKernelRuns - 1, by omega⟩
  rw [run_eq_afterRuns, hn]
  exact hall n

theorem C8_isolated_pixel_removed_witness :
    ContiguousLineFilter.create (some weightsOnes) 3 1 1 = some filter3 ∧
    (3 : Int) ≤ 3 ∧ (3 : Int) ≤ 13 ∧ (1 : Int) ≤ 1 ∧ (1 : Int) < 2147483648 ∧
    (0 : Int) ≤ 1 ∧ 1 < dotImage.rows ∧ (0 : Int) ≤ 1 ∧ 1 < dotImage.cols ∧
    (positiveCells filter3 (clampInput dotImage) 1 1).length < 2 ∧
    (straightLinePass filter3 (clampInput dotImage)).get 1 1 = (clampInput dotImage).get 1 1 ∧
    (filter3.run dotImage).get 1 1 = 0 :=
  ⟨rfl, by decide, by decide, by decide, by decide, by decide, by decide, by decide, by decide,
    C8_isolated_pixel_removed (some weightsOnes) 3 1 1 filter3 dotImage 1 1 rfl
      (by decide) (by decide) (by decide) (by decide) (by decide) (by decide) (by decide)
      (by decide) (fun _ _ _ _ _ _ h => if_neg h)⟩

theorem create_filter3w :
    ContiguousLineFilter.create (some weightsPowers) 3 1 1 = some filter3w := by
  rfl

theorem C9_straight_line_decision_witness :
    ContiguousLineFilter.create (some weightsPowers) 3 1 1 = some filter3w ∧
    (0 : Int) ≤ 1 ∧ 1 < (clampInput cornerImage).rows ∧
    (0 : Int) ≤ 1 ∧ 1 < (clampInput cornerImage).cols ∧
    (straightLinePass filter3w (clampInput cornerImage)).get 1 1
      = if specCleared filter3w (clampInput cornerImage) 1 1 then 0
        else (clampInput cornerImage).get 1 1 :=
  ⟨rfl, by decide, by decide, by decide, by decide,
    C9_straight_line_decision (some weightsPowers) 3 1 1 filter3w (clampInput cornerImage) rfl
      1 1 (by decide) (by decide) (by decide) (by decide)⟩

/-! ## The acceptable-product builder -/

theorem forLoop_congr {σ : Type} (lo hi : Int) (body body2 : Int → σ → σ) (s : σ)
    (h : ∀ x st, lo ≤ x → x < hi → body x st = body2 x st) :
    forLoop lo hi body s = forLoop lo hi body2 s := by
  unfold forLoop
  apply List.foldl_ext
  intro st n hn
  apply h
  · omega
  · have := List.mem_range.mp hn
    omega

theorem BuilderInv.congr {n : Nat} {S S2 : Nat → Prop} {st : Option (List Nat × Nat)}
    (h : BuilderInv n S st) (hS : ∀ x, S x ↔ S2 x) : BuilderInv n S2 st := by
  obtain ⟨ins, h1, h2, h3, h4⟩ := h
  exact ⟨ins, h1, h2, h3, fun x => by rw [h4 x, hS x]⟩

theorem BuilderInv.init (n : Nat) (S : Nat → Prop) (hS : ∀ x, ¬ S x) :
    BuilderInv n S (some (List.replicate n 0, 0)) :=
  ⟨[], by simp, by simp, List.nodup_nil, fun x => by simp [hS x]⟩

/-- One product: if every duplicate-free list of products of `G` fits the capacity, the
insertion stays inside the table and the invariant is kept. -/
theorem BuilderInv.step {n : Nat} {S G : Nat → Prop} {st : Option (List Nat × Nat)}
    (h : BuilderInv n S st) (hSG : ∀ x, S x → G x)
    (hcard : ∀ l : List Nat, l.Nodup → (∀ x ∈ l, G x) → l.length ≤ n)
    (p : Nat) (hp : G p) (hp16 : p < 65536) :
    BuilderInv n (fun x => S x ∨ x = p) (insertProduct st p) := by
  obtain ⟨ins, h1, h2, h3, h4⟩ := h
  subst h1
  unfold insertProduct
  simp only [Option.some_bind]
  by_cases hmem : p ∈ ins ++ List.replicate (n - ins.length) 0
  · rw [if_pos hmem]
    refine ⟨ins, rfl, h2, h3, ?_⟩
    intro x
    constructor
    · intro hx
      exact ⟨Or.inl ((h4 x).mp hx).1, ((h4 x).mp hx).2⟩
    · rintro ⟨hx | hx, hne⟩
      · exact (h4 x).mpr ⟨hx, hne⟩
      · subst hx
        rcases List.mem_append.mp hmem with h5 | h5
        · exact h5
        · exact absurd (List.eq_of_mem_replicate h5) hne
  · rw [if_neg hmem]
    have hnotin : p ∉ ins := fun h5 => hmem (List.mem_append.mpr (Or.inl h5))
    have hlt : ins.length < n := by
      have := hcard (p :: ins) (List.nodup_cons.mpr ⟨hnotin, h3⟩) (by
        intro x hx
        rcases List.mem_cons.mp hx with rfl | hx
        · exact hp
        · exact hSG x ((h4 x).mp hx).1)
      simp only [List.length_cons] at this
      omega
    have hne : p ≠ 0 := by
      intro h0
      apply hmem
      apply List.mem_append.mpr
      right
      rw [h0]
      exact List.mem_replicate.mpr ⟨by omega, rfl⟩
    have hlen : (ins ++ List.replicate (n - ins.length) 0).length = n := by
      simp only [List.length_append, List.length_replicate]; omega
    rw [if_pos (by rw [hlen]; exact hlt), Nat.mod_eq_of_lt hp16]
    refine ⟨ins ++ [p], ?_, ?_, ?_, ?_⟩
    · have e : n - ins.length = (n - (ins ++ [p]).length) + 1 := by
        simp only [List.length_append, List.length_singleton]; omega
      rw [e, List.replicate_succ, List.set_append_right _ _ (le_refl _)]
      simp
    · simp only [List.length_append, List.length_singleton]; omega
    · exact List.nodup_append.mpr ⟨h3, List.nodup_singleton p, by
        intro a ha hb
        rw [List.mem_singleton] at hb
        exact hnotin (hb ▸ ha)⟩
    · intro x
      simp only [List.mem_append, List.mem_singleton]
      constructor
      · rintro (hx | hx)
        · exact ⟨Or.inl ((h4 x).mp hx).1, ((h4 x).mp hx).2⟩
        · exact ⟨Or.inr hx, by rw [hx]; exact hne⟩
      · rintro ⟨hx | hx, hxne⟩
        · exact Or.inl ((h4 x).mpr ⟨hx, hxne⟩)
        · exact Or.inr hx

theorem acceptableBody_eq (vec : List Nat) (L : Nat) (offset i j : Int)
    (st : Option (List Nat × Nat)) :
    acceptableBody vec L i (i + offset) j st = insertProduct st (productAt vec L offset i j) := rfl

theorem productAt_lt (vec : List Nat) (hw : ∀ p, vec.getD p 0 < 256) (L : Nat) (offset i j : Int) :
    productAt vec L offset i j < 65536 := by
  unfold productAt
  have h1 := hw i.toNat
  have h2 := hw (toU32 (i + offset + j) % L)
  calc vec.getD i.toNat 0 * vec.getD (toU32 (i + offset + j) % L) 0
      ≤ 255 * 255 := Nat.mul_le_mul (by omega) (by omega)
    _ < 65536 := by norm_num

/-- The generation loops keep the builder invariant when every duplicate-free list of
generated products fits the capacity `n`: they end with the nonzero generated products in the
first `counter` slots and never write past the end. -/
theorem buildAcceptable_inv (vec : List Nat) (hw : ∀ p, vec.getD p 0 < 256) (ks span L n : Nat)
    (hcard : ∀ l : List Nat, l.Nodup →
      (∀ x ∈ l, IsGenerated vec L ((ks : Int) * 2 - 2) ((span / 2 : Nat) : Int) x) → l.length ≤ n) :
    BuilderInv n (IsGenerated vec L ((ks : Int) * 2 - 2) ((span / 2 : Nat) : Int))
      (buildAcceptable vec ks span L n) := by
  unfold buildAcceptable
  simp only []
  have key := forLoop_inv
    (fun (x : Int) (st : Option (List Nat × Nat)) =>
      BuilderInv n (fun p => ∃ i j : Int, 0 ≤ i ∧ i < x ∧ -((span / 2 : Nat) : Int) ≤ j ∧
        j ≤ ((span / 2 : Nat) : Int) ∧ p = productAt vec L ((ks : Int) * 2 - 2) i j) st)
    0 L
    (fun i st =>
      forLoop (-((span / 2 : Nat) : Int)) (((span / 2 : Nat) : Int) + 1)
        (fun j st => acceptableBody vec L i (i + ((ks : Int) * 2 - 2)) j st) st)
    (some (List.replicate n 0, 0)) (by omega) ?_ ?_
  · exact key
  · apply BuilderInv.init
    rintro x ⟨i, j, h0, h1, -⟩
    omega
  · intro x st hx0 hxL hP
    have hin := forLoop_inv
      (fun (y : Int) (st : Option (List Nat × Nat)) =>
        BuilderInv n (fun p => (∃ i j : Int, 0 ≤ i ∧ i < x ∧ -((span / 2 : Nat) : Int) ≤ j ∧
            j ≤ ((span / 2 : Nat) : Int) ∧ p = productAt vec L ((ks : Int) * 2 - 2) i j) ∨
          (∃ j : Int, -((span / 2 : Nat) : Int) ≤ j ∧ j < y ∧
            p = productAt vec L ((ks : Int) * 2 - 2) x j)) st)
      (-((span / 2 : Nat) : Int)) (((span / 2 : Nat) : Int) + 1)
      (fun j st => acceptableBody vec L x (x + ((ks : Int) * 2 - 2)) j st) st (by omega) ?_ ?_
    · apply hin.congr
      intro p
      constructor
      · rintro (⟨i, j, h0, h1, h2, h3, h4⟩ | ⟨j, h2, h3, h4⟩)
        · exact ⟨i, j, h0, by omega, h2, h3, h4⟩
        · exact ⟨x, j, hx0, by omega, h2, by omega, h4⟩
      · rintro ⟨i, j, h0, h1, h2, h3, h4⟩
        by_cases hix : i < x
        · exact Or.inl ⟨i, j, h0, hix, h2, h3, h4⟩
        · have : i = x := by omega
          subst this
          exact Or.inr ⟨j, h2, by omega, h4⟩
    · apply hP.congr
      intro p
      constructor
      · intro h; exact Or.inl h
      · rintro (h | ⟨j, h2, h3, -⟩)
        · exact h
        · omega
    · intro y st2 hy0 hy1 hQ
      beta_reduce
      rw [acceptableBody_eq]
      have hstep := BuilderInv.step (G := IsGenerated vec L ((ks : Int) * 2 - 2) ((span / 2 : Nat) : Int))
        hQ ?_ hcard (productAt vec L ((ks : Int) * 2 - 2) x y)
        ⟨x, y, hx0, hxL, hy0, by omega, rfl⟩ (productAt_lt vec hw _ _ _ _)
      · apply hstep.congr
        intro p
        constructor
        · rintro ((h | ⟨j, h2, h3, h4⟩) | h)
          · exact Or.inl h
          · exact Or.inr ⟨j, h2, by omega, h4⟩
          · exact Or.inr ⟨y, hy0, by omega, h⟩
        · rintro (h | ⟨j, h2, h3, h4⟩)
          · exact Or.inl (Or.inl h)
          · by_cases hjy : j < y
            · exact Or.inl (Or.inr ⟨j, h2, hjy, h4⟩)
            · have : j = y := by omega
              subst this
              exact Or.inr h4
      · rintro p (⟨i, j, h0, h1, h2, h3, h4⟩ | ⟨j, h2, h3, h4⟩)
        · exact ⟨i, j, h0, by omega, h2, h3, h4⟩
        · exact ⟨x, j, hx0, hxL, h2, by omega, h4⟩

/-- Under the builder invariant every product of `S` is an entry of the table. -/
theorem BuilderInv.mem {n : Nat} {S : Nat → Prop} {st : Option (List Nat × Nat)}
    (h : BuilderInv n S st)
    (hcard : ∀ l : List Nat, l.Nodup → (∀ x ∈ l, S x) → l.length ≤ n) :
    ∃ s, st = some s ∧ s.1.length = n ∧ ∀ p, S p → p ∈ s.1 := by
  obtain ⟨ins, h1, h2, h3, h4⟩ := h
  refine ⟨_, h1, ?_, ?_⟩
  · simp only [List.length_append, List.length_replicate]; omega
  · intro p hp
    by_cases hp0 : p = 0
    · have := hcard (0 :: ins) (List.nodup_cons.mpr ⟨fun h0 => ((h4 0).mp h0).2 rfl, h3⟩) (by
        intro x hx
        rcases List.mem_cons.mp hx with rfl | hx
        · exact hp0 ▸ hp
        · exact ((h4 x).mp hx).1)
      simp only [List.length_cons] at this
      apply List.mem_append.mpr
      right
      rw [hp0]
      exact List.mem_replicate.mpr ⟨by omega, rfl⟩
    · exact List.mem_append.mpr (Or.inl ((h4 p).mpr ⟨hp, hp0⟩))

/-! ## Counting the generated products -/

theorem mod_of_range (x L : Nat) (h1 : L ≤ x) (h2 : x < 2 * L) : x % L = x - L := by
  rw [Nat.mod_eq_sub_mod h1, Nat.mod_eq_of_lt (by omega)]

/-- Every generated product is the product of the weights of a pair `(a, b)` with
`b = a + L/2` (`a < L/2`) or `b = (a + L/2 + t + 1) mod L` (`t < s`): an opposite pair, or a
pair perturbed towards one side. -/
theorem generated_pair (vec : List Nat) (L s : Nat) (hLeven : L % 2 = 0) (hs : 2 * s + 1 < L)
    (hL : L < 2147483648) (x : Nat)
    (hx : IsGenerated vec L ((L / 2 : Nat) : Int) (s : Int) x) :
    (∃ a, a < L / 2 ∧ x = vec.getD a 0 * vec.getD (a + L / 2) 0) ∨
    (∃ a t, a < L ∧ t < s ∧ x = vec.getD a 0 * vec.getD ((a + L / 2 + (t + 1)) % L) 0) := by
  obtain ⟨i, j, hi0, hi, hj0, hj, rfl⟩ := hx
  unfold productAt
  obtain ⟨a, rfl⟩ : ∃ a : Nat, i = a := ⟨i.toNat, by omega⟩
  have ha : a < L := by omega
  have hu : toU32 ((a : Int) + ((L / 2 : Nat) : Int) + j)
      = ((a : Int) + ((L / 2 : Nat) : Int) + j).toNat := by
    unfold toU32; omega
  rw [hu, Int.toNat_natCast]
  rcases lt_trichotomy j 0 with hneg | hzero | hpos
  · -- the pair seen from its other end
    right
    obtain ⟨t, ht⟩ : ∃ t : Nat, j = -((t : Int) + 1) := ⟨(-j - 1).toNat, by omega⟩
    have e : ((a : Int) + ((L / 2 : Nat) : Int) + j).toNat = a + L / 2 - (t + 1) := by omega
    rw [e]
    refine ⟨(a + L / 2 - (t + 1)) % L, t, Nat.mod_lt _ (by omega), by omega, ?_⟩
    have back : ((a + L / 2 - (t + 1)) % L + L / 2 + (t + 1)) % L = a := by
      by_cases hlt : a + L / 2 - (t + 1) < L
      · rw [Nat.mod_eq_of_lt hlt, mod_of_range _ L (by omega) (by omega)]
        omega
      · rw [mod_of_range (a + L / 2 - (t + 1)) L (by omega) (by omega),
          Nat.mod_eq_of_lt (by omega)]
        omega
    rw [back, Nat.mul_comm]
  · subst hzero
    left
    have e : ((a : Int) + ((L / 2 : Nat) : Int) + 0).toNat = a + L / 2 := by omega
    rw [e]
    by_cases hlt : a < L / 2
    · exact ⟨a, hlt, by rw [Nat.mod_eq_of_lt (by omega)]⟩
    · refine ⟨a - L / 2, by omega, ?_⟩
      rw [mod_of_range _ L (by omega) (by omega)]
      have e1 : a + L / 2 - L = a - L / 2 := by omega
      have e2 : a - L / 2 + L / 2 = a := by omega
      rw [e1, e2, Nat.mul_comm]
  · right
    obtain ⟨t, ht⟩ : ∃ t : Nat, j = (t : Int) + 1 := ⟨(j - 1).toNat, by omega⟩
    have e : ((a : Int) + ((L / 2 : Nat) : Int) + j).toNat = a + L / 2 + (t + 1) := by omega
    rw [e]
    exact ⟨a, t, ha, by omega, rfl⟩

/-- A duplicate-free list of generated products has at most `L/2 + L·s` entries. -/
theorem generated_card (vec : List Nat) (L s : Nat) (hLeven : L % 2 = 0) (hs : 2 * s + 1 < L)
    (hL : L < 2147483648) (l : List Nat) (hnd : l.Nodup)
    (hl : ∀ x ∈ l, IsGenerated vec L ((L / 2 : Nat) : Int) (s : Int) x) :
    l.length ≤ L / 2 + L * s := by
  let T : Finset (Nat × Nat) :=
    (Finset.range (L / 2)).image (fun a => (a, a + L / 2)) ∪
    (Finset.range L ×ˢ Finset.range s).image (fun q => (q.1, (q.1 + L / 2 + (q.2 + 1)) % L))
  have hT : T.card ≤ L / 2 + L * s := by
    refine le_trans (Finset.card_union_le _ _) ?_
    refine Nat.add_le_add (le_trans Finset.card_image_le (by simp))
      (le_trans Finset.card_image_le (by simp [Finset.card_product]))
  have hsub : l.toFinset ⊆ T.image (fun q => vec.getD q.1 0 * vec.getD q.2 0) := by
    intro x hx
    rw [List.mem_toFinset] at hx
    rw [Finset.mem_image]
    rcases generated_pair vec L s hLeven hs hL x (hl x hx) with ⟨a, ha, rfl⟩ | ⟨a, t, ha, ht, rfl⟩
    · refine ⟨(a, a + L / 2), ?_, rfl⟩
      apply Finset.mem_union_left
      exact Finset.mem_image.mpr ⟨a, Finset.mem_range.mpr ha, rfl⟩
    · refine ⟨(a, (a + L / 2 + (t + 1)) % L), ?_, rfl⟩
      apply Finset.mem_union_right
      exact Finset.mem_image.mpr ⟨(a, t),
        Finset.mem_product.mpr ⟨Finset.mem_range.mpr ha, Finset.mem_range.mpr ht⟩, rfl⟩
  calc l.length = l.toFinset.card := (List.toFinset_card_of_nodup hnd).symm
    _ ≤ (T.image (fun q => vec.getD q.1 0 * vec.getD q.2 0)).card := Finset.card_le_card hsub
    _ ≤ T.card := Finset.card_image_le
    _ ≤ L / 2 + L * s := hT

/-! ## Construction succeeds and the table holds every generated product -/

theorem capacity_bound (ks span : Nat) (h3 : 3 ≤ ks) (h13 : ks ≤ 13)
    (hspan : span % 2 = 1) (hlt : span < (ks - 1) * 4) :
    (ks - 1) * 4 / 2 + (ks - 1) * 4 * (span / 2) ≤ (ks - 1) * 4 * span % 4294967296 / 2 := by
  interval_cases ks <;> omega

/-- The generation loops succeed for a kernel size in `3..13` and an odd span below the
perimeter length, and every generated product is in the resulting vector. -/
theorem buildAcceptable_some (vec : List Nat) (hw : ∀ p, vec.getD p 0 < 256) (ks span : Nat)
    (h3 : 3 ≤ ks) (h13 : ks ≤ 13) (hspan : span % 2 = 1) (hlt : span < (ks - 1) * 4) :
    ∃ st, buildAcceptable vec ks span ((ks - 1) * 4) ((ks - 1) * 4 * span % 4294967296 / 2)
        = some st ∧
      st.1.length = (ks - 1) * 4 * span % 4294967296 / 2 ∧
      ∀ p, IsGenerated vec ((ks - 1) * 4) ((ks : Int) * 2 - 2) ((span / 2 : Nat) : Int) p →
        p ∈ st.1 := by
  have hoff : (ks : Int) * 2 - 2 = (((ks - 1) * 4 / 2 : Nat) : Int) := by omega
  have hcard : ∀ l : List Nat, l.Nodup →
      (∀ x ∈ l, IsGenerated vec ((ks - 1) * 4) ((ks : Int) * 2 - 2) ((span / 2 : Nat) : Int) x) →
      l.length ≤ (ks - 1) * 4 * span % 4294967296 / 2 := by
    intro l hnd hl
    rw [hoff] at hl
    exact le_trans
      (generated_card vec ((ks - 1) * 4) (span / 2) (by omega) (by omega) (by omega) l hnd hl)
      (capacity_bound ks span h3 h13 hspan hlt)
  exact (buildAcceptable_inv vec hw ks span _ _ hcard).mem hcard

theorem create_of_build (file : List Int) (kernelSize kernelRuns kernelSpan : Int)
    (h13 : toU32 kernelSize ≤ 13) (hodd : toU32 kernelSize % 2 = 1)
    (hspan : toU32 kernelSpan % 2 = 1) (st : List Nat × Nat)
    (hst : buildAcceptable (readKernelVec file ((toU32 kernelSize - 1) * 4)) (toU32 kernelSize)
      (toU32 kernelSpan) ((toU32 kernelSize - 1) * 4)
      ((toU32 kernelSize - 1) * 4 * toU32 kernelSpan % 4294967296 / 2) = some st) :
    ContiguousLineFilter.create (some file) kernelSize kernelRuns kernelSpan = some
      { mKernelSize := toU32 kernelSize
        mKernelRuns := toU32 kernelRuns
        mKernelSpan := toU32 kernelSpan
        mKernelVecSize := (toU32 kernelSize - 1) * 4
        mChecksum := buildChecksum (toU32 kernelSize) (buildKernel (toU32 kernelSize))
        mLUTsize := (toU32 kernelSize - 1) * 4 * toU32 kernelSpan % 4294967296 / 2
        h_mKernel := buildKernel (toU32 kernelSize)
        h_mKernelVec := readKernelVec file ((toU32 kernelSize - 1) * 4)
        h_mAcceptableVec := copyAcceptable (st.1.insertionSort (fun a b => a ≤ b))
          ((toU32 kernelSize - 1) * 4 * toU32 kernelSpan % 4294967296 / 2) } := by
  unfold ContiguousLineFilter.create
  simp only [h13, hodd, hspan, hst, not_true_eq_false, if_false]

/-- Construction succeeds for every weights file, kernel size in `3..13` (odd) and odd span
with `1 ≤ kernelSpan < 4·(kernelSize − 1)`; the table of the constructed filter holds every
product of the generation loops. -/
theorem create_succeeds (file : List Int) (kernelSize kernelRuns kernelSpan : Int)
    (h3 : 3 ≤ kernelSize) (h13 : kernelSize ≤ 13) (hodd : kernelSize % 2 = 1)
    (hspan1 : 1 ≤ kernelSpan) (hspanodd : kernelSpan % 2 = 1)
    (hspanlt : kernelSpan < (kernelSize - 1) * 4) :
    ∃ f, ContiguousLineFilter.create (some file) kernelSize kernelRuns kernelSpan = some f ∧
      ∀ p, IsGenerated f.h_mKernelVec f.mKernelVecSize ((f.mKernelSize : Int) * 2 - 2)
        ((f.mKernelSpan / 2 : Nat) : Int) p → p ∈ f.h_mAcceptableVec := by
  have e1 : toU32 kernelSize = kernelSize.toNat := by unfold toU32; omega
  have e2 : toU32 kernelSpan = kernelSpan.toNat := by unfold toU32; omega
  obtain ⟨st, hst, hlen, hmem⟩ := buildAcceptable_some
    (readKernelVec file ((toU32 kernelSize - 1) * 4)) (readKernelVec_getD_lt _ _)
    (toU32 kernelSize) (toU32 kernelSpan) (by omega) (by omega) (by omega) (by omega)
  refine ⟨_, create_of_build file kernelSize kernelRuns kernelSpan (by omega) (by omega)
    (by omega) st hst, ?_⟩
  intro p hp
  simp only [] at hp ⊢
  rw [copyAcceptable_eq _ _ (by rw [List.length_insertionSort]; exact hlen),
    List.mem_insertionSort]
  exact hmem p hp

/-! ## A full-width horizontal line, `kernelSize = 11` -/

/-- The correlation depends on the kernel and on the pixels of the window only. -/
theorem correlate_congr (f f2 : ContiguousLineFilter) (hks : f.mKernelSize = f2.mKernelSize)
    (hK : f.h_mKernel = f2.h_mKernel) (hp hp2 : Mat) (j i j2 i2 : Int)
    (hwin : ∀ k l : Int, -f.mhKernelSize ≤ k → k ≤ f.mhKernelSize → -f.mhKernelSize ≤ l →
      l ≤ f.mhKernelSize → hp.get (j + k) (i + l) = hp2.get (j2 + k) (i2 + l)) :
    correlate f hp j i = correlate f2 hp2 j2 i2 := by
  have hmh : f2.mhKernelSize = f.mhKernelSize := by
    unfold ContiguousLineFilter.mhKernelSize; rw [hks]
  unfold correlate
  simp only []
  rw [hmh, ← hks, ← hK]
  apply forLoop_congr
  intro k tmp hk0 hk1
  apply forLoop_congr
  intro l tmp2 hl0 hl1
  rw [hwin k l hk0 (by omega) hl0 (by omega)]

set_option maxRecDepth 1000000 in
theorem correlate_lineWindow : correlate (kernelOnly 11) lineWindow 5 5 = 125 := by
  decide

set_option maxRecDepth 1000000 in
theorem checksum_11 : buildChecksum 11 (buildKernel 11) = 125 := by
  decide

set_option maxRecDepth 1000000 in
/-- The positive perimeter cells of the pixel at offset `e` of an isolated horizontal line of
eleven pixels: both ends of the middle row for the centre pixel, one end otherwise. -/
theorem line_positiveCells (e : Nat) (he : e ≤ 10) :
    ((perimeterCells 5).filter (fun cell =>
        decide (cell.2.1 = 0 ∧ -(e : Int) ≤ cell.2.2 ∧ cell.2.2 ≤ 10 - (e : Int)))).map
      (fun cell => cell.1)
      = if e = 5 then [15, 35] else if e < 5 then [15] else [35] := by
  interval_cases e <;> decide

/-- C7: with `kernelSize = 11`, `kernelRuns = 1`, `kernelSpan = 5` and any weights file,
construction succeeds, and if the input holds one horizontal run of eleven pixels of value
`255` (row `r`, columns `c0 .. c0+10`), nothing else, and a margin of five pixels on every
side, the output of `run` is `255` at the centre pixel `(r, c0+5)` of the run. -/
theorem C7_full_line_survives (file : List Int) (img : Mat) (r c0 : Int)
    (hr : 5 ≤ r) (hr2 : r + 5 < img.rows) (hc : 5 ≤ c0) (hc2 : c0 + 15 < img.cols)
    (himg : ∀ i j : Int, 0 ≤ i → i < img.rows → 0 ≤ j → j < img.cols →
      img.get i j = if i = r ∧ c0 ≤ j ∧ j ≤ c0 + 10 then 255 else 0) :
    ∃ f, ContiguousLineFilter.create (some file) 11 1 5 = some f ∧
      (f.run img).get r (c0 + 5) = 255 := by
  obtain ⟨f, hf, hclosure⟩ := create_succeeds file 11 1 5 (by decide) (by decide) (by decide)
    (by decide) (by decide) (by decide)
  refine ⟨f, hf, ?_⟩
  obtain ⟨hks, hkr, hsp, h13, hodd, -, hL, hK, hC, -⟩ := create_some _ _ _ _ _ hf
  obtain ⟨hlen, hw, -⟩ := create_table _ _ _ _ _ hf
  have hks11 : f.mKernelSize = 11 := hks
  have hkr1 : f.mKernelRuns = 1 := hkr
  have hsp5 : f.mKernelSpan = 5 := hsp
  have hmh : f.mhKernelSize = 5 := by
    unfold ContiguousLineFilter.mhKernelSize; rw [hks11]; rfl
  have hL40 : f.mKernelVecSize = 40 := by rw [hL, hks11]
  have hrows : (clampInput img).rows = img.rows := rfl
  have hcols : (clampInput img).cols = img.cols := rfl
  -- the clamped image
  have hcl : ∀ i j : Int, 0 ≤ i → i < img.rows → 0 ≤ j → j < img.cols →
      (clampInput img).get i j = if i = r ∧ c0 ≤ j ∧ j ≤ c0 + 10 then 1 else 0 := by
    intro i j h1 h2 h3 h4
    rw [clampInput_get, himg i j h1 h2 h3 h4]
    by_cases h : i = r ∧ c0 ≤ j ∧ j ≤ c0 + 10
    · rw [if_pos h, if_pos h, if_pos (by omega)]
    · rw [if_neg h, if_neg h, if_neg (by omega)]
  -- the positive perimeter cells of the pixels of the line
  have hcells : ∀ e : Nat, e ≤ 10 → positiveCells f (clampInput img) r (c0 + e)
      = if e = 5 then [15, 35] else if e < 5 then [15] else [35] := by
    intro e he
    rw [← line_positiveCells e he]
    unfold positiveCells
    have h5 : f.mKernelSize / 2 = 5 := by rw [hks11]
    rw [h5]
    refine congrArg (List.map fun (cell : Nat × Int × Int) => cell.1) (List.filter_congr ?_)
    intro cell hcell
    obtain ⟨h1, h2, h3, h4, -⟩ := mem_perimeterCells 5 cell hcell
    rw [padded_get, hmh, if_pos (by omega),
      hcl _ _ (by omega) (by omega) (by omega) (by omega)]
    by_cases hq : cell.2.1 = 0 ∧ -(e : Int) ≤ cell.2.2 ∧ cell.2.2 ≤ 10 - (e : Int)
    · rw [if_pos (by omega)]
      simp [hq]
    · rw [if_neg (by omega)]
      simp [hq]
  -- the product of the two ends of the middle row is a generated product
  have hprod : f.h_mKernelVec.getD 15 0 * f.h_mKernelVec.getD 35 0 ∈ f.h_mAcceptableVec := by
    apply hclosure
    refine ⟨15, 0, by decide, by rw [hL40]; decide, by omega, by omega, ?_⟩
    unfold productAt
    rw [hL40, hks11]
    rfl
  -- the straight-line pass keeps the line
  have hp1line : ∀ e : Nat, e ≤ 10 →
      (straightLinePass f (clampInput img)).get r (c0 + e) = 1 := by
    intro e he
    have hnot : ¬ specCleared f (clampInput img) r (c0 + e) := by
      unfold specCleared
      rw [hcells e he]
      rintro ⟨-, h⟩
      by_cases h5 : e = 5
      · rw [if_pos h5] at h
        exact h hprod
      · rw [if_neg h5] at h
        by_cases h6 : e < 5
        · rw [if_pos h6] at h; exact h
        · rw [if_neg h6] at h; exact h
    rw [straightLinePass_get]
    rw [if_neg (fun h => hnot ((clearedAt_iff_specCleared f hodd hlen hw (clampInput img) r
      (c0 + e) (by omega) (by omega) (by omega) (by omega)).mp h.2.2.2.2))]
    rw [hcl _ _ (by omega) (by omega) (by omega) (by omega), if_pos (by omega)]
  have hp1zero : ∀ i j : Int, 0 ≤ i → i < img.rows → 0 ≤ j → j < img.cols →
      ¬ (i = r ∧ c0 ≤ j ∧ j ≤ c0 + 10) → (straightLinePass f (clampInput img)).get i j = 0 := by
    intro i j h1 h2 h3 h4 h5
    rw [straightLinePass_get]
    split_ifs
    · rfl
    · rw [hcl i j h1 h2 h3 h4, if_neg h5]
  -- the contiguous-line pass at the centre of the line
  have hwin : ∀ k l : Int, -f.mhKernelSize ≤ k → k ≤ f.mhKernelSize → -f.mhKernelSize ≤ l →
      l ≤ f.mhKernelSize →
      (f.padded (straightLinePass f (clampInput img))).get (r + f.mhKernelSize + k)
          (c0 + 5 + f.mhKernelSize + l)
        = lineWindow.get (5 + k) (5 + l) := by
    intro k l hk0 hk1 hl0 hl1
    rw [hmh] at hk0 hk1 hl0 hl1
    rw [padded_get, hmh, straightLinePass_rows, straightLinePass_cols, if_pos (by omega)]
    show _ = if 5 + k = 5 then 1 else 0
    by_cases hk : k = 0
    · subst hk
      rw [if_pos (by omega)]
      obtain ⟨e, he⟩ : ∃ e : Nat, l + 5 = e := ⟨(l + 5).toNat, by omega⟩
      have e1 : r + 5 + 0 - 5 = r := by ring
      have e2 : c0 + 5 + 5 + l - 5 = c0 + (e : Int) := by omega
      rw [e1, e2]
      exact hp1line e (by omega)
    · rw [if_neg (by omega)]
      exact hp1zero _ _ (by omega) (by omega) (by omega) (by omega) (by omega)
  have hcor : correlate f (f.padded (straightLinePass f (clampInput img)))
      (r + f.mhKernelSize) (c0 + 5 + f.mhKernelSize) = 125 := by
    rw [← correlate_lineWindow]
    exact correlate_congr f (kernelOnly 11) hks11 (by rw [hK, hks11]; simp only [kernelOnly])
      _ _ _ _ _ _ hwin
  have hsum : f.mChecksum = 125 := by rw [hC, hK, hks11]; exact checksum_11
  rw [run_eq_afterRuns, hkr1]
  show (contiguousLinePass f (straightLinePass f (clampInput img))).get r (c0 + 5) = 255
  rw [contiguousLinePass_get, straightLinePass_rows, straightLinePass_cols,
    if_pos (by omega)]
  unfold confirmValue
  rw [hcor, hsum, if_pos rfl]

theorem C7_full_line_survives_witness :
    (5 : Int) ≤ 5 ∧ (5 : Int) + 5 < line11Image.rows ∧ (5 : Int) ≤ 5 ∧
    (5 : Int) + 15 < line11Image.cols ∧
    (∀ i j : Int, 0 ≤ i → i < line11Image.rows → 0 ≤ j → j < line11Image.cols →
      line11Image.get i j = if i = 5 ∧ 5 ≤ j ∧ j ≤ 5 + 10 then 255 else 0) ∧
    ∃ f, ContiguousLineFilter.create (some weights40) 11 1 5 = some f ∧
      (f.run line11Image).get 5 (5 + 5) = 255 :=
  ⟨by decide, by decide, by decide, by decide, fun _ _ _ _ _ _ => rfl,
    C7_full_line_survives weights40 line11Image 5 5 (by decide) (by decide) (by decide)
      (by decide) (fun _ _ _ _ _ _ => rfl)⟩

/-! ## Further properties of the kernel -/

set_option maxRecDepth 1000000 in
/-- C11 (defect of the code): for each valid size the centre cell of the populated kernel
holds `1`, the smallest weight, and the corner cell holds `2^(kernelSize/2)`; the comment in
the constructor says the highest value is at the centre. -/
theorem C11_centre_holds_one :
    buildKernel 3 = [2, 2, 2, 2, 1, 2, 2, 2, 2] ∧
    [3, 5, 7, 9, 11, 13].map (fun (k : Nat) => (buildKernel k).getD (k / 2 * k + k / 2) 0)
      = [1, 1, 1, 1, 1, 1] ∧
    [3, 5, 7, 9, 11, 13].map (fun (k : Nat) => (buildKernel k).getD 0 0)
      = [3, 5, 7, 9, 11, 13].map (fun (k : Nat) => 2 ^ (k / 2)) ∧
    [3, 5, 7, 9, 11, 13].map (fun (k : Nat) => (buildKernel k).getD 0 0)
      = [2, 4, 8, 16, 32, 64] := by
  decide

set_option maxRecDepth 1000000 in
/-- C12: for every odd `k` in `3..13` the populated kernel is invariant under rotation by 90°
and under horizontal and vertical mirroring:
`K[y][x] = K[x][k-1-y] = K[y][k-1-x] = K[k-1-y][x]`. -/
theorem C12_kernel_symmetry (k : Nat) (h3 : 3 ≤ k) (h13 : k ≤ 13) (hodd : k % 2 = 1)
    (x y : Nat) (hx : x < k) (hy : y < k) :
    (buildKernel k).getD (y * k + x) 0 = (buildKernel k).getD (x * k + (k - 1 - y)) 0 ∧
    (buildKernel k).getD (y * k + x) 0 = (buildKernel k).getD (y * k + (k - 1 - x)) 0 ∧
    (buildKernel k).getD (y * k + x) 0 = (buildKernel k).getD ((k - 1 - y) * k + x) 0 := by
  have key : ∀ x < k, ∀ y < k,
      (buildKernel k).getD (y * k + x) 0 = (buildKernel k).getD (x * k + (k - 1 - y)) 0 ∧
      (buildKernel k).getD (y * k + x) 0 = (buildKernel k).getD (y * k + (k - 1 - x)) 0 ∧
      (buildKernel k).getD (y * k + x) 0 = (buildKernel k).getD ((k - 1 - y) * k + x) 0 := by
    interval_cases k <;> first | omega | decide
  exact key x hx y hy

theorem C12_kernel_symmetry_witness :
    3 ≤ 5 ∧ 5 ≤ 13 ∧ 5 % 2 = 1 ∧ 1 < 5 ∧ 3 < 5 ∧
    (buildKernel 5).getD (3 * 5 + 1) 0 = (buildKernel 5).getD (1 * 5 + (5 - 1 - 3)) 0 ∧
    (buildKernel 5).getD (3 * 5 + 1) 0 = (buildKernel 5).getD (3 * 5 + (5 - 1 - 1)) 0 ∧
    (buildKernel 5).getD (3 * 5 + 1) 0 = (buildKernel 5).getD ((5 - 1 - 3) * 5 + 1) 0 :=
  ⟨by decide, by decide, by decide, by decide, by decide,
    C12_kernel_symmetry 5 (by decide) (by decide) (by decide) 1 3 (by decide) (by decide)⟩

set_option maxRecDepth 1000000 in
/-- C13: for every odd `k` in `3..13` the 8-bit checksum of the constructor is the exact sum
of the centre row of the kernel, which is the exact sum of the centre column, `2^(k/2+2) - 3`;
the sum is at most `253`, so the accumulator does not wrap, and every weight is below `256`
(the largest power `2^(k/2)` is stored without truncation). -/
theorem C13_checksum_exact (k : Nat) (h3 : 3 ≤ k) (h13 : k ≤ 13) (hodd : k % 2 = 1) :
    buildChecksum k (buildKernel k) = centreRowSum k (buildKernel k) ∧
    centreRowSum k (buildKernel k) = centreColSum k (buildKernel k) ∧
    centreRowSum k (buildKernel k) = 2 ^ (k / 2 + 2) - 3 ∧
    centreRowSum k (buildKernel k) ≤ 253 ∧
    2 ^ (k / 2) < 256 ∧
    ∀ p < k * k, (buildKernel k).getD p 0 < 256 := by
  interval_cases k <;> first | omega | decide

theorem C13_checksum_exact_witness :
    3 ≤ 13 ∧ 13 ≤ 13 ∧ 13 % 2 = 1 ∧
    buildChecksum 13 (buildKernel 13) = centreRowSum 13 (buildKernel 13) ∧
    centreRowSum 13 (buildKernel 13) = centreColSum 13 (buildKernel 13) ∧
    centreRowSum 13 (buildKernel 13) = 2 ^ (13 / 2 + 2) - 3 ∧
    centreRowSum 13 (buildKernel 13) ≤ 253 ∧
    2 ^ (13 / 2) < 256 ∧
    ∀ p < 13 * 13, (buildKernel 13).getD p 0 < 256 :=
  ⟨by decide, by decide, by decide, C13_checksum_exact 13 (by decide) (by decide) (by decide)⟩

/-! ## The shape of the table -/

theorem BuilderShape.insert {n : Nat} {st : Option (List Nat × Nat)} (h : BuilderShape n st)
    (p : Nat) (hp16 : p < 65536) : BuilderShape n (insertProduct st p) := by
  intro s hs
  unfold insertProduct at hs
  cases st with
  | none => simp at hs
  | some s0 =>
    obtain ⟨ins, rfl, h2, h3, h4⟩ := h s0 rfl
    simp only [Option.some_bind] at hs
    by_cases hmem : p ∈ ins ++ List.replicate (n - ins.length) 0
    · rw [if_pos hmem] at hs
      simp only [Option.some.injEq] at hs
      exact ⟨ins, hs.symm, h2, h3, h4⟩
    · rw [if_neg hmem] at hs
      have hlen : (ins ++ List.replicate (n - ins.length) 0).length = n := by
        simp only [List.length_append, List.length_replicate]; omega
      by_cases hlt : ins.length < n
      · rw [if_pos (by rw [hlen]; exact hlt), Nat.mod_eq_of_lt hp16] at hs
        simp only [Option.some.injEq] at hs
        have hnotin : p ∉ ins := fun h5 => hmem (List.mem_append.mpr (Or.inl h5))
        have hne : p ≠ 0 := by
          intro h0
          apply hmem
          apply List.mem_append.mpr
          right
          rw [h0]
          exact List.mem_replicate.mpr ⟨by omega, rfl⟩
        refine ⟨ins ++ [p], ?_, ?_, ?_, ?_⟩
        · rw [← hs]
          have e : n - ins.length = (n - (ins ++ [p]).length) + 1 := by
            simp only [List.length_append, List.length_singleton]; omega
          rw [e, List.replicate_succ, List.set_append_right _ _ (le_refl _)]
          simp
        · simp only [List.length_append, List.length_singleton]; omega
        · exact List.nodup_append.mpr ⟨h3, List.nodup_singleton p, by
            intro a ha hb
            rw [List.mem_singleton] at hb
            exact hnotin (hb ▸ ha)⟩
        · intro h0
          rcases List.mem_append.mp h0 with h5 | h5
          · exact h4 h5
          · rw [List.mem_singleton] at h5
            exact hne h5.symm
      · rw [if_neg (by rw [hlen]; exact hlt)] at hs
        simp at hs

/-- Whatever the configuration, a builder that ends without a write past the end leaves
nonzero pairwise distinct products followed by zeros. -/
theorem buildAcceptable_shape (vec : List Nat) (hw : ∀ p, vec.getD p 0 < 256) (ks span L n : Nat) :
    BuilderShape n (buildAcceptable vec ks span L n) := by
  unfold buildAcceptable
  simp only []
  apply forLoop_inv (fun _ (st : Option (List Nat × Nat)) => BuilderShape n st) 0 L _ _ (by omega)
  · intro s hs
    simp only [Option.some.injEq] at hs
    exact ⟨[], by rw [← hs]; simp, by simp, List.nodup_nil, by simp⟩
  · intro x st _ _ hP
    apply forLoop_inv (fun _ (st : Option (List Nat × Nat)) => BuilderShape n st)
      _ _ _ _ (by omega) hP
    intro y st2 _ _ hQ
    beta_reduce
    rw [acceptableBody_eq]
    exact hQ.insert _ (productAt_lt vec hw _ _ _ _)

/-- The table of a constructed filter: the sorted arrangement of nonzero pairwise distinct
products and zeros. -/
theorem create_shape (weightsFile : Option (List Int)) (kernelSize kernelRuns kernelSpan : Int)
    (f : ContiguousLineFilter)
    (hf : ContiguousLineFilter.create weightsFile kernelSize kernelRuns kernelSpan = some f) :
    ∃ ins : List Nat, ins.Nodup ∧ 0 ∉ ins ∧ ins.length ≤ f.mLUTsize ∧
      f.h_mAcceptableVec
        = (ins ++ List.replicate (f.mLUTsize - ins.length) 0).insertionSort (fun a b => a ≤ b) := by
  obtain ⟨-, hw, st, hst, htab⟩ := create_table _ _ _ _ _ hf
  have hshape := buildAcceptable_shape f.h_mKernelVec hw f.mKernelSize f.mKernelSpan
    f.mKernelVecSize f.mLUTsize
  obtain ⟨ins, h1, h2, h3, h4⟩ := hshape st hst
  refine ⟨ins, h3, h4, h2, ?_⟩
  rw [htab, h1]

/-- C15 (as amended): the table of a constructed filter is sorted in ascending order and its
nonzero entries are pairwise distinct; the unused slots hold `0`, which may be repeated. -/
theorem C15_table_sorted_nonzero_distinct (weightsFile : Option (List Int))
    (kernelSize kernelRuns kernelSpan : Int) (f : ContiguousLineFilter)
    (hf : ContiguousLineFilter.create weightsFile kernelSize kernelRuns kernelSpan = some f) :
    f.h_mAcceptableVec.Sorted (fun a b => a ≤ b) ∧
    (f.h_mAcceptableVec.filter (fun x => decide (x ≠ 0))).Nodup := by
  obtain ⟨ins, hnd, h0, -, htab⟩ := create_shape _ _ _ _ _ hf
  rw [htab]
  refine ⟨List.sorted_insertionSort _ _, ?_⟩
  have hperm := (List.perm_insertionSort (fun a b : Nat => a ≤ b)
    (ins ++ List.replicate (f.mLUTsize - ins.length) 0)).filter (fun x => decide (x ≠ 0))
  rw [hperm.nodup_iff, List.filter_append]
  have e1 : (List.replicate (f.mLUTsize - ins.length) 0).filter (fun x => decide (x ≠ 0)) = [] := by
    rw [List.filter_eq_nil_iff]
    intro a ha
    rw [List.eq_of_mem_replicate ha]
    simp
  rw [e1, List.append_nil]
  exact hnd.filter _

theorem C15_table_sorted_nonzero_distinct_witness :
    ContiguousLineFilter.create (some weightsPowers) 3 1 3 = some filter3span3 ∧
    filter3span3.h_mAcceptableVec.Sorted (fun a b => a ≤ b) ∧
    (filter3span3.h_mAcceptableVec.filter (fun x => decide (x ≠ 0))).Nodup :=
  ⟨rfl, C15_table_sorted_nonzero_distinct (some weightsPowers) 3 1 3 filter3span3 rfl⟩

/-- C15 (counterexample): the table constructed from eight weights `1` with `kernelSize = 3`,
`kernelSpan = 1` is `[0, 0, 0, 1]`; its entries are not pairwise distinct. -/
theorem C15_table_repeats_zero :
    ContiguousLineFilter.create (some weightsOnes) 3 1 1 = some filter3 ∧
    filter3.h_mAcceptableVec = [0, 0, 0, 1] ∧ ¬ filter3.h_mAcceptableVec.Nodup := by
  refine ⟨rfl, rfl, ?_⟩
  decide

/-! ## The capacity of the table -/

theorem capacity_no_overflow (ks span : Nat) (h3 : 3 ≤ ks) (h13 : ks ≤ 13)
    (hlt : span < (ks - 1) * 4) :
    (ks - 1) * 4 * span % 4294967296 / 2 = (ks - 1) * 4 * span / 2 := by
  interval_cases ks <;> omega

/-- C20: for a kernel size in `3..13`, an odd span with `1 ≤ span < L = 4·(kernelSize − 1)` and
any weights file, the generation loops end without a write past the end of `acceptable_vec`
(the builder returns a state, which it does only if `counter < mLUTsize` held at every
write), the final counter is at most `mLUTsize = L·span/2`, and every product is below
`2^16`. -/
theorem C20_builder_within_capacity (file : List Int) (ks span : Nat)
    (h3 : 3 ≤ ks) (h13 : ks ≤ 13) (hspan : span % 2 = 1) (hlt : span < (ks - 1) * 4) :
    (ks - 1) * 4 * span % 4294967296 / 2 = (ks - 1) * 4 * span / 2 ∧
    (∃ st, buildAcceptable (readKernelVec file ((ks - 1) * 4)) ks span ((ks - 1) * 4)
        ((ks - 1) * 4 * span % 4294967296 / 2) = some st ∧
      st.1.length = (ks - 1) * 4 * span / 2 ∧ st.2 ≤ (ks - 1) * 4 * span / 2) ∧
    ∀ i j : Int, productAt (readKernelVec file ((ks - 1) * 4)) ((ks - 1) * 4)
      ((ks : Int) * 2 - 2) i j < 65536 := by
  have hcap := capacity_no_overflow ks span h3 h13 hlt
  have hw := readKernelVec_getD_lt file ((ks - 1) * 4)
  refine ⟨hcap, ?_, fun i j => productAt_lt _ hw _ _ _ _⟩
  obtain ⟨st, hst, hlen, -⟩ := buildAcceptable_some _ hw ks span h3 h13 hspan hlt
  refine ⟨st, hst, by rw [hlen, hcap], ?_⟩
  obtain ⟨ins, h1, h2, -, -⟩ := buildAcceptable_shape _ hw ks span ((ks - 1) * 4)
    ((ks - 1) * 4 * span % 4294967296 / 2) st hst
  rw [h1, ← hcap]
  exact h2

set_option maxRecDepth 1000000 in
theorem C20_builder_within_capacity_witness :
    3 ≤ 3 ∧ 3 ≤ 13 ∧ 3 % 2 = 1 ∧ 3 < (3 - 1) * 4 ∧
    (3 - 1) * 4 * 3 % 4294967296 / 2 = (3 - 1) * 4 * 3 / 2 ∧
    (∃ st, buildAcceptable (readKernelVec weightsPowers ((3 - 1) * 4)) 3 3 ((3 - 1) * 4)
        ((3 - 1) * 4 * 3 % 4294967296 / 2) = some st ∧
      st.1.length = (3 - 1) * 4 * 3 / 2 ∧ st.2 ≤ (3 - 1) * 4 * 3 / 2) ∧
    ∀ i j : Int, productAt (readKernelVec weightsPowers ((3 - 1) * 4)) ((3 - 1) * 4)
      (((3 : Nat) : Int) * 2 - 2) i j < 65536 :=
  ⟨by decide, by decide, by decide, by decide,
    C20_builder_within_capacity weightsPowers 3 3 (by decide) (by decide) (by decide)
      (by decide)⟩

/-! ## Spans at least as long as the perimeter -/

/-- A duplicate-free list of products of pairs `(a, a + L/2)` (`a < L/2`) or
`(a, (a + L/2 + t + 1) mod L)` (`a < L`, `t < s`) has at most `L/2 + L·s` entries. -/
theorem pair_forms_card (vec : List Nat) (L s : Nat) (l : List Nat) (hnd : l.Nodup)
    (hl : ∀ x ∈ l,
      (∃ a, a < L / 2 ∧ x = vec.getD a 0 * vec.getD (a + L / 2) 0) ∨
      (∃ a t, a < L ∧ t < s ∧ x = vec.getD a 0 * vec.getD ((a + L / 2 + (t + 1)) % L) 0)) :
    l.length ≤ L / 2 + L * s := by
  let T : Finset (Nat × Nat) :=
    (Finset.range (L / 2)).image (fun a => (a, a + L / 2)) ∪
    (Finset.range L ×ˢ Finset.range s).image (fun q => (q.1, (q.1 + L / 2 + (q.2 + 1)) % L))
  have hT : T.card ≤ L / 2 + L * s := by
    refine le_trans (Finset.card_union_le _ _) ?_
    refine Nat.add_le_add (le_trans Finset.card_image_le (by simp))
      (le_trans Finset.card_image_le (by simp [Finset.card_product]))
  have hsub : l.toFinset ⊆ T.image (fun q => vec.getD q.1 0 * vec.getD q.2 0) := by
    intro x hx
    rw [List.mem_toFinset] at hx
    rw [Finset.mem_image]
    rcases hl x hx with ⟨a, ha, rfl⟩ | ⟨a, t, ha, ht, rfl⟩
    · refine ⟨(a, a + L / 2), ?_, rfl⟩
      apply Finset.mem_union_left
      exact Finset.mem_image.mpr ⟨a, Finset.mem_range.mpr ha, rfl⟩
    · refine ⟨(a, (a + L / 2 + (t + 1)) % L), ?_, rfl⟩
      apply Finset.mem_union_right
      exact Finset.mem_image.mpr ⟨(a, t),
        Finset.mem_product.mpr ⟨Finset.mem_range.mpr ha, Finset.mem_range.mpr ht⟩, rfl⟩
  calc l.length = l.toFinset.card := (List.toFinset_card_of_nodup hnd).symm
    _ ≤ (T.image (fun q => vec.getD q.1 0 * vec.getD q.2 0)).card := Finset.card_le_card hsub
    _ ≤ T.card := Finset.card_image_le
    _ ≤ L / 2 + L * s := hT

/-- Every product of two weights is the product of an opposite pair or of a pair with a
forward distance between `L/2 + 1` and `L`. -/
theorem any_pair_form (vec : List Nat) (L : Nat) (hLeven : L % 2 = 0) (a b : Nat)
    (ha : a < L) (hb : b < L) :
    (∃ a2, a2 < L / 2 ∧ vec.getD a 0 * vec.getD b 0 = vec.getD a2 0 * vec.getD (a2 + L / 2) 0) ∨
    (∃ a2 t, a2 < L ∧ t < L / 2 ∧
      vec.getD a 0 * vec.getD b 0 = vec.getD a2 0 * vec.getD ((a2 + L / 2 + (t + 1)) % L) 0) := by
  -- forward distance from `a` to `b`
  by_cases hab : a ≤ b
  · by_cases h1 : b - a = L / 2
    · left
      exact ⟨a, by omega, by rw [show a + L / 2 = b by omega]⟩
    · by_cases h2 : L / 2 < b - a
      · right
        refine ⟨a, b - a - L / 2 - 1, ha, by omega, ?_⟩
        rw [show a + L / 2 + (b - a - L / 2 - 1 + 1) = b by omega, Nat.mod_eq_of_lt hb]
      · right
        refine ⟨b, L / 2 - (b - a) - 1, hb, by omega, ?_⟩
        rw [show b + L / 2 + (L / 2 - (b - a) - 1 + 1) = a + L by omega,
          mod_of_range _ L (by omega) (by omega), show a + L - L = a by omega, Nat.mul_comm]
  · by_cases h1 : a - b = L / 2
    · left
      exact ⟨b, by omega, by rw [show b + L / 2 = a by omega, Nat.mul_comm]⟩
    · by_cases h2 : L / 2 < a - b
      · right
        refine ⟨b, a - b - L / 2 - 1, hb, by omega, ?_⟩
        rw [show b + L / 2 + (a - b - L / 2 - 1 + 1) = a by omega, Nat.mod_eq_of_lt ha,
          Nat.mul_comm]
      · right
        refine ⟨a, L / 2 - (a - b) - 1, ha, by omega, ?_⟩
        rw [show a + L / 2 + (L / 2 - (a - b) - 1 + 1) = b + L by omega,
          mod_of_range _ L (by omega) (by omega), show b + L - L = b by omega]

/-- A generated product is the product of two weights of the perimeter vector. -/
theorem generated_is_pair (vec : List Nat) (L : Nat) (hL : 0 < L) (offset hSpan : Int) (x : Nat)
    (hx : IsGenerated vec L offset hSpan x) :
    ∃ a b, a < L ∧ b < L ∧ x = vec.getD a 0 * vec.getD b 0 := by
  obtain ⟨i, j, hi0, hi, -, -, rfl⟩ := hx
  exact ⟨i.toNat, toU32 (i + offset + j) % L, by omega, Nat.mod_lt _ hL, rfl⟩

/-- A duplicate-free list of generated products has at most `L/2 + L·(L/2)` entries,
whatever the span. -/
theorem generated_card_all (vec : List Nat) (L : Nat) (hLeven : L % 2 = 0) (hL : 0 < L)
    (offset hSpan : Int) (l : List Nat) (hnd : l.Nodup)
    (hl : ∀ x ∈ l, IsGenerated vec L offset hSpan x) :
    l.length ≤ L / 2 + L * (L / 2) := by
  apply pair_forms_card vec L (L / 2) l hnd
  intro x hx
  obtain ⟨a, b, ha, hb, rfl⟩ := generated_is_pair vec L hL offset hSpan x (hl x hx)
  exact any_pair_form vec L hLeven a b ha hb

theorem capacity_bound_long (ks span : Nat) (h3 : 3 ≤ ks) (h13 : ks ≤ 13)
    (hge : (ks - 1) * 4 < span) (hno : (ks - 1) * 4 * span < 4294967296) :
    (ks - 1) * 4 / 2 + (ks - 1) * 4 * ((ks - 1) * 4 / 2)
      ≤ (ks - 1) * 4 * span % 4294967296 / 2 := by
  rw [Nat.mod_eq_of_lt hno]
  interval_cases ks <;> omega

/-- Every duplicate-free list of generated products fits the capacity of the table, for a
kernel size in `3..13` and an odd span whose capacity `L·span` does not overflow 32 bits. -/
theorem generated_hcard (vec : List Nat) (ks span : Nat)
    (h3 : 3 ≤ ks) (h13 : ks ≤ 13) (hspan : span % 2 = 1)
    (hno : (ks - 1) * 4 * span < 4294967296) (l : List Nat) (hnd : l.Nodup)
    (hl : ∀ x ∈ l,
      IsGenerated vec ((ks - 1) * 4) ((ks : Int) * 2 - 2) ((span / 2 : Nat) : Int) x) :
    l.length ≤ (ks - 1) * 4 * span % 4294967296 / 2 := by
  by_cases hlt : span < (ks - 1) * 4
  · have hoff : (ks : Int) * 2 - 2 = (((ks - 1) * 4 / 2 : Nat) : Int) := by omega
    rw [hoff] at hl
    exact le_trans
      (generated_card vec ((ks - 1) * 4) (span / 2) (by omega) (by omega) (by omega) l hnd hl)
      (capacity_bound ks span h3 h13 hspan hlt)
  · exact le_trans
      (generated_card_all vec ((ks - 1) * 4) (by omega) (by omega) _ _ l hnd hl)
      (capacity_bound_long ks span h3 h13 (by omega) hno)

/-! ## Generated products and the products of the specification -/

/-- A product of the specification is computed by the generation loops (at the same `j`
when `i + offset + j ≥ 0`, at a `j` in the same residue class otherwise). -/
theorem spec_is_generated (vec : List Nat) (L s : Nat) (hLeven : L % 2 = 0) (hL : 0 < L)
    (hL32 : L < 1073741824) (hs : s < 1073741824) (i : Nat) (j : Int) (hi : i < L)
    (hj0 : -(s : Int) ≤ j) (hj : j ≤ s) :
    IsGenerated vec L ((L / 2 : Nat) : Int) (s : Int) (specProduct vec L i j) := by
  have hLpos : (0 : Int) < (L : Int) := by omega
  by_cases hsum : 0 ≤ (i : Int) + ((L / 2 : Nat) : Int) + j
  · refine ⟨i, j, by omega, by omega, hj0, hj, ?_⟩
    unfold specProduct productAt
    obtain ⟨n, hn⟩ : ∃ n : Nat, (i : Int) + ((L / 2 : Nat) : Int) + j = n :=
      ⟨((i : Int) + ((L / 2 : Nat) : Int) + j).toNat, by omega⟩
    have hu : toU32 ((i : Int) + ((L / 2 : Nat) : Int) + j) = n := by
      unfold toU32; omega
    rw [hu, hn, Int.toNat_natCast]
    congr 2
  · have hm0 := Int.emod_nonneg ((i : Int) + ((L / 2 : Nat) : Int) + j) (ne_of_gt hLpos)
    have hm1 := Int.emod_lt_of_pos ((i : Int) + ((L / 2 : Nat) : Int) + j) hLpos
    obtain ⟨m, hm⟩ : ∃ m : Nat, ((i : Int) + ((L / 2 : Nat) : Int) + j) % (L : Int) = m :=
      ⟨(((i : Int) + ((L / 2 : Nat) : Int) + j) % (L : Int)).toNat, by omega⟩
    refine ⟨i, (m : Int) - i - ((L / 2 : Nat) : Int), by omega, by omega, by omega, by omega, ?_⟩
    unfold specProduct productAt
    have hu : toU32 ((i : Int) + ((L / 2 : Nat) : Int) + ((m : Int) - i - ((L / 2 : Nat) : Int)))
        = m := by
      unfold toU32; omega
    rw [hu, hm, Int.toNat_natCast, Int.toNat_natCast, Nat.mod_eq_of_lt (by omega)]

/-- A product computed by the generation loops is a product of the specification. -/
theorem generated_is_spec (vec : List Nat) (L s : Nat) (hLeven : L % 2 = 0) (hL : 0 < L)
    (hL32 : L < 1073741824) (hs : s < 1073741824) (x : Nat)
    (hx : IsGenerated vec L ((L / 2 : Nat) : Int) (s : Int) x) :
    ∃ (i : Nat) (j : Int), i < L ∧ -(s : Int) ≤ j ∧ j ≤ s ∧ x = specProduct vec L i j := by
  have hLpos : (0 : Int) < (L : Int) := by omega
  obtain ⟨i, j, hi0, hi, hj0, hj, rfl⟩ := hx
  obtain ⟨a, rfl⟩ : ∃ a : Nat, i = a := ⟨i.toNat, by omega⟩
  by_cases hsum : 0 ≤ (a : Int) + ((L / 2 : Nat) : Int) + j
  · refine ⟨a, j, by omega, hj0, hj, ?_⟩
    unfold specProduct productAt
    obtain ⟨n, hn⟩ : ∃ n : Nat, (a : Int) + ((L / 2 : Nat) : Int) + j = n :=
      ⟨((a : Int) + ((L / 2 : Nat) : Int) + j).toNat, by omega⟩
    have hu : toU32 ((a : Int) + ((L / 2 : Nat) : Int) + j) = n := by
      unfold toU32; omega
    rw [hu, hn, Int.toNat_natCast]
    congr 2
  · have hb : toU32 ((a : Int) + ((L / 2 : Nat) : Int) + j) % L < L := Nat.mod_lt _ hL
    refine ⟨a, ((toU32 ((a : Int) + ((L / 2 : Nat) : Int) + j) % L : Nat) : Int) - a
      - ((L / 2 : Nat) : Int), by omega, by omega, by omega, ?_⟩
    unfold specProduct productAt
    rw [Int.toNat_natCast]
    congr 2
    have e : (a : Int) + ((L / 2 : Nat) : Int)
        + (((toU32 ((a : Int) + ((L / 2 : Nat) : Int) + j) % L : Nat) : Int) - a
          - ((L / 2 : Nat) : Int))
        = ((toU32 ((a : Int) + ((L / 2 : Nat) : Int) + j) % L : Nat) : Int) := by ring
    rw [e, Int.emod_eq_of_lt (by omega) (by omega), Int.toNat_natCast]

/-- Under the builder invariant every entry of the table is a product of `S` or `0`. -/
theorem BuilderInv.sound {n : Nat} {S : Nat → Prop} {st : Option (List Nat × Nat)}
    (h : BuilderInv n S st) : ∀ s, st = some s → ∀ p ∈ s.1, S p ∨ p = 0 := by
  obtain ⟨ins, h1, h2, h3, h4⟩ := h
  intro s hs p hp
  rw [h1] at hs
  simp only [Option.some.injEq] at hs
  rw [← hs] at hp
  rcases List.mem_append.mp hp with h5 | h5
  · exact Or.inl ((h4 p).mp h5).1
  · exact Or.inr (List.eq_of_mem_replicate h5)

/-! ## Construction and the table, for every span without capacity overflow -/

/-- Construction succeeds for every weights file, odd kernel size in `3..13` and odd span
`≥ 1` with `4·(kernelSize − 1)·kernelSpan < 2^32`; the table of the constructed filter holds
every generated product, and every entry of the table is a generated product or `0`. -/
theorem create_succeeds_all (file : List Int) (kernelSize kernelRuns kernelSpan : Int)
    (h3 : 3 ≤ kernelSize) (h13 : kernelSize ≤ 13) (hodd : kernelSize % 2 = 1)
    (hspan1 : 1 ≤ kernelSpan) (hspanodd : kernelSpan % 2 = 1)
    (hno : (kernelSize - 1) * 4 * kernelSpan < 4294967296) :
    ∃ f, ContiguousLineFilter.create (some file) kernelSize kernelRuns kernelSpan = some f ∧
      f.mKernelSize = kernelSize.toNat ∧ f.mKernelSpan = kernelSpan.toNat ∧
      f.mKernelVecSize = (kernelSize.toNat - 1) * 4 ∧
      f.h_mAcceptableVec.length = f.mLUTsize ∧
      (∀ p, IsGenerated f.h_mKernelVec f.mKernelVecSize ((f.mKernelVecSize / 2 : Nat) : Int)
        ((f.mKernelSpan / 2 : Nat) : Int) p → p ∈ f.h_mAcceptableVec) ∧
      (∀ p ∈ f.h_mAcceptableVec, IsGenerated f.h_mKernelVec f.mKernelVecSize
        ((f.mKernelVecSize / 2 : Nat) : Int) ((f.mKernelSpan / 2 : Nat) : Int) p ∨ p = 0) := by
  have e1 : toU32 kernelSize = kernelSize.toNat := by unfold toU32; omega
  have hspanlt : kernelSpan < 4294967296 := by nlinarith
  have e2 : toU32 kernelSpan = kernelSpan.toNat := by unfold toU32; omega
  have hnoN : (kernelSize.toNat - 1) * 4 * kernelSpan.toNat < 4294967296 := by
    have h1 : ((kernelSize.toNat - 1 : Nat) : Int) = kernelSize - 1 := by omega
    have h2 : ((kernelSpan.toNat : Nat) : Int) = kernelSpan := by omega
    have : (((kernelSize.toNat - 1) * 4 * kernelSpan.toNat : Nat) : Int) < 4294967296 := by
      push_cast
      rw [h1, h2]
      exact hno
    exact_mod_cast this
  have hw := readKernelVec_getD_lt file ((kernelSize.toNat - 1) * 4)
  have hcard := generated_hcard (readKernelVec file ((kernelSize.toNat - 1) * 4))
    kernelSize.toNat kernelSpan.toNat (by omega) (by omega) (by omega) hnoN
  have hinv := buildAcceptable_inv (readKernelVec file ((kernelSize.toNat - 1) * 4)) hw
    kernelSize.toNat kernelSpan.toNat ((kernelSize.toNat - 1) * 4)
    ((kernelSize.toNat - 1) * 4 * kernelSpan.toNat % 4294967296 / 2) hcard
  obtain ⟨st, hst, hlen, hmem⟩ := hinv.mem hcard
  have hsound := hinv.sound st hst
  have hoff : ((kernelSize.toNat : Nat) : Int) * 2 - 2
      = (((kernelSize.toNat - 1) * 4 / 2 : Nat) : Int) := by omega
  rw [hoff] at hmem hsound
  have hcreate := create_of_build file kernelSize kernelRuns kernelSpan (by omega) (by omega)
    (by omega) st (by rw [e1, e2]; exact hst)
  refine ⟨_, hcreate, ?_, ?_, ?_, ?_, ?_, ?_⟩
  · exact e1
  · exact e2
  · simp only [e1]
  · simp only [e1, e2]
    rw [copyAcceptable_eq _ _ (by rw [List.length_insertionSort]; exact hlen),
      List.length_insertionSort]
    exact hlen
  · intro p hp
    simp only [e1, e2] at hp ⊢
    rw [copyAcceptable_eq _ _ (by rw [List.length_insertionSort]; exact hlen),
      List.mem_insertionSort]
    exact hmem p hp
  · intro p hp
    simp only [e1, e2] at hp ⊢
    rw [copyAcceptable_eq _ _ (by rw [List.length_insertionSort]; exact hlen),
      List.mem_insertionSort] at hp
    exact hsound p hp

/-! ## Closure of the table and the table search -/

/-- Closure of the table where the capacity does not overflow: for every weights file, odd
kernel size in `3..13` and odd span `≥ 1` with `L·kernelSpan < 2^32`
(`L = 4·(kernelSize − 1)`), construction succeeds and every product
`w[i]·w[(i + L/2 + j) mod L]`, `0 ≤ i < L`, `|j| ≤ kernelSpan/2`, is an entry of the final
table. -/
theorem table_closure_without_wrap (file : List Int)
    (kernelSize kernelRuns kernelSpan : Int)
    (h3 : 3 ≤ kernelSize) (h13 : kernelSize ≤ 13) (hodd : kernelSize % 2 = 1)
    (hspan1 : 1 ≤ kernelSpan) (hspanodd : kernelSpan % 2 = 1)
    (hno : (kernelSize - 1) * 4 * kernelSpan < 4294967296) :
    ∃ f, ContiguousLineFilter.create (some file) kernelSize kernelRuns kernelSpan = some f ∧
      (f.mKernelVecSize : Int) = (kernelSize - 1) * 4 ∧
      ∀ (i : Nat) (j : Int), i < f.mKernelVecSize → -(kernelSpan / 2) ≤ j → j ≤ kernelSpan / 2 →
        specProduct f.h_mKernelVec f.mKernelVecSize i j ∈ f.h_mAcceptableVec := by
  obtain ⟨f, hf, hks, hsp, hL, -, hclosure, -⟩ := create_succeeds_all file kernelSize kernelRuns
    kernelSpan h3 h13 hodd hspan1 hspanodd hno
  have h8 : 8 * kernelSpan ≤ (kernelSize - 1) * 4 * kernelSpan := by nlinarith
  have hspanlt : kernelSpan < 536870912 := by omega
  refine ⟨f, hf, by omega, ?_⟩
  intro i j hi hj0 hj
  apply hclosure
  exact spec_is_generated f.h_mKernelVec f.mKernelVecSize (f.mKernelSpan / 2) (by omega)
    (by omega) (by omega) (by omega) i j hi (by omega) (by omega)

theorem table_closure_without_wrap_witness :
    (3 : Int) ≤ 3 ∧ (3 : Int) ≤ 13 ∧ (3 : Int) % 2 = 1 ∧ (1 : Int) ≤ 9 ∧ (9 : Int) % 2 = 1 ∧
    ((3 : Int) - 1) * 4 * 9 < 4294967296 ∧
    ∃ f, ContiguousLineFilter.create (some weightsPowers) 3 1 9 = some f ∧
      (f.mKernelVecSize : Int) = (3 - 1) * 4 ∧
      ∀ (i : Nat) (j : Int), i < f.mKernelVecSize → -(9 / 2) ≤ j → j ≤ 9 / 2 →
        specProduct f.h_mKernelVec f.mKernelVecSize i j ∈ f.h_mAcceptableVec :=
  ⟨by decide, by decide, by decide, by decide, by decide, by decide,
    table_closure_without_wrap weightsPowers 3 1 9 (by decide) (by decide) (by decide)
      (by decide) (by decide) (by decide)⟩

/-- The table search where the capacity does not overflow: for every weights file, odd kernel
size in `3..13` and odd span `≥ 1` with `L·kernelSpan < 2^32`, construction succeeds and, for
perimeter positions `a, b < L`, the search of the straight-line pass for `w[a]·w[b]` over all
`mLUTsize` slots succeeds if and only if `w[a]·w[b]` is one of the products `w[i]·w[(i + L/2 + j) mod L]`; a zero slot is
matched only by a zero product, which is then itself such a product. -/
theorem search_iff_generated_without_wrap (file : List Int)
    (kernelSize kernelRuns kernelSpan : Int)
    (h3 : 3 ≤ kernelSize) (h13 : kernelSize ≤ 13) (hodd : kernelSize % 2 = 1)
    (hspan1 : 1 ≤ kernelSpan) (hspanodd : kernelSpan % 2 = 1)
    (hno : (kernelSize - 1) * 4 * kernelSpan < 4294967296) :
    ∃ f, ContiguousLineFilter.create (some file) kernelSize kernelRuns kernelSpan = some f ∧
      ∀ a b : Nat, a < f.mKernelVecSize → b < f.mKernelVecSize →
        (isAcceptable f (f.h_mKernelVec.getD a 0 * f.h_mKernelVec.getD b 0) = true ↔
          ∃ (i : Nat) (j : Int), i < f.mKernelVecSize ∧ -(kernelSpan / 2) ≤ j ∧
            j ≤ kernelSpan / 2 ∧
            f.h_mKernelVec.getD a 0 * f.h_mKernelVec.getD b 0
              = specProduct f.h_mKernelVec f.mKernelVecSize i j) := by
  obtain ⟨f, hf, hks, hsp, hL, hlen, hclosure, hsound⟩ := create_succeeds_all file kernelSize
    kernelRuns kernelSpan h3 h13 hodd hspan1 hspanodd hno
  have h8 : 8 * kernelSpan ≤ (kernelSize - 1) * 4 * kernelSpan := by nlinarith
  have hspanlt : kernelSpan < 536870912 := by omega
  refine ⟨f, hf, ?_⟩
  intro a b ha hb
  rw [isAcceptable_iff_mem f hlen]
  constructor
  · intro hmem
    rcases hsound _ hmem with hgen | hzero
    · obtain ⟨i, j, hi, hj0, hj, hx⟩ := generated_is_spec f.h_mKernelVec f.mKernelVecSize
        (f.mKernelSpan / 2) (by omega) (by omega) (by omega) (by omega) _ hgen
      exact ⟨i, j, hi, by omega, by omega, hx⟩
    · rcases Nat.mul_eq_zero.mp hzero with h0 | h0
      · refine ⟨a, 0, ha, by omega, by omega, ?_⟩
        unfold specProduct
        rw [hzero, h0, Nat.zero_mul]
      · refine ⟨b, 0, hb, by omega, by omega, ?_⟩
        unfold specProduct
        rw [hzero, h0, Nat.zero_mul]
  · rintro ⟨i, j, hi, hj0, hj, hx⟩
    rw [hx]
    apply hclosure
    exact spec_is_generated f.h_mKernelVec f.mKernelVecSize (f.mKernelSpan / 2) (by omega)
      (by omega) (by omega) (by omega) i j hi (by omega) (by omega)

theorem search_iff_generated_without_wrap_witness :
    (3 : Int) ≤ 5 ∧ (5 : Int) ≤ 13 ∧ (5 : Int) % 2 = 1 ∧ (1 : Int) ≤ 3 ∧ (3 : Int) % 2 = 1 ∧
    ((5 : Int) - 1) * 4 * 3 < 4294967296 ∧
    ∃ f, ContiguousLineFilter.create (some weights16) 5 1 3 = some f ∧
      ∀ a b : Nat, a < f.mKernelVecSize → b < f.mKernelVecSize →
        (isAcceptable f (f.h_mKernelVec.getD a 0 * f.h_mKernelVec.getD b 0) = true ↔
          ∃ (i : Nat) (j : Int), i < f.mKernelVecSize ∧ -(3 / 2) ≤ j ∧ j ≤ 3 / 2 ∧
            f.h_mKernelVec.getD a 0 * f.h_mKernelVec.getD b 0
              = specProduct f.h_mKernelVec f.mKernelVecSize i j) :=
  ⟨by decide, by decide, by decide, by decide, by decide, by decide,
    search_iff_generated_without_wrap weights16 5 1 3 (by decide) (by decide) (by decide)
      (by decide) (by decide) (by decide)⟩

/-! ## Spans whose capacity overflows 32 bits -/

theorem forLoop_split {σ : Type} (lo mid hi : Int) (body : Int → σ → σ) (s : σ)
    (h1 : lo ≤ mid) (h2 : mid ≤ hi) :
    forLoop lo hi body s = forLoop mid hi body (forLoop lo mid body s) := by
  have := forLoop_inv (fun x st => forLoop lo x body s = st) mid hi body (forLoop lo mid body s)
    h2 rfl ?_
  · exact this
  · intro x st hx0 _ hP
    rw [forLoop_succ _ _ _ _ (by omega), hP]

theorem forLoop_none {α : Type} (lo hi : Int) (body : Int → Option α → Option α)
    (hbody : ∀ x, body x none = none) : forLoop lo hi body none = none := by
  by_cases h : hi ≤ lo
  · exact forLoop_of_le _ _ _ _ h
  · apply forLoop_inv (fun _ st => st = none) lo hi body none (by omega) rfl
    intro x st _ _ hP
    rw [hP, hbody]

theorem acceptableBody_none (vec : List Nat) (L : Nat) (i oe j : Int) :
    acceptableBody vec L i oe j none = none := rfl

/-- If the first `m` products of the first row already force a write past the end, the
generation loops end in that failure. -/
theorem buildAcceptable_none (vec : List Nat) (ks span L n : Nat) (hL : 0 < L) (m : Int)
    (hm0 : 0 ≤ m) (hm : m ≤ 2 * ((span / 2 : Nat) : Int) + 1)
    (hfirst : forLoop (-((span / 2 : Nat) : Int)) (-((span / 2 : Nat) : Int) + m)
      (fun j st => acceptableBody vec L 0 (0 + ((ks : Int) * 2 - 2)) j st)
      (some (List.replicate n 0, 0)) = none) :
    buildAcceptable vec ks span L n = none := by
  unfold buildAcceptable
  simp only []
  rw [forLoop_split 0 1 L _ _ (by omega) (by omega)]
  have hrow : forLoop 0 1
      (fun i st =>
        forLoop (-((span / 2 : Nat) : Int)) (((span / 2 : Nat) : Int) + 1)
          (fun j st => acceptableBody vec L i (i + ((ks : Int) * 2 - 2)) j st) st)
      (some (List.replicate n 0, 0)) = none := by
    rw [show (1 : Int) = 0 + 1 by norm_num, forLoop_succ _ _ _ _ (le_refl _),
      forLoop_of_le _ _ _ _ (le_refl _)]
    rw [forLoop_split _ (-((span / 2 : Nat) : Int) + m) _ _ _ (by omega) (by omega), hfirst]
    exact forLoop_none _ _ _ (fun x => acceptableBody_none _ _ _ _ _)
  rw [hrow]
  apply forLoop_none
  intro x
  exact forLoop_none _ _ _ (fun y => acceptableBody_none _ _ _ _ _)

theorem create_none_of_build (file : List Int) (kernelSize kernelRuns kernelSpan : Int)
    (h13 : toU32 kernelSize ≤ 13) (hodd : toU32 kernelSize % 2 = 1)
    (hspan : toU32 kernelSpan % 2 = 1)
    (hst : buildAcceptable (readKernelVec file ((toU32 kernelSize - 1) * 4)) (toU32 kernelSize)
      (toU32 kernelSpan) ((toU32 kernelSize - 1) * 4)
      ((toU32 kernelSize - 1) * 4 * toU32 kernelSpan % 4294967296 / 2) = none) :
    ContiguousLineFilter.create (some file) kernelSize kernelRuns kernelSpan = none := by
  unfold ContiguousLineFilter.create
  simp only [h13, hodd, hspan, hst, not_true_eq_false, if_false]

/-- A list that is shorter than a duplicate-free list misses one of its entries. -/
theorem exists_not_mem_of_length_lt (ps table : List Nat) (hnd : ps.Nodup)
    (hlen : table.length < ps.length) : ∃ p ∈ ps, p ∉ table := by
  by_contra h
  push_neg at h
  have h2 := (hnd.subperm h).length_le
  omega

set_option maxRecDepth 1000000 in
/-- C14 (defect of the code): `kernelSize = 3`, `kernelSpan = 2^29 + 1` (odd, `≥ 1`) and the
weights file `1, 2, 4, …, 128`.  The capacity `mLUTsize = 8·(2^29 + 1)/2` is computed in 32
bits and is `4`; the products `w[0]·w[(0 + 4 + j) mod 8]` for `j = 0, …, 4` are the five
distinct values `16, 32, 64, 128, 1`, so every table of four slots misses one of them; the
builder writes the fifth past the end of `acceptable_vec`, and no filter is constructed. -/
theorem C14_capacity_wraps :
    (3 - 1) * 4 * toU32 536870913 % 4294967296 / 2 = 4 ∧
    readKernelVec weightsPow8 8 = [1, 2, 4, 8, 16, 32, 64, 128] ∧
    [0, 1, 2, 3, 4].map (fun (j : Int) => specProduct (readKernelVec weightsPow8 8) 8 0 j)
      = [16, 32, 64, 128, 1] ∧
    (∀ table : List Nat, table.length = 4 →
      ∃ j ∈ [(0 : Int), 1, 2, 3, 4], specProduct (readKernelVec weightsPow8 8) 8 0 j ∉ table) ∧
    ContiguousLineFilter.create (some weightsPow8) 3 1 536870913 = none := by
  have hprod : [0, 1, 2, 3, 4].map
      (fun (j : Int) => specProduct (readKernelVec weightsPow8 8) 8 0 j)
      = [16, 32, 64, 128, 1] := by decide
  refine ⟨by decide, by decide, hprod, ?_, ?_⟩
  · intro table hlen
    obtain ⟨p, hp, hnot⟩ := exists_not_mem_of_length_lt [16, 32, 64, 128, 1] table (by decide)
      (by rw [hlen]; decide)
    rw [← hprod] at hp
    obtain ⟨j, hj, rfl⟩ := List.mem_map.mp hp
    exact ⟨j, hj, hnot⟩
  · apply create_none_of_build weightsPow8 3 1 536870913 (by decide) (by decide) (by decide)
    apply buildAcceptable_none _ _ _ _ _ (by decide) 5 (by decide) (by decide)
    decide

set_option maxRecDepth 1000000 in
/-- C19 (defect of the code): `kernelSize = 5`, `kernelSpan = 2^28 + 1` (odd, `≥ 1`) and the
weights file `1, 2, …, 16`.  The capacity `mLUTsize = 16·(2^28 + 1)/2` is computed in 32 bits
and is `8`; the products `w[0]·w[b]` for `b = 8, …, 15, 0` are generated products
(`w[0]·w[(0 + 8 + j) mod 16]`, `j = 0, …, 8`) with the nine distinct values `9, …, 16, 1`, so
for every filter with these weights and a table of eight slots the search of the
straight-line pass fails for one of them; the builder writes the ninth past the end of
`acceptable_vec`, and no filter is constructed. -/
theorem C19_no_table_for_wrapped_capacity :
    (5 - 1) * 4 * toU32 268435457 % 4294967296 / 2 = 8 ∧
    readKernelVec weights16 16 = [1, 2, 3, 4, 5, 6, 7, 8, 9, 10, 11, 12, 13, 14, 15, 16] ∧
    [0, 1, 2, 3, 4, 5, 6, 7, 8].map
        (fun (j : Int) => specProduct (readKernelVec weights16 16) 16 0 j)
      = [8, 9, 10, 11, 12, 13, 14, 15, 0].map
        (fun (b : Nat) => (readKernelVec weights16 16).getD 0 0
          * (readKernelVec weights16 16).getD b 0) ∧
    [8, 9, 10, 11, 12, 13, 14, 15, 0].map
        (fun (b : Nat) => (readKernelVec weights16 16).getD 0 0
          * (readKernelVec weights16 16).getD b 0)
      = [9, 10, 11, 12, 13, 14, 15, 16, 1] ∧
    (∀ f : ContiguousLineFilter, f.h_mKernelVec = readKernelVec weights16 16 →
      f.mLUTsize = 8 → f.h_mAcceptableVec.length = 8 →
      ∃ b ∈ [8, 9, 10, 11, 12, 13, 14, 15, 0],
        isAcceptable f (f.h_mKernelVec.getD 0 0 * f.h_mKernelVec.getD b 0) = false) ∧
    ContiguousLineFilter.create (some weights16) 5 1 268435457 = none := by
  have hprod : [8, 9, 10, 11, 12, 13, 14, 15, 0].map
        (fun (b : Nat) => (readKernelVec weights16 16).getD 0 0
          * (readKernelVec weights16 16).getD b 0)
      = [9, 10, 11, 12, 13, 14, 15, 16, 1] := by decide
  refine ⟨by decide, by decide, by decide, hprod, ?_, ?_⟩
  · intro f hvec hlut hlen
    obtain ⟨p, hp, hnot⟩ := exists_not_mem_of_length_lt [9, 10, 11, 12, 13, 14, 15, 16, 1]
      f.h_mAcceptableVec (by decide) (by rw [hlen]; decide)
    rw [← hprod] at hp
    obtain ⟨b, hb, rfl⟩ := List.mem_map.mp hp
    refine ⟨b, hb, ?_⟩
    rw [hvec]
    cases hacc : isAcceptable f ((readKernelVec weights16 16).getD 0 0
        * (readKernelVec weights16 16).getD b 0) with
    | false => rfl
    | true => exact absurd ((isAcceptable_iff_mem f (by rw [hlen, hlut]) _).mp hacc) hnot
  · apply create_none_of_build weights16 5 1 268435457 (by decide) (by decide) (by decide)
    apply buildAcceptable_none _ _ _ _ _ (by decide) 9 (by decide) (by decide)
    decide

/-! ## The configuration assertions -/

/-- A failed configuration assertion leaves no filter. -/
theorem create_of_assert_fails (weightsFile : Option (List Int))
    (kernelSize kernelRuns kernelSpan : Int) (h : ¬ configAssertsHold kernelSize kernelSpan) :
    ContiguousLineFilter.create weightsFile kernelSize kernelRuns kernelSpan = none := by
  unfold configAssertsHold at h
  unfold ContiguousLineFilter.create
  simp only []
  split_ifs with h1 h2 h3
  all_goals first | rfl | exact absurd ⟨h1, h2, h3⟩ h

/-- A constructed filter passed the configuration assertions. -/
theorem configAsserts_of_create (weightsFile : Option (List Int))
    (kernelSize kernelRuns kernelSpan : Int) (f : ContiguousLineFilter)
    (hf : ContiguousLineFilter.create weightsFile kernelSize kernelRuns kernelSpan = some f) :
    configAssertsHold kernelSize kernelSpan := by
  by_contra h
  rw [create_of_assert_fails _ _ _ _ h] at hf
  exact absurd hf (by simp)

/-- C16 (as amended): for `int` arguments a configuration assertion of the constructor fails
exactly when `kernelSize` is even, below `1` or above `13`, or `kernelSpan` is even
(`kernelSize = 1` and negative odd spans pass); a failed assertion leaves no filter; and for
odd `kernelSize` in `3..13`, odd `kernelSpan ≥ 1` with `4·(kernelSize − 1)·kernelSpan < 2^32`
and any weights file, construction succeeds. -/
theorem C16_configuration_assertions (kernelSize kernelSpan : Int)
    (hks0 : -2147483648 ≤ kernelSize) (hks1 : kernelSize < 2147483648) :
    (¬ configAssertsHold kernelSize kernelSpan ↔
      (kernelSize % 2 = 0 ∨ kernelSize < 1 ∨ 13 < kernelSize ∨ kernelSpan % 2 = 0)) ∧
    (¬ configAssertsHold kernelSize kernelSpan →
      ∀ (weightsFile : Option (List Int)) (kernelRuns : Int),
        ContiguousLineFilter.create weightsFile kernelSize kernelRuns kernelSpan = none) ∧
    (3 ≤ kernelSize → kernelSize ≤ 13 → kernelSize % 2 = 1 → 1 ≤ kernelSpan →
      kernelSpan % 2 = 1 → (kernelSize - 1) * 4 * kernelSpan < 4294967296 →
      ∀ (file : List Int) (kernelRuns : Int),
        ∃ f, ContiguousLineFilter.create (some file) kernelSize kernelRuns kernelSpan = some f) := by
  refine ⟨?_, ?_, ?_⟩
  · unfold configAssertsHold toU32
    omega
  · intro h weightsFile kernelRuns
    exact create_of_assert_fails _ _ _ _ h
  · intro h3 h13 hodd hspan1 hspanodd hno file kernelRuns
    obtain ⟨f, hf, -⟩ := create_succeeds_all file kernelSize kernelRuns kernelSpan h3 h13 hodd
      hspan1 hspanodd hno
    exact ⟨f, hf⟩

theorem C16_configuration_assertions_witness :
    (-2147483648 : Int) ≤ 4 ∧ (4 : Int) < 2147483648 ∧
    (¬ configAssertsHold 4 (-3) ↔
      ((4 : Int) % 2 = 0 ∨ (4 : Int) < 1 ∨ (13 : Int) < 4 ∨ (-3 : Int) % 2 = 0)) ∧
    (¬ configAssertsHold 4 (-3) →
      ContiguousLineFilter.create (some weightsOnes) 4 1 (-3) = none) :=
  have h := C16_configuration_assertions 4 (-3) (by decide) (by decide)
  ⟨by decide, by decide, h.1, fun hn => h.2.1 hn (some weightsOnes) 1⟩

/-- C16 (counterexample): `kernelSize = 1` lies outside `[3, 13]` and `kernelSpan = -1` is not
positive, but neither makes an assertion fail: with `kernelSize = 1`, `kernelSpan = 1` a filter
is constructed, and the assertions hold for `kernelSize = 3`, `kernelSpan = -1`. -/
theorem C16_size_one_is_accepted :
    ContiguousLineFilter.create (some []) 1 1 1 = some filter1 ∧
    configAssertsHold 1 1 ∧ configAssertsHold 3 (-1) := by
  refine ⟨rfl, ?_, ?_⟩ <;> decide

/-! ## Bounds of the memory accesses -/

/-- An entry of a log built by a loop comes from the initial log or from one iteration. -/
theorem mem_forLoop_log {α : Type} (lo hi : Int) (g : Int → List α) (init : List α) (a : α)
    (h : a ∈ forLoop lo hi (fun x log => log ++ g x) init) :
    a ∈ init ∨ ∃ x, lo ≤ x ∧ x < hi ∧ a ∈ g x := by
  by_cases hle : hi ≤ lo
  · rw [forLoop_of_le _ _ _ _ hle] at h
    exact Or.inl h
  · have key := forLoop_inv
      (fun (y : Int) (log : List α) => ∀ b ∈ log, b ∈ init ∨ ∃ x, lo ≤ x ∧ x < y ∧ b ∈ g x)
      lo hi (fun x log => log ++ g x) init (by omega) (fun b hb => Or.inl hb) ?_
    · rcases key a h with h1 | ⟨x, h2, h3, h4⟩
      · exact Or.inl h1
      · exact Or.inr ⟨x, h2, h3, h4⟩
    · intro y log hy0 hy1 hP b hb
      rcases List.mem_append.mp hb with h1 | h1
      · rcases hP b h1 with h2 | ⟨x, h3, h4, h5⟩
        · exact Or.inl h2
        · exact Or.inr ⟨x, h3, by omega, h5⟩
      · exact Or.inr ⟨y, hy0, by omega, h1⟩

/-- An entry of a log built by a nest of two loops comes from one iteration of the nest. -/
theorem mem_forLoop_log2 {α : Type} (lo hi lo2 hi2 : Int) (g : Int → Int → List α) (a : α)
    (h : a ∈ forLoop lo hi (fun x log => forLoop lo2 hi2 (fun y log => log ++ g y x) log) []) :
    ∃ x y, lo ≤ x ∧ x < hi ∧ lo2 ≤ y ∧ y < hi2 ∧ a ∈ g y x := by
  by_cases hle : hi ≤ lo
  · rw [forLoop_of_le _ _ _ _ hle] at h
    exact absurd h (List.not_mem_nil a)
  · have key := forLoop_inv
      (fun (z : Int) (log : List α) =>
        ∀ b ∈ log, ∃ x y, lo ≤ x ∧ x < z ∧ lo2 ≤ y ∧ y < hi2 ∧ b ∈ g y x)
      lo hi (fun x log => forLoop lo2 hi2 (fun y log => log ++ g y x) log) [] (by omega)
      (fun b hb => absurd hb (List.not_mem_nil b)) ?_
    · exact key a h
    · intro z log hz0 hz1 hP b hb
      rcases mem_forLoop_log lo2 hi2 (fun y => g y z) log b hb with h1 | ⟨y, h2, h3, h4⟩
      · obtain ⟨x, y, h5, h6, h7, h8, h9⟩ := hP b h1
        exact ⟨x, y, h5, by omega, h7, h8, h9⟩
      · exact ⟨z, y, hz0, by omega, h2, h3, h4⟩

theorem buildKernel_length (ks : Nat) : (buildKernel ks).length = ks * ks := by
  unfold buildKernel
  simp only []
  apply forLoop_inv (fun _ (ker : List Nat) => ker.length = ks * ks) _ _ _ _ (by omega)
    (by simp)
  intro i ker _ _ hP
  by_cases h1 : (ks : Int) - i ≤ i
  · rw [forLoop_of_le _ _ _ _ h1]; exact hP
  · apply forLoop_inv (fun _ (ker : List Nat) => ker.length = ks * ks) _ _ _ _ (by omega) hP
    intro x ker2 _ _ hQ
    apply forLoop_inv (fun _ (ker : List Nat) => ker.length = ks * ks) _ _ _ _ (by omega) hQ
    intro y ker3 _ _ hR
    simp only [List.length_set]
    exact hR

theorem readKernelVec_length (file : List Int) (n : Nat) : (readKernelVec file n).length = n := by
  rw [readKernelVec_eq]
  simp

theorem straightLineBody_inBounds (f : ContiguousLineFilter) (m : Mat)
    (hodd : f.mKernelSize % 2 = 1)
    (hvec : f.h_mKernelVec.length = (f.mKernelSize - 1) * 4)
    (htab : f.h_mAcceptableVec.length = f.mLUTsize)
    (j i : Int) (hi0 : f.mhKernelSize ≤ i) (hi1 : i < (f.padded m).cols - f.mhKernelSize)
    (hj0 : f.mhKernelSize ≤ j) (hj1 : j < (f.padded m).rows - f.mhKernelSize)
    (a : Access) (ha : a ∈ straightLineBodyAccesses f j i) : a.inBounds f m := by
  have hrows : (f.padded m).rows = m.rows + f.mhKernelSize + f.mhKernelSize := rfl
  have hcols : (f.padded m).cols = m.cols + f.mhKernelSize + f.mhKernelSize := rfl
  have hmh : f.mhKernelSize = ((f.mKernelSize / 2 : Nat) : Int) := rfl
  have hks : ((f.mKernelSize : Nat) : Int) = 2 * f.mhKernelSize + 1 := by omega
  have hmh0 : 0 ≤ f.mhKernelSize := by omega
  have hvec2 : ((f.h_mKernelVec.length : Nat) : Int) = 8 * f.mhKernelSize := by omega
  unfold straightLineBodyAccesses at ha
  simp only [List.mem_append, List.mem_singleton] at ha
  rcases ha with ((((((ha | ha) | ha) | ha) | ha) | ha) | ha)
  · subst ha
    simp only [Access.inBounds]
    omega
  · rcases mem_forLoop_log _ _ _ _ _ ha with h | ⟨k, hk0, hk1, h⟩
    · exact absurd h (List.not_mem_nil a)
    · simp only [List.mem_cons, List.mem_singleton, List.not_mem_nil, or_false] at h
      rcases h with h | h <;> subst h <;> simp only [Access.inBounds] <;> omega
  · rcases mem_forLoop_log _ _ _ _ _ ha with h | ⟨k, hk0, hk1, h⟩
    · exact absurd h (List.not_mem_nil a)
    · simp only [List.mem_cons, List.mem_singleton, List.not_mem_nil, or_false] at h
      rcases h with h | h <;> subst h <;> simp only [Access.inBounds] <;> omega
  · rcases mem_forLoop_log _ _ _ _ _ ha with h | ⟨k, hk0, hk1, h⟩
    · exact absurd h (List.not_mem_nil a)
    · simp only [List.mem_cons, List.mem_singleton, List.not_mem_nil, or_false] at h
      rcases h with h | h <;> subst h <;> simp only [Access.inBounds] <;> omega
  · rcases mem_forLoop_log _ _ _ _ _ ha with h | ⟨k, hk0, hk1, h⟩
    · exact absurd h (List.not_mem_nil a)
    · simp only [List.mem_cons, List.mem_singleton, List.not_mem_nil, or_false] at h
      rcases h with h | h <;> subst h <;> simp only [Access.inBounds] <;> omega
  · rcases mem_forLoop_log _ _ _ _ _ ha with h | ⟨k, hk0, hk1, h⟩
    · exact absurd h (List.not_mem_nil a)
    · simp only [List.mem_singleton] at h
      subst h
      simp only [Access.inBounds]
      omega
  · subst ha
    simp only [Access.inBounds]
    omega

theorem contiguousLineBody_inBounds (f : ContiguousLineFilter) (m : Mat)
    (hodd : f.mKernelSize % 2 = 1)
    (hker : f.h_mKernel.length = f.mKernelSize * f.mKernelSize)
    (j i : Int) (hi0 : f.mhKernelSize ≤ i) (hi1 : i < (f.padded m).cols - f.mhKernelSize)
    (hj0 : f.mhKernelSize ≤ j) (hj1 : j < (f.padded m).rows - f.mhKernelSize)
    (a : Access) (ha : a ∈ contiguousLineBodyAccesses f j i) : a.inBounds f m := by
  have hrows : (f.padded m).rows = m.rows + f.mhKernelSize + f.mhKernelSize := rfl
  have hcols : (f.padded m).cols = m.cols + f.mhKernelSize + f.mhKernelSize := rfl
  have hmh : f.mhKernelSize = ((f.mKernelSize / 2 : Nat) : Int) := rfl
  have hks : ((f.mKernelSize : Nat) : Int) = 2 * f.mhKernelSize + 1 := by omega
  have hmh0 : 0 ≤ f.mhKernelSize := by omega
  have hker2 : ((f.h_mKernel.length : Nat) : Int)
      = ((f.mKernelSize : Nat) : Int) * ((f.mKernelSize : Nat) : Int) := by
    rw [hker]; push_cast; ring
  unfold contiguousLineBodyAccesses at ha
  simp only [List.mem_append, List.mem_singleton] at ha
  rcases ha with ha | ha
  · obtain ⟨k, l, hk0, hk1, hl0, hl1, h⟩ := mem_forLoop_log2 _ _ _ _
      (fun l k => [Access.kernelIndex ((k + f.mhKernelSize) * ((f.mKernelSize : Nat) : Int)
          + (l + f.mhKernelSize)),
        Access.pixelRead (j + k) (i + l)]) a ha
    simp only [List.mem_cons, List.mem_singleton, List.not_mem_nil, or_false] at h
    rcases h with h | h
    · subst h
      simp only [Access.inBounds]
      rw [hker2]
      have h1 : 0 ≤ k + f.mhKernelSize := by omega
      have h2 : k + f.mhKernelSize + 1 ≤ ((f.mKernelSize : Nat) : Int) := by omega
      have h3 : 0 ≤ ((f.mKernelSize : Nat) : Int) := by omega
      have h4 : (k + f.mhKernelSize + 1) * ((f.mKernelSize : Nat) : Int)
          ≤ ((f.mKernelSize : Nat) : Int) * ((f.mKernelSize : Nat) : Int) :=
        Int.mul_le_mul_of_nonneg_right h2 h3
      have h5 : 0 ≤ (k + f.mhKernelSize) * ((f.mKernelSize : Nat) : Int) :=
        Int.mul_nonneg h1 h3
      have h6 : (k + f.mhKernelSize + 1) * ((f.mKernelSize : Nat) : Int)
          = (k + f.mhKernelSize) * ((f.mKernelSize : Nat) : Int) + ((f.mKernelSize : Nat) : Int) := by
        ring
      constructor
      · omega
      · omega
    · subst h
      simp only [Access.inBounds]
      omega
  · subst ha
    simp only [Access.inBounds]
    omega

/-- C17: for every filter the constructor produces and every grid `clamped` (of `H` rows and
`W` columns, with `h = mKernelSize / 2`), the padded snapshot has `H + 2h` rows and `W + 2h`
columns, the perimeter weight vector has `4 * (mKernelSize - 1)` entries and the kernel
`mKernelSize * mKernelSize`, and every access the straight-line pass and a repetition of the
contiguous-line pass can make on `clamped` lies inside its object: pixel reads inside the
padded snapshot, pixel writes inside the unpadded grid, and indices inside the perimeter
weight vector, the kernel and the table. -/
theorem C17_accesses_in_bounds (weightsFile : Option (List Int))
    (kernelSize kernelRuns kernelSpan : Int) (f : ContiguousLineFilter)
    (hf : ContiguousLineFilter.create weightsFile kernelSize kernelRuns kernelSpan = some f)
    (clamped : Mat) :
    (f.padded clamped).rows = clamped.rows + 2 * ((f.mKernelSize / 2 : Nat) : Int) ∧
    (f.padded clamped).cols = clamped.cols + 2 * ((f.mKernelSize / 2 : Nat) : Int) ∧
    f.h_mKernelVec.length = 4 * (f.mKernelSize - 1) ∧
    f.h_mKernel.length = f.mKernelSize * f.mKernelSize ∧
    (∀ a ∈ straightLinePassAccesses f clamped, a.inBounds f clamped) ∧
    (∀ a ∈ contiguousLinePassAccesses f clamped, a.inBounds f clamped) := by
  obtain ⟨-, -, -, -, hodd, -, hL, hker, -, -, file, st, -, hvec, -, -⟩ := create_some _ _ _ _ _ hf
  obtain ⟨htab, -, -⟩ := create_table _ _ _ _ _ hf
  have hveclen : f.h_mKernelVec.length = (f.mKernelSize - 1) * 4 := by
    rw [hvec, readKernelVec_length, hL]
  have hkerlen : f.h_mKernel.length = f.mKernelSize * f.mKernelSize := by
    rw [hker, buildKernel_length]
  have hrows : (f.padded clamped).rows = clamped.rows + f.mhKernelSize + f.mhKernelSize := rfl
  have hcols : (f.padded clamped).cols = clamped.cols + f.mhKernelSize + f.mhKernelSize := rfl
  have hmh : f.mhKernelSize = ((f.mKernelSize / 2 : Nat) : Int) := rfl
  refine ⟨by omega, by omega, by omega, hkerlen, ?_, ?_⟩
  · intro a ha
    obtain ⟨i, j, hi0, hi1, hj0, hj1, h⟩ := mem_forLoop_log2 _ _ _ _
      (fun j i => straightLineBodyAccesses f j i) a ha
    exact straightLineBody_inBounds f clamped hodd hveclen htab j i hi0 hi1 hj0 hj1 a h
  · intro a ha
    obtain ⟨i, j, hi0, hi1, hj0, hj1, h⟩ := mem_forLoop_log2 _ _ _ _
      (fun j i => contiguousLineBodyAccesses f j i) a ha
    exact contiguousLineBody_inBounds f clamped hodd hkerlen j i hi0 hi1 hj0 hj1 a h

set_option maxRecDepth 1000000 in
theorem C17_accesses_in_bounds_witness :
    ContiguousLineFilter.create (some weightsOnes) 3 1 1 = some filter3 ∧
    (straightLinePassAccesses filter3 lineImage).length = 110 ∧
    (contiguousLinePassAccesses filter3 lineImage).length = 95 ∧
    (∀ a ∈ straightLinePassAccesses filter3 lineImage, a.inBounds filter3 lineImage) ∧
    (∀ a ∈ contiguousLinePassAccesses filter3 lineImage, a.inBounds filter3 lineImage) :=
  ⟨rfl, by decide, by decide,
    (C17_accesses_in_bounds (some weightsOnes) 3 1 1 filter3 rfl lineImage).2.2.2.2.1,
    (C17_accesses_in_bounds (some weightsOnes) 3 1 1 filter3 rfl lineImage).2.2.2.2.2⟩

/-! ## The order of the perimeter scans -/

set_option maxRecDepth 1000000 in
theorem perimeterVisits_eq_cells : ∀ k ∈ [3, 5, 7, 9, 11, 13],
    perimeterVisits k
      = (perimeterCells (k / 2)).map (fun (c : Nat × Int × Int) => ((c.1 : Int), c.2.1, c.2.2)) := by
  decide

set_option maxRecDepth 1000000 in
theorem perimeterVisits_ring : ∀ k ∈ [3, 5, 7, 9, 11, 13],
    (perimeterVisits k).map (fun (v : Int × Int × Int) => v.1)
      = (List.range (4 * (k - 1))).map (fun (p : Nat) => (p : Int)) ∧
    ((perimeterVisits k).map (fun (v : Int × Int × Int) => v.2)).Nodup ∧
    (∀ v ∈ perimeterVisits k, -((k / 2 : Nat) : Int) ≤ v.2.1 ∧ v.2.1 ≤ ((k / 2 : Nat) : Int) ∧
      -((k / 2 : Nat) : Int) ≤ v.2.2 ∧ v.2.2 ≤ ((k / 2 : Nat) : Int)) ∧
    (∀ y, y < k → ∀ x, x < k →
      ((((y : Int) - ((k / 2 : Nat) : Int), (x : Int) - ((k / 2 : Nat) : Int))
          ∈ (perimeterVisits k).map (fun (v : Int × Int × Int) => v.2))
        ↔ (y = 0 ∨ y = k - 1 ∨ x = 0 ∨ x = k - 1))) := by
  decide

set_option maxRecDepth 1000000 in
theorem perimeterVisits_clockwise : ∀ k ∈ [3, 5, 7, 9, 11, 13],
    (perimeterVisits k).head? = some (0, -((k / 2 : Nat) : Int), -((k / 2 : Nat) : Int)) ∧
    (∀ p, p < 4 * (k - 1) - 1 →
      ((perimeterVisits k).getD (p + 1) (0, 0, 0)).2
        = clockwiseNext ((k / 2 : Nat) : Int) ((perimeterVisits k).getD p (0, 0, 0)).2) ∧
    clockwiseNext ((k / 2 : Nat) : Int) ((perimeterVisits k).getD (4 * (k - 1) - 1) (0, 0, 0)).2
      = ((perimeterVisits k).getD 0 (0, 0, 0)).2 ∧
    (∀ p, p < 4 * (k - 1) →
      (perimeterVisits k).getD ((p + 4 * (k - 1) / 2) % (4 * (k - 1))) (0, 0, 0)
        = ((((p + 4 * (k - 1) / 2) % (4 * (k - 1)) : Nat) : Int),
           -((perimeterVisits k).getD p (0, 0, 0)).2.1,
           -((perimeterVisits k).getD p (0, 0, 0)).2.2)) := by
  decide

theorem perimeterScan_eq_visits (f : ContiguousLineFilter) (k : Nat)
    (hk : k ∈ [3, 5, 7, 9, 11, 13]) (hf : f.mKernelSize = k) (h_pImage : Mat) (j i : Int) :
    perimeterScan f h_pImage j i
      = (perimeterVisits k).foldl
          (fun s (v : Int × Int × Int) => scanBody (h_pImage.get (j + v.2.1) (i + v.2.2))
            (f.h_mKernelVec.getD v.1.toNat 0) s) (0, 1) := by
  have hodd : f.mKernelSize % 2 = 1 := by
    rw [hf]
    simp only [List.mem_cons, List.mem_singleton, List.not_mem_nil, or_false] at hk
    omega
  rw [perimeterScan_eq_foldl f hodd, hf, perimeterVisits_eq_cells k hk, List.foldl_map]
  simp only [Int.toNat_ofNat]

/-- C18: for every odd `k` in `3..13`, with `L = 4 * (k - 1)` and `h = k / 2`: the four
perimeter scans of the straight-line pass are one scan over the cells of `perimeterVisits k`;
the indices these cells use into the perimeter vector are `0, 1, ..., L - 1` in this order; no
cell is visited twice, every visited cell lies in the window, and a cell of the window is
visited exactly when it lies on the outermost ring; the first cell is the top-left corner,
each next cell is the clockwise successor of the one before, and the successor of the last
is the first; and the cell with index `(p + L / 2) % L` is the point reflection through the
centre of the cell with index `p`. -/
theorem C18_perimeter_scan_order (k : Nat) (h3 : 3 ≤ k) (h13 : k ≤ 13) (hodd : k % 2 = 1) :
    (∀ (f : ContiguousLineFilter) (h_pImage : Mat) (j i : Int), f.mKernelSize = k →
      perimeterScan f h_pImage j i
        = (perimeterVisits k).foldl
            (fun s (v : Int × Int × Int) => scanBody (h_pImage.get (j + v.2.1) (i + v.2.2))
              (f.h_mKernelVec.getD v.1.toNat 0) s) (0, 1)) ∧
    (perimeterVisits k).map (fun (v : Int × Int × Int) => v.1)
      = (List.range (4 * (k - 1))).map (fun (p : Nat) => (p : Int)) ∧
    ((perimeterVisits k).map (fun (v : Int × Int × Int) => v.2)).Nodup ∧
    (∀ v ∈ perimeterVisits k, -((k / 2 : Nat) : Int) ≤ v.2.1 ∧ v.2.1 ≤ ((k / 2 : Nat) : Int) ∧
      -((k / 2 : Nat) : Int) ≤ v.2.2 ∧ v.2.2 ≤ ((k / 2 : Nat) : Int)) ∧
    (∀ y, y < k → ∀ x, x < k →
      ((((y : Int) - ((k / 2 : Nat) : Int), (x : Int) - ((k / 2 : Nat) : Int))
          ∈ (perimeterVisits k).map (fun (v : Int × Int × Int) => v.2))
        ↔ (y = 0 ∨ y = k - 1 ∨ x = 0 ∨ x = k - 1))) ∧
    (perimeterVisits k).head? = some (0, -((k / 2 : Nat) : Int), -((k / 2 : Nat) : Int)) ∧
    (∀ p, p < 4 * (k - 1) - 1 →
      ((perimeterVisits k).getD (p + 1) (0, 0, 0)).2
        = clockwiseNext ((k / 2 : Nat) : Int) ((perimeterVisits k).getD p (0, 0, 0)).2) ∧
    clockwiseNext ((k / 2 : Nat) : Int) ((perimeterVisits k).getD (4 * (k - 1) - 1) (0, 0, 0)).2
      = ((perimeterVisits k).getD 0 (0, 0, 0)).2 ∧
    (∀ p, p < 4 * (k - 1) →
      (perimeterVisits k).getD ((p + 4 * (k - 1) / 2) % (4 * (k - 1))) (0, 0, 0)
        = ((((p + 4 * (k - 1) / 2) % (4 * (k - 1)) : Nat) : Int),
           -((perimeterVisits k).getD p (0, 0, 0)).2.1,
           -((perimeterVisits k).getD p (0, 0, 0)).2.2)) := by
  have hk : k ∈ [3, 5, 7, 9, 11, 13] := by
    simp only [List.mem_cons, List.mem_singleton, List.not_mem_nil, or_false]
    omega
  obtain ⟨a1, a2, a3, a4⟩ := perimeterVisits_ring k hk
  obtain ⟨b1, b2, b3, b4⟩ := perimeterVisits_clockwise k hk
  exact ⟨fun f h_pImage j i hf => perimeterScan_eq_visits f k hk hf h_pImage j i,
    a1, a2, a3, a4, b1, b2, b3, b4⟩

theorem C18_perimeter_scan_order_witness :
    3 ≤ 3 ∧ 3 ≤ 13 ∧ 3 % 2 = 1 ∧
    perimeterVisits 3
      = [(0, -1, -1), (1, -1, 0), (2, -1, 1), (3, 0, 1), (4, 1, 1), (5, 1, 0), (6, 1, -1),
         (7, 0, -1)] ∧
    (perimeterVisits 3).map (fun (v : Int × Int × Int) => v.1)
      = (List.range (4 * (3 - 1))).map (fun (p : Nat) => (p : Int)) ∧
    ((perimeterVisits 3).map (fun (v : Int × Int × Int) => v.2)).Nodup :=
  ⟨by decide, by decide, by decide, by decide,
    (C18_perimeter_scan_order 3 (by decide) (by decide) (by decide)).2.1,
    (C18_perimeter_scan_order 3 (by decide) (by decide) (by decide)).2.2.1⟩

end CLF
